import Mathlib

/-!
Shallow embedding of the routing system (graph model, Dijkstra, Bellman-Ford,
validator, orchestrator) and verification of the specified claims.

Conventions of the embedding:
* Python `dict` values are association lists (`PyDict`) preserving insertion
  order; overwriting a key keeps its position, new keys are appended, matching
  CPython semantics.
* Edge weights (Python `float`) are embedded as rationals `ℚ`; `float('inf')`
  sentinels are embedded as `Option ℚ` with `none` standing for infinity.
* Exceptions are embedded as the `Except PyErr` monad.  An unbounded Python
  `while` loop is embedded with explicit fuel; exhausting the fuel returns
  `PyErr.nonterm`, which stands for genuine non-termination of the Python
  loop (the fuel bounds are chosen so that exhaustion implies the loop
  revisits a state).
* Wall-clock timeouts are embedded as an oracle `ℕ → Bool` telling whether
  the n-th timeout check observes an expired deadline; `none` for the whole
  timeout argument mirrors Python `timeout=None` (checks skipped).
-/

/-- Python `dict` with `String` keys: insertion-ordered association list. -/
abbrev PyDict (α : Type) := List (String × α)

/-- `d[k]` lookup returning `none` when the key is absent. -/
def dget {α : Type} : PyDict α → String → Option α
  | [], _ => none
  | (k', v) :: t, k => if k' = k then some v else dget t k

/-- `d[k] = v` assignment: overwrite in place, or append a fresh key. -/
def dset {α : Type} : PyDict α → String → α → PyDict α
  | [], k, v => [(k, v)]
  | (k', v') :: t, k, v => if k' = k then (k, v) :: t else (k', v') :: dset t k v

/-- Key list of a dict, in insertion order. -/
def dkeys {α : Type} (d : PyDict α) : List String := d.map Prod.fst

/-- Python `needle in haystack` substring test. -/
def strContains (hay needle : String) : Bool :=
  (hay.toList.tails).any fun t => needle.toList.isPrefixOf t

/-- Embedded Python exceptions, plus a marker for non-termination. -/
inductive PyErr : Type
  | valueError (msg : String)
  | timeoutError (msg : String)
  | validationError (msg : String)
  | keyError
  | nonterm
deriving DecidableEq, Repr

/-- Timeout argument: `none` is Python `timeout=None`; otherwise a textual
representation of the deadline (used in the exception message) and the
oracle saying whether the n-th check observes an expired clock. -/
structure TimeoutSpec : Type where
  repr : String
  fires : ℕ → Bool

namespace Sv

/-! ### graph.py -/

/-- Mirror of `GraphMetadata` (graph.py).  `min_weight`/`max_weight` start as
`float('inf')` / `float('-inf')`; the infinite initial values are embedded as
`none`. -/
structure GraphMetadata : Type where
  node_count : ℕ
  edge_count : ℕ
  has_negative_weights : Bool
  has_negative_cycle : Bool
  min_weight : Option ℚ
  max_weight : Option ℚ
  negative_edges : List (String × String × ℚ)
deriving DecidableEq, Repr

def GraphMetadata.init : GraphMetadata :=
  { node_count := 0, edge_count := 0, has_negative_weights := false,
    has_negative_cycle := false, min_weight := none, max_weight := none,
    negative_edges := [] }

/-- Mirror of `Graph` (graph.py): adjacency dict-of-dicts plus metadata.
The `_validated` dirty flag is not carried: `get_metadata` is embedded as the
pure recomputation `_update_metadata` performs, which yields the same
observable metadata because the recomputation is deterministic. -/
structure Graph : Type where
  adj : PyDict (PyDict ℚ)
  metadata : GraphMetadata
deriving DecidableEq, Repr

def Graph.init : Graph := { adj := [], metadata := GraphMetadata.init }

/-- `if source not in self._adj: self._adj[source] = {}` -/
def ensureKey (adj : PyDict (PyDict ℚ)) (k : String) : PyDict (PyDict ℚ) :=
  match dget adj k with
  | none => dset adj k []
  | some _ => adj

/-- Mirror of `Graph.add_edge`. -/
def add_edge (g : Graph) (source target : String) (weight : ℚ) : Graph :=
  let a1 := ensureKey g.adj source
  let a2 := dset a1 source (dset ((dget a1 source).getD []) target weight)
  let a3 := ensureKey a2 target
  { adj := a3,
    metadata :=
      { g.metadata with
        edge_count := g.metadata.edge_count + 1,
        min_weight := some (match g.metadata.min_weight with
          | none => weight
          | some m => min m weight),
        max_weight := some (match g.metadata.max_weight with
          | none => weight
          | some m => max m weight),
        has_negative_weights := g.metadata.has_negative_weights || decide (weight < 0),
        negative_edges :=
          if weight < 0 then g.metadata.negative_edges ++ [(source, target, weight)]
          else g.metadata.negative_edges } }

/-- Mirror of `Graph.neighbors` (absent node yields the empty dict). -/
def neighbors (g : Graph) (node : String) : PyDict ℚ := (dget g.adj node).getD []

/-- Mirror of `Graph.nodes` (insertion order). -/
def nodesList (g : Graph) : List String := dkeys g.adj

/-- Mirror of `Graph.edges`: all `(source, target, weight)` triples in
adjacency iteration order. -/
def edgesList (g : Graph) : List (String × String × ℚ) :=
  g.adj.flatMap fun p => p.2.map fun q => (p.1, q.1, q.2)

/-- Mirror of `Graph.has_node`. -/
def has_node (g : Graph) (node : String) : Bool := (dget g.adj node).isSome

/-- Mirror of `Graph.from_edge_list`. -/
def from_edge_list (edges : List (String × String × ℚ)) : Graph :=
  edges.foldl (fun g e => add_edge g e.1 e.2.1 e.2.2) Graph.init

/-! Negative-cycle probe (`Graph._detect_negative_cycle`).  Distances are
`Option ℚ` with `none` for `float('inf')`.  Every key accessed is present
(the dict is initialised with all nodes and edge endpoints are nodes), so a
missing key is folded into the infinity case via `Option.join`. -/

/-- One relaxation of one edge inside the probe:
`if dist[source] != inf and dist[source] + weight < dist[target]`. -/
def probeRelax (dist : PyDict (Option ℚ)) (e : String × String × ℚ) :
    PyDict (Option ℚ) :=
  match (dget dist e.1).join with
  | none => dist
  | some ds =>
    match (dget dist e.2.1).join with
    | none => dset dist e.2.1 (some (ds + e.2.2))
    | some dt =>
      if ds + e.2.2 < dt then dset dist e.2.1 (some (ds + e.2.2)) else dist

/-- One full pass over every edge. -/
def probePass (g : Graph) (dist : PyDict (Option ℚ)) : PyDict (Option ℚ) :=
  (edgesList g).foldl probeRelax dist

/-- Does some edge still offer an improvement? -/
def improvesSome (g : Graph) (dist : PyDict (Option ℚ)) : Bool :=
  (edgesList g).any fun e =>
    match (dget dist e.1).join with
    | none => false
    | some ds =>
      match (dget dist e.2.1).join with
      | none => true
      | some dt => decide (ds + e.2.2 < dt)

/-- The probe's initial distance dict: all nodes at infinity, then the first
node (the arbitrary source `next(iter(self.nodes()))`) set to `0`. -/
def probeInit (g : Graph) (s0 : String) : PyDict (Option ℚ) :=
  dset ((nodesList g).map fun n => (n, (none : Option ℚ))) s0 (some 0)

/-- Mirror of `Graph._detect_negative_cycle`. -/
def detect_negative_cycle (g : Graph) : Bool :=
  match g.adj with
  | [] => false
  | (s0, _) :: _ =>
    let dist :=
      (List.range (g.adj.length - 1)).foldl (fun d _ => probePass g d) (probeInit g s0)
    improvesSome g dist

/-- Mirror of `Graph.get_metadata` composed with `_update_metadata`:
recomputes `node_count`, and `has_negative_cycle` only when negative weights
are present. -/
def get_metadata (g : Graph) : GraphMetadata :=
  { g.metadata with
    node_count := g.adj.length,
    has_negative_cycle :=
      if g.metadata.has_negative_weights then detect_negative_cycle g
      else g.metadata.has_negative_cycle }

/-! ### routing.py -/

/-- Shared `_reconstruct_path` predecessor walk, with fuel.  The Python loop
`while node is not None: path.append(node); node = prev.get(node)` diverges
exactly when the predecessor chain revisits a node; a chain of more than
`prev.length + 1` nodes must revisit one (every step goes through a key of
`prev`), so exhausting that fuel is equivalent to divergence. -/
def walkPrev (prev : PyDict (Option String)) : String → ℕ → Option (List String)
  | _, 0 => none
  | n, fuel + 1 =>
    match (dget prev n).join with
    | none => some [n]
    | some p => (walkPrev prev p fuel).map fun l => n :: l

/-- Mirror of `_reconstruct_path`: goal-to-start chain, reversed. -/
def reconstruct_path (prev : PyDict (Option String)) (goal : String) :
    Option (List String) :=
  (walkPrev prev goal (prev.length + 1)).map List.reverse

/-! Bellman-Ford (`BellmanFordAlgorithm.compute`). -/

/-- One pass of the main loop over every edge, also reporting `any_update`.
Distances/predecessors are threaded exactly as the Python statements mutate
them. -/
def bfPass (g : Graph) (st : PyDict (Option ℚ) × PyDict (Option String) × Bool) :
    PyDict (Option ℚ) × PyDict (Option String) × Bool :=
  (edgesList g).foldl
    (fun st e =>
      let (dist, prev, upd) := st
      match (dget dist e.1).join with
      | none => (dist, prev, upd)
      | some ds =>
        let nc := ds + e.2.2
        match (dget dist e.2.1).join with
        | none => (dset dist e.2.1 (some nc), dset prev e.2.1 (some e.1), true)
        | some dt =>
          if nc < dt then (dset dist e.2.1 (some nc), dset prev e.2.1 (some e.1), true)
          else (dist, prev, upd))
    st

/-- The `for iteration in range(node_count - 1)` loop with the per-pass
timeout check and the `if not any_update: break` early exit.  `tick` counts
timeout checks. -/
def bfLoop (g : Graph) (timeout : Option TimeoutSpec) :
    ℕ → ℕ → PyDict (Option ℚ) × PyDict (Option String) →
    Except PyErr (PyDict (Option ℚ) × PyDict (Option String))
  | 0, _, dp => .ok dp
  | k + 1, tick, dp =>
    let timedOut := match timeout with
      | none => false
      | some ts => ts.fires tick
    if timedOut then
      .error (.timeoutError ("Computation exceeded timeout of " ++
        (timeout.map TimeoutSpec.repr).getD "" ++ "s"))
    else
      let (d', p', upd) := bfPass g (dp.1, dp.2, false)
      if upd then bfLoop g timeout k (tick + 1) (d', p') else .ok (d', p')

/-- Mirror of `BellmanFordAlgorithm.compute`. -/
def bellmanFordCompute (g : Graph) (start goal : String)
    (timeout : Option TimeoutSpec) : Except PyErr (List String × ℚ) := do
  let dist0 := dset ((nodesList g).map fun n => (n, (none : Option ℚ))) start (some 0)
  let prev0 : PyDict (Option String) := (nodesList g).map fun n => (n, none)
  let node_count := (nodesList g).length
  let (dist, prev) ← bfLoop g timeout (node_count - 1) 0 (dist0, prev0)
  if improvesSome g dist then
    throw (.valueError "Graph contains negative cycle; shortest path undefined")
  else
    match dget dist goal with
    | none => throw .keyError
    | some none => throw (.valueError ("No path found from " ++ start ++ " to " ++ goal))
    | some (some c) =>
      match reconstruct_path prev goal with
      | none => throw .nonterm
      | some path => return (path, c)

/-! Dijkstra (`DijkstraAlgorithm.compute`).  The binary heap is embedded as a
plain list whose pop extracts the minimum under Python's lexicographic tuple
order; among equal tuples the choice is immaterial because equal tuples are
indistinguishable. -/

/-- Lexicographic strict order on heap entries, Python tuple comparison. -/
def entryLe (a b : ℚ × String) : Bool :=
  decide (a.1 < b.1) || (decide (a.1 = b.1) && decide (a.2 < b.2 ∨ a.2 = b.2))

/-- Extract the minimum entry (first occurrence among equals). -/
def popMin : List (ℚ × String) → Option ((ℚ × String) × List (ℚ × String))
  | [] => none
  | e :: t =>
    match popMin t with
    | none => some (e, [])
    | some (m, r) => if entryLe e m then some (e, t) else some (m, e :: r)

/-- The inner `for neighbor, weight in graph.neighbors(node).items()` loop:
threads (heap pushes, dist, prev). -/
def relaxNbrs (cost : ℚ) (node : String) (nbrs : PyDict ℚ)
    (st : List (ℚ × String) × PyDict ℚ × PyDict (Option String)) :
    List (ℚ × String) × PyDict ℚ × PyDict (Option String) :=
  nbrs.foldl
    (fun st q =>
      let (h, d, p) := st
      let nc := cost + q.2
      let better := match dget d q.1 with
        | none => true
        | some dv => decide (nc < dv)
      if better then (h ++ [(nc, q.1)], dset d q.1 nc, dset p q.1 (some node))
      else (h, d, p))
    st

/-- Dijkstra loop state. -/
structure DijState : Type where
  heap : List (ℚ × String)
  dist : PyDict ℚ
  prev : PyDict (Option String)
  visited : List String
deriving Repr

/-- The `while heap:` loop, fuel-indexed.  Each iteration: timeout check,
pop, visited skip, finalize, goal return, stale skip, relaxation. -/
def dijkstraLoop (g : Graph) (start goal : String) (timeout : Option TimeoutSpec) :
    ℕ → ℕ → DijState → Except PyErr (List String × ℚ)
  | 0, _, _ => .error .nonterm
  | fuel + 1, tick, st =>
    match popMin st.heap with
    | none => .error (.valueError ("No path found from " ++ start ++ " to " ++ goal))
    | some ((cost, node), h') =>
      let timedOut := match timeout with
        | none => false
        | some ts => ts.fires tick
      if timedOut then
        .error (.timeoutError ("Computation exceeded timeout of " ++
          (timeout.map TimeoutSpec.repr).getD "" ++ "s"))
      else if st.visited.contains node then
        dijkstraLoop g start goal timeout fuel (tick + 1) { st with heap := h' }
      else
        let visited' := st.visited ++ [node]
        if node = goal then
          match reconstruct_path st.prev goal with
          | none => .error .nonterm
          | some path => .ok (path, cost)
        else
          let stale := match dget st.dist node with
            | none => false
            | some dv => decide (dv < cost)
          if stale then
            dijkstraLoop g start goal timeout fuel (tick + 1)
              { st with heap := h', visited := visited' }
          else
            let (h2, d2, p2) := relaxNbrs cost node (neighbors g node) (h', st.dist, st.prev)
            dijkstraLoop g start goal timeout fuel (tick + 1)
              { heap := h2, dist := d2, prev := p2, visited := visited' }

/-- Fuel that provably suffices for the loop (each iteration strictly
decreases `heap.length + Σ outdeg over unvisited nodes`, which starts at
`1 + edge count`). -/
def dijFuel (g : Graph) : ℕ := (edgesList g).length + 2

/-- Mirror of `DijkstraAlgorithm.compute` (fuel-indexed). -/
def dijkstraCompute (g : Graph) (start goal : String)
    (timeout : Option TimeoutSpec) (fuel : ℕ) : Except PyErr (List String × ℚ) :=
  dijkstraLoop g start goal timeout fuel 0
    { heap := [(0, start)], dist := [(start, 0)], prev := [(start, none)], visited := [] }

/-! ### validation.py -/

/-- Mirror of `ValidationError` (the dataclass carrying field/message/code). -/
structure VErr : Type where
  field_ : String
  message : String
  code : String
deriving DecidableEq, Repr

/-- Mirror of `ValidationResult`. -/
structure VResult : Type where
  is_valid : Bool
  errors : List VErr
deriving DecidableEq, Repr

/-- Mirror of `ValidationResult.add_error`. -/
def addError (r : VResult) (f m c : String) : VResult :=
  { is_valid := false, errors := r.errors ++ [⟨f, m, c⟩] }

/-- Validator size limits (`GraphValidator.__init__` defaults). -/
def maxNodes : ℕ := 10000
def maxEdges : ℕ := 100000

/-- Mirror of `GraphValidator.validate_graph`. -/
def validate_graph (g : Graph) : VResult :=
  let md := get_metadata g
  let r : VResult := ⟨true, []⟩
  let r := if md.node_count > maxNodes then
      addError r "graph"
        ("Graph has " ++ toString md.node_count ++ " nodes, exceeds limit of " ++
          toString maxNodes) "GRAPH_TOO_LARGE"
    else r
  let r := if md.edge_count > maxEdges then
      addError r "graph"
        ("Graph has " ++ toString md.edge_count ++ " edges, exceeds limit of " ++
          toString maxEdges) "GRAPH_TOO_LARGE"
    else r
  let r := if md.node_count = 0 then
      addError r "graph" "Graph has no nodes" "EMPTY_GRAPH"
    else r
  let r := if md.has_negative_cycle then
      addError r "graph" "Graph contains negative weight cycle; shortest path is undefined"
        "NEGATIVE_CYCLE"
    else r
  r

/-- Mirror of `GraphValidator.validate_route_request` (note the early return
when the graph itself fails validation). -/
def validate_route_request (g : Graph) (start goal : String) : VResult :=
  let gv := validate_graph g
  if !gv.is_valid then ⟨false, gv.errors⟩
  else
    let r : VResult := ⟨true, []⟩
    let r := if !(has_node g start) then
        addError r "start" ("Start node '" ++ start ++ "' not found in graph")
          "NODE_NOT_FOUND"
      else r
    let r := if !(has_node g goal) then
        addError r "goal" ("Goal node '" ++ goal ++ "' not found in graph")
          "NODE_NOT_FOUND"
      else r
    r

/-! ### service.py -/

/-- Mirror of `RouteStatus`. -/
inductive RouteStatus : Type
  | SUCCESS | NO_PATH | NEGATIVE_CYCLE | TIMEOUT | VALIDATION_ERROR
deriving DecidableEq, Repr

/-- Mirror of `RouteRequest`.  `request_id` is the caller-supplied identifier
(Python fills `None` with a fresh uuid in `__post_init__`; a request reaching
`route` therefore carries a string, possibly empty).  `timeout` carries the
`timeout_seconds` deadline as repr plus clock oracle. -/
structure RouteRequest : Type where
  graph : Graph
  start : String
  goal : String
  request_id : String
  timeout : TimeoutSpec

/-- Mirror of `RouteResponse`.  The heterogeneous `metadata` dict is embedded
by its claim-relevant entries: `algorithm_used` and `validation_errors`;
wall-clock timing entries are not representable and are omitted. -/
structure RouteResponse : Type where
  request_id : String
  status : RouteStatus
  path : Option (List String)
  cost : Option ℚ
  algorithm_used : Option String
  validation_errors : List VErr
  error : Option String
deriving DecidableEq, Repr

/-- Orchestrator state: idempotency cache plus the uuid generator (fresh
uuid4 values are embedded as a counter, each generated id unique). -/
structure ServiceState : Type where
  cache : PyDict RouteResponse
  uuidCtr : ℕ
deriving Repr

def ServiceState.init : ServiceState := ⟨[], 0⟩

/-- Mirror of `RoutingService._handle_validation_error`. -/
def handle_validation_error (rid : String) (vr : VResult) : RouteResponse :=
  let error_str := String.intercalate "; "
    (vr.errors.map fun e => e.field_ ++ ": " ++ e.message)
  let is_negative_cycle := vr.errors.any fun e => e.code = "NEGATIVE_CYCLE"
  { request_id := rid,
    status := if is_negative_cycle then .NEGATIVE_CYCLE else .VALIDATION_ERROR,
    path := none, cost := none, algorithm_used := none,
    validation_errors := vr.errors,
    error := some error_str }

/-- Mirror of `AlgorithmSelector.select_algorithm` (returns the name; the
algorithm itself is dispatched on the name in `route`). -/
def select_algorithm_name (g : Graph) : String :=
  if (get_metadata g).has_negative_weights then "bellman_ford" else "dijkstra"

/-- Mirror of `AlgorithmSelector.compute_route`. -/
def compute_route (g : Graph) (start goal : String) (timeout : Option TimeoutSpec) :
    Except PyErr (List String × ℚ) × String :=
  let name := select_algorithm_name g
  if name = "bellman_ford" then (bellmanFordCompute g start goal timeout, name)
  else (dijkstraCompute g start goal timeout (dijFuel g), name)

/-- Mirror of `RoutingService.route`.  Only `TimeoutError` and `ValueError`
are caught; `KeyError` (and divergence) would escape the orchestrator and are
propagated in the `Except`. -/
def route (s : ServiceState) (req : RouteRequest) :
    Except PyErr (ServiceState × RouteResponse) :=
  let rid := if req.request_id = "" then "uuid-" ++ toString s.uuidCtr else req.request_id
  let ctr' := if req.request_id = "" then s.uuidCtr + 1 else s.uuidCtr
  match dget s.cache rid with
  | some cached => .ok ({ s with uuidCtr := ctr' }, cached)
  | none =>
    let vr := validate_route_request req.graph req.start req.goal
    if !vr.is_valid then
      let resp := handle_validation_error rid vr
      .ok (⟨dset s.cache rid resp, ctr'⟩, resp)
    else
      let (result, algName) :=
        compute_route req.graph req.start req.goal (some req.timeout)
      match result with
      | .ok (path, cost) =>
        let resp : RouteResponse :=
          { request_id := rid, status := .SUCCESS, path := some path,
            cost := some cost, algorithm_used := some algName,
            validation_errors := [], error := none }
        .ok (⟨dset s.cache rid resp, ctr'⟩, resp)
      | .error (.timeoutError m) =>
        let resp : RouteResponse :=
          { request_id := rid, status := .TIMEOUT, path := none, cost := none,
            algorithm_used := none, validation_errors := [], error := some m }
        .ok (⟨dset s.cache rid resp, ctr'⟩, resp)
      | .error (.valueError m) =>
        let status :=
          if strContains m "No path found" then RouteStatus.NO_PATH
          else if strContains m.toLower "negative cycle" then RouteStatus.NEGATIVE_CYCLE
          else RouteStatus.VALIDATION_ERROR
        let resp : RouteResponse :=
          { request_id := rid, status := status, path := none, cost := none,
            algorithm_used := none, validation_errors := [], error := some m }
        .ok (⟨dset s.cache rid resp, ctr'⟩, resp)
      | .error e => .error e

/-! ### Semantic notions used to specify the algorithms -/

/-- Weight of the directed edge a→b, when present. -/
def edgeW (g : Graph) (a b : String) : Option ℚ := dget (neighbors g a) b

/-- Well-formedness of the embedded adjacency structure: every Python dict
has distinct keys, and every edge target is itself a node.  Every graph the
Python class can reach (anything built by `add_edge`) satisfies this. -/
def Graph.WF (g : Graph) : Prop :=
  (dkeys g.adj).Nodup ∧ (∀ p ∈ g.adj, (dkeys p.2).Nodup) ∧
    (∀ e ∈ edgesList g, (dget g.adj e.2.1).isSome)

/-- There is a walk from a to b of total weight W. -/
inductive WalkTo (g : Graph) : String → String → ℚ → Prop
  | nil (a : String) : WalkTo g a a 0
  | cons (a b c : String) (w W : ℚ) :
      edgeW g a b = some w → WalkTo g b c W → WalkTo g a c (w + W)

/-- A node b is reachable from a (by some walk). -/
def Reaches (g : Graph) (a b : String) : Prop := ∃ W, WalkTo g a b W

/-- Some closed walk has negative total weight. -/
def HasNegClosedWalk (g : Graph) : Prop := ∃ v W, W < 0 ∧ WalkTo g v v W

/-- The consecutive-edges property of a node list. -/
def okChain (g : Graph) : List String → Prop
  | [] => True
  | [_] => True
  | a :: b :: t => (edgeW g a b).isSome ∧ okChain g (b :: t)

/-- Total weight of a node list along its consecutive edges. -/
def chainW (g : Graph) : List String → ℚ
  | a :: b :: t => (edgeW g a b).getD 0 + chainW g (b :: t)
  | _ => 0

/-- A simple negative cycle: a closed chain visiting no intermediate node
twice whose total weight is negative. -/
def SimpleNegCycle (g : Graph) (l : List String) : Prop :=
  2 ≤ l.length ∧ l.head? = l.getLast? ∧ okChain g l ∧ l.dropLast.Nodup ∧ chainW g l < 0

/-- `x ≤ y` on distances with `none` standing for `+∞`. -/
def oLe : Option ℚ → Option ℚ → Prop
  | _, none => True
  | none, some _ => False
  | some a, some b => a ≤ b

/-- `x < y` on distances with `none` standing for `+∞`. -/
def oLt : Option ℚ → Option ℚ → Prop
  | none, _ => False
  | some _, none => True
  | some a, some b => a < b

/-- Every finite tentative distance is realised by some walk from s. -/
def distWalks (g : Graph) (s : String) (dist : PyDict (Option ℚ)) : Prop :=
  ∀ v d, (dget dist v).join = some d → WalkTo g s v d

/-- After k passes: every chain from s of at most k edges bounds the
tentative distance of its endpoint. -/
def distBound (g : Graph) (s : String) (k : ℕ) (dist : PyDict (Option ℚ)) : Prop :=
  ∀ (l : List String) (v : String), okChain g l → l.head? = some s →
    l.getLast? = some v → l.length ≤ k + 1 →
    ∃ dv, (dget dist v).join = some dv ∧ dv ≤ chainW g l

/-- No edge offers an improvement (Bellman-Ford fixpoint). -/
def distFix (g : Graph) (dist : PyDict (Option ℚ)) : Prop :=
  ∀ e ∈ edgesList g, ∀ ds, (dget dist e.1).join = some ds →
    ∃ dt, (dget dist e.2.1).join = some dt ∧ dt ≤ ds + e.2.2

/-- The running-minimum update `add_edge` applies to `min_weight`. -/
def minStep (acc : Option ℚ) (e : String × String × ℚ) : Option ℚ :=
  some (match acc with | none => e.2.2 | some m => min m e.2.2)

/-- The running-maximum update `add_edge` applies to `max_weight`. -/
def maxStep (acc : Option ℚ) (e : String × String × ℚ) : Option ℚ :=
  some (match acc with | none => e.2.2 | some m => max m e.2.2)

end Sv

namespace V2

/-! ### v2_greenfield_routing: graph.py, validation.py, algorithms.py
(the parts the claims cite). -/

/-- Mirror of the v2 `Graph`: adjacency plus the monotone negative-weight
flag and the cumulative edge counter. -/
structure Graph : Type where
  adj : PyDict (PyDict ℚ)
  edge_count : ℕ
  has_negative_weights : Bool
deriving DecidableEq, Repr

def Graph.init : Graph := ⟨[], 0, false⟩

def ensureKey (adj : PyDict (PyDict ℚ)) (k : String) : PyDict (PyDict ℚ) :=
  match dget adj k with
  | none => dset adj k []
  | some _ => adj

/-- Mirror of v2 `Graph.add_edge`. -/
def add_edge (g : Graph) (source target : String) (weight : ℚ) : Graph :=
  let a1 := ensureKey g.adj source
  let a2 := dset a1 source (dset ((dget a1 source).getD []) target weight)
  let a3 := ensureKey a2 target
  { adj := a3,
    edge_count := g.edge_count + 1,
    has_negative_weights := g.has_negative_weights || decide (weight < 0) }

def from_edge_list (edges : List (String × String × ℚ)) : Graph :=
  edges.foldl (fun g e => add_edge g e.1 e.2.1 e.2.2) Graph.init

def neighbors (g : Graph) (node : String) : PyDict ℚ := (dget g.adj node).getD []

def nodesList (g : Graph) : List String := dkeys g.adj

/-- Mirror of v2 `Graph.get_negative_edges` (scan of the current edge set). -/
def get_negative_edges (g : Graph) : List (String × String × ℚ) :=
  g.adj.flatMap fun p => (p.2.filter fun q => decide (q.2 < 0)).map fun q => (p.1, q.1, q.2)

/-- Mirror of v2 `RouteValidator.validate_route_request` (raises on the first
violated rule; note that `start == goal` is rejected). -/
def validate_route_request (g : Graph) (start goal : String)
    (require_no_negative_weights : Bool) : Except PyErr Unit :=
  if !(nodesList g).contains start then
    .error (.validationError ("Start node '" ++ start ++ "' not in graph"))
  else if !(nodesList g).contains goal then
    .error (.validationError ("Goal node '" ++ goal ++ "' not in graph"))
  else if start = goal then
    .error (.validationError ("Start and goal must differ (both='" ++ start ++ "')"))
  else if require_no_negative_weights && g.has_negative_weights then
    let negative_edges := get_negative_edges g
    .error (.validationError
      ("Graph contains " ++ toString negative_edges.length ++
        " negative-weight edge(s): " ++
        String.intercalate ", " ((negative_edges.take 3).map fun e =>
          "(" ++ e.1 ++ "→" ++ e.2.1 ++ "=" ++ toString e.2.2 ++ ")") ++
        (if negative_edges.length > 3 then
          "... and " ++ toString (negative_edges.length - 3) ++ " more" else "")))
  else .ok ()

/-- The precondition failure message of v2 `DijkstraRouter`. -/
def dijkstraPreconditionMsg (g : Graph) : String :=
  "Dijkstra does not support negative-weight edges. Graph has " ++
    toString (get_negative_edges g).length ++
    " negative edge(s). Use Bellman-Ford instead."

/-- The v2 Dijkstra inner relaxation (skips visited neighbors, unlike the
claude-sonnet-4.5 variant). -/
def relaxNbrs (cost : ℚ) (node : String) (nbrs : PyDict ℚ) (visited : List String)
    (st : List (ℚ × String) × PyDict ℚ × PyDict (Option String)) :
    List (ℚ × String) × PyDict ℚ × PyDict (Option String) :=
  nbrs.foldl
    (fun st q =>
      let (h, d, p) := st
      if visited.contains q.1 then (h, d, p)
      else
        let nc := cost + q.2
        let better := match dget d q.1 with
          | none => true
          | some dv => decide (nc < dv)
        if better then (h ++ [(nc, q.1)], dset d q.1 nc, dset p q.1 (some node))
        else (h, d, p))
    st

/-- The v2 Dijkstra `while heap:` loop (no timeout parameter). -/
def dijkstraLoop (g : Graph) (start goal : String) :
    ℕ → Sv.DijState → Except PyErr (List String × ℚ)
  | 0, _ => .error .nonterm
  | fuel + 1, st =>
    match Sv.popMin st.heap with
    | none => .error (.valueError ("No path from " ++ start ++ " to " ++ goal))
    | some ((cost, node), h') =>
      if st.visited.contains node then
        dijkstraLoop g start goal fuel { st with heap := h' }
      else
        let visited' := st.visited ++ [node]
        if node = goal then
          match Sv.reconstruct_path st.prev goal with
          | none => .error .nonterm
          | some path => .ok (path, cost)
        else
          let stale := match dget st.dist node with
            | none => false
            | some dv => decide (dv < cost)
          if stale then
            dijkstraLoop g start goal fuel { st with heap := h', visited := visited' }
          else
            let (h2, d2, p2) := relaxNbrs cost node (neighbors g node) visited'
              (h', st.dist, st.prev)
            dijkstraLoop g start goal fuel
              { heap := h2, dist := d2, prev := p2, visited := visited' }

/-- Mirror of v2 `DijkstraRouter.compute_shortest_path`: the negative-weight
precondition check runs before any of the computation's state is even
initialised. -/
def dijkstra_compute_shortest_path (g : Graph) (start goal : String) (fuel : ℕ) :
    Except PyErr (List String × ℚ) :=
  if g.has_negative_weights then .error (.validationError (dijkstraPreconditionMsg g))
  else
    dijkstraLoop g start goal fuel
      { heap := [(0, start)], dist := [(start, 0)], prev := [(start, none)], visited := [] }

end V2

deriving instance DecidableEq for Except

/-! ### Concrete fixtures used by the claim theorems -/

/-- A clock oracle that never observes an expired deadline. -/
def tmoNever : TimeoutSpec := ⟨"5.0", fun _ => false⟩

/-- Scenario A graph: A→B=5, A→C=2, C→D=1, D→F=-3, F→B=1. -/
def gScenA : Sv.Graph := Sv.from_edge_list
  [("A", "B", 5), ("A", "C", 2), ("C", "D", 1), ("D", "F", -3), ("F", "B", 1)]

/-- Tie-break fixture: two shortest A→D paths of cost 2; heap order and edge
iteration order pick different ones. -/
def gTie : Sv.Graph := Sv.from_edge_list
  [("A", "C", 1), ("A", "B", 1), ("C", "D", 1), ("B", "D", 1)]

/-- Stale-cost fixture: Dijkstra finalizes S at 5, then C lowers S to 2 after
S is visited; the B entry keeps the stale cost 15 while prev is rewired. -/
def gStale : Sv.Graph := Sv.from_edge_list
  [("A", "S", 5), ("A", "C", 6), ("S", "B", 10), ("C", "S", -4)]

/-- A negative cycle C⇄D unreachable from the probe node A. -/
def gUnreach : Sv.Graph := Sv.from_edge_list
  [("A", "B", 1), ("C", "D", 1), ("D", "C", -3)]

/-- Duplicate ordered pair: the second add overwrites the weight. -/
def gDup : Sv.Graph := Sv.from_edge_list [("A", "B", -1), ("A", "B", 5)]

/-- One negative edge. -/
def gNeg : Sv.Graph := Sv.from_edge_list [("A", "B", -1)]

def gNegV2 : V2.Graph := V2.from_edge_list [("A", "B", -1)]

def gOneV2 : V2.Graph := V2.from_edge_list [("A", "B", 1)]

/-- Simple one-edge graph. -/
def gOne : Sv.Graph := Sv.from_edge_list [("A", "B", 1)]

/-- A request with the empty-string identifier (falsy in Python, so `route`
generates a fresh uuid on every call). -/
def reqEmptyId : Sv.RouteRequest := ⟨gOne, "A", "B", "", tmoNever⟩

/-! ### Semantic predicates for the algorithm analyses -/

namespace Sv

/-- The loop body of `bfPass`: one edge relaxation threading distances,
predecessors and the `any_update` flag. -/
def bfRelax (st : PyDict (Option ℚ) × PyDict (Option String) × Bool)
    (e : String × String × ℚ) :
    PyDict (Option ℚ) × PyDict (Option String) × Bool :=
  let (dist, prev, upd) := st
  match (dget dist e.1).join with
  | none => (dist, prev, upd)
  | some ds =>
    let nc := ds + e.2.2
    match (dget dist e.2.1).join with
    | none => (dset dist e.2.1 (some nc), dset prev e.2.1 (some e.1), true)
    | some dt =>
      if nc < dt then (dset dist e.2.1 (some nc), dset prev e.2.1 (some e.1), true)
      else (dist, prev, upd)

/-- Does edge `e` offer an improvement over the distances `d`?  (The body of
`improvesSome`.) -/
def impAt (d : PyDict (Option ℚ)) (e : String × String × ℚ) : Bool :=
  match (dget d e.1).join with
  | none => false
  | some ds =>
    match (dget d e.2.1).join with
    | none => true
    | some dt => decide (ds + e.2.2 < dt)

/-- Predecessor-pointer paths: consecutive nodes follow `prev`. -/
def prevPath (prev : PyDict (Option String)) : List String → Prop
  | [] => True
  | [_] => True
  | a :: b :: t => (dget prev a).join = some b ∧ prevPath prev (b :: t)

/-- No predecessor-pointer path revisits a node. -/
def PrevAcyclic (prev : PyDict (Option String)) : Prop :=
  ∀ l, prevPath prev l → l.Nodup

/-- Every predecessor pointer is backed by a graph edge along which the
target distance was set: the edge bounds the target distance from below. -/
def PrevOk (g : Graph) (dist : PyDict (Option ℚ)) (prev : PyDict (Option String)) :
    Prop :=
  ∀ n p, (dget prev n).join = some p →
    ∃ dn dp w, (dget dist n).join = some dn ∧ (dget dist p).join = some dp ∧
      edgeW g p n = some w ∧ dp + w ≤ dn

/-- A finite-distance node without predecessor is the start node. -/
def PrevNoneStart (start : String) (dist : PyDict (Option ℚ))
    (prev : PyDict (Option String)) : Prop :=
  ∀ n, ((dget dist n).join).isSome → (dget prev n).join = none → n = start

/-- A negative closed chain whose base node has finite tentative distance. -/
def BadFin (g : Graph) (dist : PyDict (Option ℚ)) : Prop :=
  ∃ c v, 2 ≤ c.length ∧ c.head? = some v ∧ c.getLast? = some v ∧
    okChain g c ∧ chainW g c < 0 ∧ ((dget dist v).join).isSome

/-- The predecessor invariant the Bellman-Ford state maintains. -/
def BFInv (g : Graph) (start : String) (dist : PyDict (Option ℚ))
    (prev : PyDict (Option String)) : Prop :=
  PrevOk g dist prev ∧ PrevNoneStart start dist prev ∧
    (BadFin g dist ∨ PrevAcyclic prev)

/-- Dijkstra analogue of `PrevOk` (plain ℚ distance dict). -/
def PrevOkD (g : Graph) (dist : PyDict ℚ) (prev : PyDict (Option String)) : Prop :=
  ∀ n p, (dget prev n).join = some p →
    ∃ dn dp w, dget dist n = some dn ∧ dget dist p = some dp ∧
      edgeW g p n = some w ∧ dp + w ≤ dn

/-- Dijkstra analogue of `PrevNoneStart`. -/
def PrevNoneStartD (start : String) (dist : PyDict ℚ)
    (prev : PyDict (Option String)) : Prop :=
  ∀ n, (dget dist n).isSome → (dget prev n).join = none → n = start

/-- Dijkstra tentative distances are walk-realised. -/
def distWalksD (g : Graph) (s : String) (dist : PyDict ℚ) : Prop :=
  ∀ v d, dget dist v = some d → WalkTo g s v d

/-- Every heap entry's node has a tentative distance at most the entry key. -/
def heapDist (dist : PyDict ℚ) (heap : List (ℚ × String)) : Prop :=
  ∀ e ∈ heap, ∃ dn, dget dist e.2 = some dn ∧ dn ≤ e.1

/-- Every unvisited node with a tentative distance has a matching heap
entry. -/
def heapMin (dist : PyDict ℚ) (heap : List (ℚ × String)) (visited : List String) :
    Prop :=
  ∀ n dn, dget dist n = some dn → n ∉ visited → (dn, n) ∈ heap

/-- Visited nodes' distances bound every chain from the start. -/
def visitedOpt (g : Graph) (start : String) (dist : PyDict ℚ)
    (visited : List String) : Prop :=
  ∀ n ∈ visited, ∃ dn, dget dist n = some dn ∧
    ∀ l, okChain g l → l.head? = some start → l.getLast? = some n →
      dn ≤ chainW g l

/-- Visited nodes' outgoing edges are relaxed. -/
def visitedRelaxed (g : Graph) (dist : PyDict ℚ) (visited : List String) : Prop :=
  ∀ n ∈ visited, ∀ m w, edgeW g n m = some w →
    ∃ dn dm, dget dist n = some dn ∧ dget dist m = some dm ∧ dm ≤ dn + w

/-- Heap keys dominate every visited distance. -/
def heapAbove (dist : PyDict ℚ) (heap : List (ℚ × String)) (visited : List String) :
    Prop :=
  ∀ e ∈ heap, ∀ m ∈ visited, ∃ dm, dget dist m = some dm ∧ dm ≤ e.1

/-- Number of graph edges whose source is not yet visited: together with the
heap size this is Dijkstra's termination measure. -/
def unvisitedOut (g : Graph) (visited : List String) : ℕ :=
  ((edgesList g).filter fun e => !(visited.contains e.1)).length

/-- Embed a plain ℚ distance dict into the Option-valued form shared with the
Bellman-Ford predecessor lemmas. -/
def dmapSome (d : PyDict ℚ) : PyDict (Option ℚ) := d.map fun kv => (kv.1, some kv.2)

/-- Dijkstra loop invariant for non-negative graphs. -/
def DInv (g : Graph) (start : String) (st : DijState) : Prop :=
  BFInv g start (dmapSome st.dist) st.prev ∧ distWalksD g start st.dist ∧
    heapDist st.dist st.heap ∧ heapMin st.dist st.heap st.visited ∧
    visitedOpt g start st.dist st.visited ∧ visitedRelaxed g st.dist st.visited ∧
    heapAbove st.dist st.heap st.visited ∧ dget st.dist start = some 0

/-- Dijkstra loop invariant for arbitrary graphs: enough for the shape of any
normally returned path. -/
def DBase (g : Graph) (start : String) (st : DijState) : Prop :=
  BFInv g start (dmapSome st.dist) st.prev ∧ heapDist st.dist st.heap

end Sv

/-! ## Theorems -/

/-! ### Dictionary lemmas -/

theorem dget_dset_self {α : Type} (d : PyDict α) (k : String) (v : α) :
    dget (dset d k v) k = some v := by
  induction d with
  | nil => simp [dset, dget]
  | cons p t ih =>
    by_cases h : p.1 = k
    · simp [dset, dget, h]
    · simp [dset, dget, h, ih]

theorem dget_dset_ne {α : Type} (d : PyDict α) (k k' : String) (v : α)
    (h : k' ≠ k) : dget (dset d k v) k' = dget d k' := by
  induction d with
  | nil => simp [dset, dget, Ne.symm h]
  | cons p t ih =>
    rcases p with ⟨pk, pv⟩
    by_cases hp : pk = k
    · subst hp
      simp [dset, dget, Ne.symm h]
    · by_cases hp' : pk = k'
      · subst hp'
        simp [dset, dget, hp]
      · simp [dset, dget, hp, hp', ih]

theorem mem_dkeys_iff_dget {α : Type} (d : PyDict α) (k : String) :
    k ∈ dkeys d ↔ (dget d k).isSome := by
  induction d with
  | nil => simp [dkeys, dget]
  | cons p t ih =>
    by_cases h : p.1 = k
    · simp [dkeys, dget, h]
    · simpa [dkeys, dget, h, Ne.symm h] using ih

theorem dkeys_dset_of_mem {α : Type} (d : PyDict α) (k : String) (v : α)
    (h : k ∈ dkeys d) : dkeys (dset d k v) = dkeys d := by
  induction d with
  | nil => simp [dkeys] at h
  | cons p t ih =>
    rcases p with ⟨pk, pv⟩
    by_cases hp : pk = k
    · subst hp
      simp [dset, dkeys]
    · have h' : k ∈ dkeys t := by
        simp only [dkeys, List.map_cons] at h
        rcases List.mem_cons.mp h with h1 | h1
        · exact absurd h1.symm hp
        · exact h1
      have heq := ih h'
      simp only [dkeys] at heq
      simp only [dset, if_neg hp, dkeys, List.map_cons]
      rw [heq]

theorem dkeys_dset_of_not_mem {α : Type} (d : PyDict α) (k : String) (v : α)
    (h : k ∉ dkeys d) : dkeys (dset d k v) = dkeys d ++ [k] := by
  induction d with
  | nil => simp [dset, dkeys]
  | cons p t ih =>
    rcases p with ⟨pk, pv⟩
    have hp : pk ≠ k := by
      intro e; exact h (by simp [dkeys, e])
    have h' : k ∉ dkeys t := by
      intro hk
      exact h (by simp only [dkeys, List.map_cons]; exact List.mem_cons_of_mem _ hk)
    have heq := ih h'
    simp only [dkeys] at heq
    simp only [dset, if_neg hp, dkeys, List.map_cons, List.cons_append]
    rw [heq]

theorem dkeys_dset_nodup {α : Type} (d : PyDict α) (k : String) (v : α)
    (h : (dkeys d).Nodup) : (dkeys (dset d k v)).Nodup := by
  by_cases hm : k ∈ dkeys d
  · rwa [dkeys_dset_of_mem d k v hm]
  · rw [dkeys_dset_of_not_mem d k v hm]
    simpa [List.nodup_append] using ⟨h, hm⟩

theorem dget_eq_none_of_not_mem {α : Type} {d : PyDict α} {k : String}
    (h : k ∉ dkeys d) : dget d k = none := by
  cases hg : dget d k with
  | none => rfl
  | some v =>
    exact absurd ((mem_dkeys_iff_dget d k).mpr (by simp [hg])) h

/-- A fold step preserving a predicate preserves it over the whole fold. -/
theorem foldl_preserves {α β : Type} (P : β → Prop) (f : β → α → β)
    (l : List α) (b : β) (h : ∀ st a, a ∈ l → P st → P (f st a)) (hb : P b) :
    P (l.foldl f b) := by
  induction l generalizing b with
  | nil => exact hb
  | cons x t ih =>
    exact ih (f b x) (fun st a ha => h st a (by simp [ha])) (h b x (by simp) hb)

/-! ### C1 — idempotency of route -/

/-- Every normally-returning call of `route` with a non-empty identifier
leaves the response stored in the cache under that identifier. -/
theorem route_stores (s : Sv.ServiceState) (req : Sv.RouteRequest)
    (s' : Sv.ServiceState) (r : Sv.RouteResponse)
    (hk : req.request_id ≠ "") (h : Sv.route s req = .ok (s', r)) :
    dget s'.cache req.request_id = some r := by
  unfold Sv.route at h
  simp only [if_neg hk] at h
  cases hc : dget s.cache req.request_id with
  | some cached =>
    rw [hc] at h
    simp only [Except.ok.injEq, Prod.mk.injEq] at h
    rw [← h.1, ← h.2]
    exact hc
  | none =>
    rw [hc] at h
    by_cases hv : (Sv.validate_route_request req.graph req.start req.goal).is_valid
    · rw [hv] at h
      simp only [Bool.not_true, Bool.false_eq_true, if_false] at h
      rcases hcr : Sv.compute_route req.graph req.start req.goal (some req.timeout) with
        ⟨res, name⟩
      rw [hcr] at h
      rcases res with e | v
      · cases e with
        | valueError m =>
          simp only [Except.ok.injEq, Prod.mk.injEq] at h
          rw [← h.1, ← h.2]
          exact dget_dset_self _ _ _
        | timeoutError m =>
          simp only [Except.ok.injEq, Prod.mk.injEq] at h
          rw [← h.1, ← h.2]
          exact dget_dset_self _ _ _
        | validationError m => simp at h
        | keyError => simp at h
        | nonterm => simp at h
      · simp only [Except.ok.injEq, Prod.mk.injEq] at h
        rw [← h.1, ← h.2]
        exact dget_dset_self _ _ _
    · rw [Bool.not_eq_true] at hv
      rw [hv] at h
      simp only [Bool.not_false, if_true, Except.ok.injEq, Prod.mk.injEq] at h
      rw [← h.1, ← h.2]
      exact dget_dset_self _ _ _

/-- C1 counterexample: the request identifier "" (a legal string identifier,
but falsy in Python) defeats idempotency: two sequential calls of `route`
with the same identifier "" both recompute, store under distinct generated
uuids, and return responses that are not equal. -/
theorem C1_counterexample :
    ((Sv.route Sv.ServiceState.init reqEmptyId).bind fun p1 =>
      (Sv.route p1.1 reqEmptyId).map fun p2 =>
        (p1.2.request_id, p2.2.request_id, decide (p1.2 = p2.2))) =
    .ok ("uuid-0", "uuid-1", false) := by
  with_unfolding_all decide

/-- C1 (amended): for every non-empty request identifier k, a stored response
under k is returned unchanged by `route` (no recomputation: the state is
untouched), and two sequential calls of `route` on requests sharing the
identifier k return equal responses and leave the cache unchanged after the
second call. -/
theorem C1_amended_idempotency (s : Sv.ServiceState) (req req' : Sv.RouteRequest)
    (k : String) (hk : k ≠ "") (hreq : req.request_id = k)
    (hreq' : req'.request_id = k) :
    (∀ r, dget s.cache k = some r → Sv.route s req = .ok (s, r)) ∧
    (∀ s1 r1 s2 r2, Sv.route s req = .ok (s1, r1) →
      Sv.route s1 req' = .ok (s2, r2) → r2 = r1 ∧ s2 = s1) := by
  have hit : ∀ (t : Sv.ServiceState) (rq : Sv.RouteRequest), rq.request_id = k →
      ∀ r, dget t.cache k = some r → Sv.route t rq = .ok (t, r) := by
    intro t rq hrq r hr
    unfold Sv.route
    rw [hrq]
    simp only [if_neg hk, hr]
  constructor
  · exact fun r hr => hit s req hreq r hr
  · intro s1 r1 s2 r2 h1 h2
    have hstore : dget s1.cache k = some r1 := by
      have := route_stores s req s1 r1 (by rw [hreq]; exact hk) h1
      rwa [hreq] at this
    have := hit s1 req' hreq' r1 hstore
    rw [this] at h2
    simp only [Except.ok.injEq, Prod.mk.injEq] at h2
    exact ⟨h2.2.symm, h2.1.symm⟩

/-- C1 witness: a concrete cache hit and a concrete pair of sequential calls
returning equal responses. -/
theorem C1_witness :
    Sv.route ⟨[("k1", ⟨"k1", .SUCCESS, some ["A", "B"], some 1, some "dijkstra", [], none⟩)], 0⟩
        ⟨gOne, "A", "B", "k1", tmoNever⟩ =
      .ok (⟨[("k1", ⟨"k1", .SUCCESS, some ["A", "B"], some 1, some "dijkstra", [], none⟩)], 0⟩,
        ⟨"k1", .SUCCESS, some ["A", "B"], some 1, some "dijkstra", [], none⟩) := by
  exact (C1_amended_idempotency
    ⟨[("k1", ⟨"k1", .SUCCESS, some ["A", "B"], some 1, some "dijkstra", [], none⟩)], 0⟩
    ⟨gOne, "A", "B", "k1", tmoNever⟩ ⟨gOne, "A", "B", "k1", tmoNever⟩ "k1"
    (by decide) rfl rfl).1 _ (by with_unfolding_all decide)

/-! ### C2 — Scenario A -/

/-- C2 counterexample: on Scenario A the orchestrator succeeds with the
specified path and cost, but the algorithm it reports is the string
"bellman_ford", not "Bellman-Ford" as the claim states. -/
theorem C2_counterexample :
    ((Sv.route Sv.ServiceState.init ⟨gScenA, "A", "B", "scenA", tmoNever⟩).map
      fun p => p.2.algorithm_used) = .ok (some "bellman_ford") ∧
    ("bellman_ford" : String) ≠ "Bellman-Ford" := by
  with_unfolding_all decide

/-- C2 (amended): on the graph A→B=5, A→C=2, C→D=1, D→F=-3, F→B=1, a route
request A→B returns status SUCCESS, path [A, C, D, F, B], cost 1, with the
algorithm reported as "bellman_ford" (the Bellman-Ford implementation). -/
theorem C2_scenarioA :
    ((Sv.route Sv.ServiceState.init ⟨gScenA, "A", "B", "scenA", tmoNever⟩).map
      fun p => (p.2.status, p.2.path, p.2.cost, p.2.algorithm_used)) =
    .ok (.SUCCESS, some ["A", "C", "D", "F", "B"], some 1, some "bellman_ford") := by
  with_unfolding_all decide

/-! ### C3 — algorithm equivalence (counterexample part) -/

/-- C3 counterexample: on a graph with no negative edge and two equal-cost
shortest paths, Dijkstra returns [A, B, D] while Bellman-Ford returns
[A, C, D]: the costs agree but the node sequences differ, refuting the
claimed path identity. -/
theorem C3_counterexample :
    (Sv.edgesList gTie).all (fun e => decide (0 ≤ e.2.2)) = true ∧
    Sv.dijkstraCompute gTie "A" "D" none (Sv.dijFuel gTie) = .ok (["A", "B", "D"], 2) ∧
    Sv.bellmanFordCompute gTie "A" "D" none = .ok (["A", "C", "D"], 2) ∧
    (["A", "B", "D"] : List String) ≠ ["A", "C", "D"] := by
  with_unfolding_all decide

/-! ### C10 — well-formed paths (counterexample part) -/

/-- C10 counterexample: on a negative-weight graph, Dijkstra returns the path
[A, C, S, B] with cost 15, but the weights of the path's edges
(6, -4, 10) sum to 12, so the returned cost is not the weight of the
returned path. -/
theorem C10_counterexample :
    Sv.dijkstraCompute gStale "A" "B" none (Sv.dijFuel gStale) =
      .ok (["A", "C", "S", "B"], 15) ∧
    dget (Sv.neighbors gStale "A") "C" = some 6 ∧
    dget (Sv.neighbors gStale "C") "S" = some (-4) ∧
    dget (Sv.neighbors gStale "S") "B" = some 10 ∧
    (6 : ℚ) + (-4) + 10 ≠ 15 := by
  with_unfolding_all decide

/-! ### C5 — Dijkstra precondition (counterexample part) -/

/-- C5 counterexample: the claude-sonnet-4.5 Dijkstra performs no
negative-weight precondition check at all — on a graph with the negative
edge A→B=-1 it computes and returns ([A, B], -1) instead of failing; and the
v2 Dijkstra does fail before computing, but its error message only counts
the negative edges ("Graph has 1 negative edge(s)") without enumerating
them (no edge arrow appears in the message). -/
theorem C5_counterexample :
    (Sv.get_metadata gNeg).has_negative_weights = true ∧
    Sv.dijkstraCompute gNeg "A" "B" none (Sv.dijFuel gNeg) = .ok (["A", "B"], -1) ∧
    V2.dijkstra_compute_shortest_path gNegV2 "A" "B" 5 =
      .error (.validationError
        ("Dijkstra does not support negative-weight edges. " ++
         "Graph has 1 negative edge(s). Use Bellman-Ford instead.")) ∧
    strContains
      ("Dijkstra does not support negative-weight edges. " ++
       "Graph has 1 negative edge(s). Use Bellman-Ford instead.") "→" = false := by
  with_unfolding_all decide

/-! ### C7 — graph metadata invariant (counterexample part) -/

/-- C7 counterexample: after add_edge(A,B,-1) then add_edge(A,B,5) the edge
set holds the single edge (A,B,5) (overwrite works), but the recomputed
metadata reports edge_count = 2 (≠ 1 distinct pair), has_negative_weights =
true although no present edge is negative, negative_edges still lists the
overwritten edge, and min_weight is the stale -1. -/
theorem C7_counterexample :
    Sv.edgesList gDup = [("A", "B", 5)] ∧
    (Sv.get_metadata gDup).edge_count = 2 ∧
    (Sv.get_metadata gDup).has_negative_weights = true ∧
    (Sv.edgesList gDup).all (fun e => decide (0 ≤ e.2.2)) = true ∧
    (Sv.get_metadata gDup).negative_edges = [("A", "B", -1)] ∧
    (Sv.get_metadata gDup).min_weight = some (-1) := by
  with_unfolding_all decide

/-! ### C8 — validator completeness (counterexample part) -/

/-- C8 counterexample: on the empty graph with absent start and goal nodes,
three rules are violated (empty graph, start missing, goal missing) but
validate_route_request reports only the empty-graph error: the node checks
are skipped by the early return, so violated rules are not all reported
together. -/
theorem C8_counterexample :
    Sv.has_node (Sv.from_edge_list []) "A" = false ∧
    Sv.has_node (Sv.from_edge_list []) "B" = false ∧
    Sv.validate_route_request (Sv.from_edge_list []) "A" "B" =
      ⟨false, [⟨"graph", "Graph has no nodes", "EMPTY_GRAPH"⟩]⟩ := by
  with_unfolding_all decide

/-! ### C8 — validator completeness (amended theorem) -/

/-- C8 (amended): the four graph-level rules (too many nodes, too many edges,
empty graph, negative cycle) are checked independently and all reported
together; the two node-existence rules are likewise checked independently
and reported together, but only when the graph-level validation passed —
`validate_route_request` returns early with only the graph errors otherwise.
In both validators the validity flag is false exactly when at least one
error was recorded. -/
theorem C8_validator (g : Sv.Graph) (start goal : String) :
    ((Sv.validate_graph g).errors =
      (if (Sv.get_metadata g).node_count > Sv.maxNodes then
        [⟨"graph", "Graph has " ++ toString (Sv.get_metadata g).node_count ++
          " nodes, exceeds limit of " ++ toString Sv.maxNodes, "GRAPH_TOO_LARGE"⟩]
       else []) ++
      (if (Sv.get_metadata g).edge_count > Sv.maxEdges then
        [⟨"graph", "Graph has " ++ toString (Sv.get_metadata g).edge_count ++
          " edges, exceeds limit of " ++ toString Sv.maxEdges, "GRAPH_TOO_LARGE"⟩]
       else []) ++
      (if (Sv.get_metadata g).node_count = 0 then
        [⟨"graph", "Graph has no nodes", "EMPTY_GRAPH"⟩] else []) ++
      (if (Sv.get_metadata g).has_negative_cycle then
        [⟨"graph", "Graph contains negative weight cycle; shortest path is undefined",
          "NEGATIVE_CYCLE"⟩] else [])) ∧
    (Sv.validate_graph g).is_valid = (Sv.validate_graph g).errors.isEmpty ∧
    Sv.validate_route_request g start goal =
      (if (Sv.validate_graph g).is_valid then
        (⟨Sv.has_node g start && Sv.has_node g goal,
          (if Sv.has_node g start then [] else
            [⟨"start", "Start node '" ++ start ++ "' not found in graph",
              "NODE_NOT_FOUND"⟩]) ++
          (if Sv.has_node g goal then [] else
            [⟨"goal", "Goal node '" ++ goal ++ "' not found in graph",
              "NODE_NOT_FOUND"⟩])⟩ : Sv.VResult)
       else ⟨false, (Sv.validate_graph g).errors⟩) ∧
    (Sv.validate_route_request g start goal).is_valid =
      (Sv.validate_route_request g start goal).errors.isEmpty := by
  have hg : (Sv.validate_graph g).errors =
      (if (Sv.get_metadata g).node_count > Sv.maxNodes then
        [⟨"graph", "Graph has " ++ toString (Sv.get_metadata g).node_count ++
          " nodes, exceeds limit of " ++ toString Sv.maxNodes, "GRAPH_TOO_LARGE"⟩]
       else []) ++
      (if (Sv.get_metadata g).edge_count > Sv.maxEdges then
        [⟨"graph", "Graph has " ++ toString (Sv.get_metadata g).edge_count ++
          " edges, exceeds limit of " ++ toString Sv.maxEdges, "GRAPH_TOO_LARGE"⟩]
       else []) ++
      (if (Sv.get_metadata g).node_count = 0 then
        [⟨"graph", "Graph has no nodes", "EMPTY_GRAPH"⟩] else []) ++
      (if (Sv.get_metadata g).has_negative_cycle then
        [⟨"graph", "Graph contains negative weight cycle; shortest path is undefined",
          "NEGATIVE_CYCLE"⟩] else []) := by
    by_cases h1 : (Sv.get_metadata g).node_count > Sv.maxNodes <;>
      by_cases h2 : (Sv.get_metadata g).edge_count > Sv.maxEdges <;>
      by_cases h3 : (Sv.get_metadata g).node_count = 0 <;>
      by_cases h4 : (Sv.get_metadata g).has_negative_cycle = true <;>
      simp [Sv.validate_graph, Sv.addError, h1, h2, h3, h4]
  have hgv : (Sv.validate_graph g).is_valid = (Sv.validate_graph g).errors.isEmpty := by
    by_cases h1 : (Sv.get_metadata g).node_count > Sv.maxNodes <;>
      by_cases h2 : (Sv.get_metadata g).edge_count > Sv.maxEdges <;>
      by_cases h3 : (Sv.get_metadata g).node_count = 0 <;>
      by_cases h4 : (Sv.get_metadata g).has_negative_cycle = true <;>
      simp [Sv.validate_graph, Sv.addError, h1, h2, h3, h4]
  have hrr : Sv.validate_route_request g start goal =
      (if (Sv.validate_graph g).is_valid then
        (⟨Sv.has_node g start && Sv.has_node g goal,
          (if Sv.has_node g start then [] else
            [⟨"start", "Start node '" ++ start ++ "' not found in graph",
              "NODE_NOT_FOUND"⟩]) ++
          (if Sv.has_node g goal then [] else
            [⟨"goal", "Goal node '" ++ goal ++ "' not found in graph",
              "NODE_NOT_FOUND"⟩])⟩ : Sv.VResult)
       else ⟨false, (Sv.validate_graph g).errors⟩) := by
    unfold Sv.validate_route_request
    cases hv : (Sv.validate_graph g).is_valid with
    | false => simp [hv]
    | true =>
      simp only [hv, Bool.not_true, Bool.false_eq_true, if_false, if_true]
      cases hs : Sv.has_node g start <;> cases ht : Sv.has_node g goal <;>
        simp [Sv.addError]
  refine ⟨hg, hgv, hrr, ?_⟩
  rw [hrr]
  cases hv : (Sv.validate_graph g).is_valid with
  | false =>
    simp only [Bool.false_eq_true, if_false]
    rw [hgv] at hv
    cases he : (Sv.validate_graph g).errors with
    | nil => rw [he] at hv; simp at hv
    | cons a t => simp [he]
  | true =>
    simp only [if_true]
    cases hs : Sv.has_node g start <;> cases ht : Sv.has_node g goal <;> simp

/-! ### C5 — Dijkstra precondition (amended theorem) -/

theorem mem_dset {α : Type} {d : PyDict α} {k : String} {v : α} {q : String × α}
    (h : q ∈ dset d k v) : q = (k, v) ∨ q ∈ d := by
  induction d with
  | nil => simpa [dset] using h
  | cons p t ih =>
    by_cases hp : p.1 = k
    · rcases List.mem_cons.mp (by simpa [dset, hp] using h) with h1 | h1
      · exact Or.inl h1
      · exact Or.inr (List.mem_cons_of_mem _ h1)
    · rcases List.mem_cons.mp (by simpa [dset, hp] using h) with h1 | h1
      · exact Or.inr (by simp [h1])
      · rcases ih h1 with h2 | h2
        · exact Or.inl h2
        · exact Or.inr (List.mem_cons_of_mem _ h2)

theorem dget_mem {α : Type} {d : PyDict α} {k : String} {v : α}
    (h : dget d k = some v) : (k, v) ∈ d := by
  induction d with
  | nil => simp [dget] at h
  | cons p t ih =>
    by_cases hp : p.1 = k
    · rw [dget, if_pos hp] at h
      have hv : p.2 = v := by injection h
      have hpk : p = (k, v) := by
        rcases p with ⟨a, b⟩
        simp only at hp hv
        rw [hp, hv]
      rw [← hpk]
      exact List.mem_cons_self _ _
    · rw [dget, if_neg hp] at h
      exact List.mem_cons_of_mem _ (ih h)

/-- All weights currently stored in a v2 adjacency. -/
def V2AllNonneg (g : V2.Graph) : Prop :=
  ∀ p ∈ g.adj, ∀ q ∈ p.2, (0 : ℚ) ≤ q.2

theorem v2_flag_false_nonneg (es : List (String × String × ℚ))
    (h : (V2.from_edge_list es).has_negative_weights = false) :
    V2AllNonneg (V2.from_edge_list es) := by
  suffices H : ∀ g : V2.Graph,
      (g.has_negative_weights = false → V2AllNonneg g) →
      ((es.foldl (fun g e => V2.add_edge g e.1 e.2.1 e.2.2) g).has_negative_weights = false →
        V2AllNonneg (es.foldl (fun g e => V2.add_edge g e.1 e.2.1 e.2.2) g)) by
    exact H V2.Graph.init (fun _ => by intro p hp; simp [V2.Graph.init] at hp) h
  clear h
  induction es with
  | nil => intro g hg; exact hg
  | cons e t ih =>
    intro g hg
    simp only [List.foldl_cons]
    apply ih
    intro hflag
    have hflag' : g.has_negative_weights = false ∧ (0 : ℚ) ≤ e.2.2 := by
      have : (V2.add_edge g e.1 e.2.1 e.2.2).has_negative_weights =
          (g.has_negative_weights || decide (e.2.2 < 0)) := rfl
      rw [this] at hflag
      rcases Bool.or_eq_false_iff.mp hflag with ⟨h1, h2⟩
      exact ⟨h1, le_of_not_gt (by simpa using h2)⟩
    have hga := hg hflag'.1
    intro p hp q hq
    have hens : ∀ (adj : PyDict (PyDict ℚ)) (k : String) (r : String × PyDict ℚ),
        r ∈ V2.ensureKey adj k → r = (k, []) ∨ r ∈ adj := by
      intro adj k r hr
      unfold V2.ensureKey at hr
      rcases hge : dget adj k with _ | w
      · rw [hge] at hr
        rcases mem_dset hr with h1 | h1
        · exact Or.inl h1
        · exact Or.inr h1
      · rw [hge] at hr
        exact Or.inr hr
    have hp' : p ∈ V2.ensureKey
        (dset (V2.ensureKey g.adj e.1) e.1
          (dset ((dget (V2.ensureKey g.adj e.1) e.1).getD []) e.2.1 e.2.2)) e.2.1 := hp
    rcases hens _ _ _ hp' with h1 | h1
    · rw [h1] at hq
      simp at hq
    · rcases mem_dset h1 with h2 | h2
      · rw [h2] at hq
        rcases mem_dset hq with h3 | h3
        · rw [h3]
          exact hflag'.2
        · rcases hge : dget (V2.ensureKey g.adj e.1) e.1 with _ | nb
          · rw [hge] at h3
            simp at h3
          · rw [hge] at h3
            simp only [Option.getD_some] at h3
            rcases hens _ _ _ (dget_mem hge) with h4 | h4
            · have : nb = ([] : PyDict ℚ) := by injection h4
              rw [this] at h3
              simp at h3
            · exact hga _ h4 _ h3
      · rcases hens _ _ _ h2 with h3 | h3
        · rw [h3] at hq
          simp at hq
        · exact hga _ h3 _ hq

theorem v2_neg_edges_nil_of_nonneg (g : V2.Graph) (h : V2AllNonneg g) :
    V2.get_negative_edges g = [] := by
  cases he : V2.get_negative_edges g with
  | nil => rfl
  | cons x t =>
    exfalso
    have hx : x ∈ V2.get_negative_edges g := by rw [he]; simp
    unfold V2.get_negative_edges at hx
    rcases List.mem_flatMap.mp hx with ⟨p, hp, hxp⟩
    rcases List.mem_map.mp hxp with ⟨q, hq, _⟩
    have := h p hp q (List.mem_filter.mp hq).1
    have hneg := of_decide_eq_true (List.mem_filter.mp hq).2
    exact absurd this (not_le.mpr hneg)

/-- C5 (amended): the v2 DijkstraRouter fails with a precondition
(ValidationError) before performing any computation whenever the graph
contains a negative-weight edge, and its error message reports the count of
the offending edges (not an enumeration); the claude-sonnet-4.5
DijkstraAlgorithm performs no such precondition check and simply computes
(see the counterexample). -/
theorem C5_v2_precondition (es : List (String × String × ℚ)) (start goal : String)
    (fuel : ℕ) (h : V2.get_negative_edges (V2.from_edge_list es) ≠ []) :
    V2.dijkstra_compute_shortest_path (V2.from_edge_list es) start goal fuel =
      .error (.validationError (V2.dijkstraPreconditionMsg (V2.from_edge_list es))) := by
  cases hf : (V2.from_edge_list es).has_negative_weights with
  | false =>
    exact absurd (v2_neg_edges_nil_of_nonneg _ (v2_flag_false_nonneg es hf)) h
  | true =>
    unfold V2.dijkstra_compute_shortest_path
    rw [hf]
    simp

/-- C5 witness: the concrete one-negative-edge graph. -/
theorem C5_witness :
    V2.get_negative_edges (V2.from_edge_list [("A", "B", -1)]) ≠ [] ∧
    V2.dijkstra_compute_shortest_path (V2.from_edge_list [("A", "B", -1)]) "A" "B" 5 =
      .error (.validationError
        (V2.dijkstraPreconditionMsg (V2.from_edge_list [("A", "B", -1)]))) :=
  ⟨by with_unfolding_all decide,
   C5_v2_precondition [("A", "B", -1)] "A" "B" 5 (by with_unfolding_all decide)⟩

/-! ### Graph structure lemmas -/

theorem dget_ensureKey (adj : PyDict (PyDict ℚ)) (k k' : String) :
    dget (Sv.ensureKey adj k) k' =
      if k' = k then some ((dget adj k).getD []) else dget adj k' := by
  unfold Sv.ensureKey
  rcases hk : dget adj k with _ | v
  · by_cases h : k' = k
    · rw [if_pos h, h, dget_dset_self]
      simp
    · rw [if_neg h, dget_dset_ne _ _ _ _ h]
  · by_cases h : k' = k
    · rw [if_pos h, h, hk]
      simp
    · rw [if_neg h]

/-- Adjacency lookup after `add_edge`: the new edge is present, everything
else is untouched. -/
theorem edgeW_add_edge (g : Sv.Graph) (s t : String) (w : ℚ) (a b : String) :
    Sv.edgeW (Sv.add_edge g s t w) a b =
      if a = s ∧ b = t then some w else Sv.edgeW g a b := by
  have h1 : dget (Sv.ensureKey g.adj s) s = some ((dget g.adj s).getD []) := by
    rw [dget_ensureKey, if_pos rfl]
  have hadj : (Sv.add_edge g s t w).adj =
      Sv.ensureKey (dset (Sv.ensureKey g.adj s) s
        (dset ((dget g.adj s).getD []) t w)) t := by
    show Sv.ensureKey (dset (Sv.ensureKey g.adj s) s
        (dset ((dget (Sv.ensureKey g.adj s) s).getD []) t w)) t = _
    rw [h1]
    simp
  unfold Sv.edgeW Sv.neighbors
  rw [hadj, dget_ensureKey]
  by_cases has : a = s
  · have hA2 : dget (dset (Sv.ensureKey g.adj s) s (dset ((dget g.adj s).getD []) t w)) a
        = some (dset ((dget g.adj s).getD []) t w) := by
      rw [has, dget_dset_self]
    have hsel : (if a = t then
        some ((dget (dset (Sv.ensureKey g.adj s) s
          (dset ((dget g.adj s).getD []) t w)) t).getD [])
        else dget (dset (Sv.ensureKey g.adj s) s
          (dset ((dget g.adj s).getD []) t w)) a)
        = some (dset ((dget g.adj s).getD []) t w) := by
      by_cases hat : a = t
      · have hA2t := hA2
        rw [hat] at hA2t
        rw [if_pos hat, hA2t]
        simp
      · rw [if_neg hat, hA2]
    rw [hsel]
    simp only [Option.getD_some]
    by_cases hbt : b = t
    · rw [if_pos ⟨has, hbt⟩, hbt, dget_dset_self]
    · rw [if_neg (fun hc => hbt hc.2), dget_dset_ne _ _ _ _ hbt, has]
  · have hA2 : dget (dset (Sv.ensureKey g.adj s) s (dset ((dget g.adj s).getD []) t w)) a
        = dget g.adj a := by
      rw [dget_dset_ne _ _ _ _ has, dget_ensureKey, if_neg has]
    have hsel : ((if a = t then
        some ((dget (dset (Sv.ensureKey g.adj s) s
          (dset ((dget g.adj s).getD []) t w)) t).getD [])
        else dget (dset (Sv.ensureKey g.adj s) s
          (dset ((dget g.adj s).getD []) t w)) a)).getD []
        = (dget g.adj a).getD [] := by
      by_cases hat : a = t
      · have hA2t := hA2
        rw [hat] at hA2t
        rw [if_pos hat, hA2t, hat]
        simp
      · rw [if_neg hat, hA2]
    rw [hsel, if_neg (fun hc => has hc.1)]

/-- Node membership after `add_edge`. -/
theorem has_node_add_edge (g : Sv.Graph) (s t : String) (w : ℚ) (n : String) :
    Sv.has_node (Sv.add_edge g s t w) n =
      (Sv.has_node g n || decide (n = s) || decide (n = t)) := by
  have h1 : dget (Sv.ensureKey g.adj s) s = some ((dget g.adj s).getD []) := by
    rw [dget_ensureKey, if_pos rfl]
  have hadj : (Sv.add_edge g s t w).adj =
      Sv.ensureKey (dset (Sv.ensureKey g.adj s) s
        (dset ((dget g.adj s).getD []) t w)) t := by
    show Sv.ensureKey (dset (Sv.ensureKey g.adj s) s
        (dset ((dget (Sv.ensureKey g.adj s) s).getD []) t w)) t = _
    rw [h1]
    simp
  unfold Sv.has_node
  rw [hadj, dget_ensureKey]
  by_cases hnt : n = t
  · simp [hnt]
  · rw [if_neg hnt]
    by_cases hns : n = s
    · rw [hns, dget_dset_self]
      simp [hns, hnt]
    · rw [dget_dset_ne _ _ _ _ hns, dget_ensureKey, if_neg hns]
      simp [hns, hnt]

theorem nodup_dget_of_mem {α : Type} {d : PyDict α} {k : String} {v : α}
    (hnd : (dkeys d).Nodup) (h : (k, v) ∈ d) : dget d k = some v := by
  induction d with
  | nil => simp at h
  | cons p tl ih =>
    rcases List.mem_cons.mp h with h1 | h1
    · rw [← h1]
      simp [dget]
    · have hk : p.1 ≠ k := by
        intro he
        have : k ∈ dkeys tl := by
          simp only [dkeys]
          exact List.mem_map.mpr ⟨(k, v), h1, rfl⟩
        rw [dkeys, List.map_cons, List.nodup_cons] at hnd
        exact hnd.1 (he ▸ this)
      rw [dget, if_neg hk]
      exact ih (by rw [dkeys, List.map_cons, List.nodup_cons] at hnd; exact hnd.2) h1

/-- Under well-formedness, edge-list membership is adjacency lookup. -/
theorem mem_edgesList_iff {g : Sv.Graph} (hwf : g.WF) (a b : String) (w : ℚ) :
    (a, b, w) ∈ Sv.edgesList g ↔ Sv.edgeW g a b = some w := by
  constructor
  · intro h
    rcases List.mem_flatMap.mp h with ⟨p, hp, hmem⟩
    rcases List.mem_map.mp hmem with ⟨q, hq, heq⟩
    have ha : p.1 = a := congrArg (fun x => x.1) heq
    have hb : q.1 = b := congrArg (fun x => x.2.1) heq
    have hw : q.2 = w := congrArg (fun x => x.2.2) heq
    unfold Sv.edgeW Sv.neighbors
    have h1 : dget g.adj a = some p.2 := by
      rw [← ha]
      exact nodup_dget_of_mem hwf.1 (by rcases p with ⟨x, y⟩; exact hp)
    rw [h1]
    simp only [Option.getD_some]
    rw [← hb, ← hw]
    exact nodup_dget_of_mem (hwf.2.1 p hp) (by rcases q with ⟨x, y⟩; exact hq)
  · intro h
    unfold Sv.edgeW Sv.neighbors at h
    rcases hga : dget g.adj a with _ | nbrs
    · rw [hga] at h
      simp [dget] at h
    · rw [hga] at h
      simp only [Option.getD_some] at h
      exact List.mem_flatMap.mpr ⟨(a, nbrs), dget_mem hga,
        List.mem_map.mpr ⟨(b, w), dget_mem h, rfl⟩⟩

theorem mem_ensureKey_sv {adj : PyDict (PyDict ℚ)} {k : String}
    {r : String × PyDict ℚ} (h : r ∈ Sv.ensureKey adj k) :
    r = (k, []) ∨ r ∈ adj := by
  unfold Sv.ensureKey at h
  rcases hge : dget adj k with _ | w
  · rw [hge] at h
    rcases mem_dset h with h1 | h1
    · exact Or.inl h1
    · exact Or.inr h1
  · rw [hge] at h
    exact Or.inr h

theorem mem_add_edge_adj {g : Sv.Graph} {s t : String} {w : ℚ}
    {p : String × PyDict ℚ} (hp : p ∈ (Sv.add_edge g s t w).adj) :
    p = (t, []) ∨ p = (s, dset ((dget (Sv.ensureKey g.adj s) s).getD []) t w) ∨
      p = (s, []) ∨ p ∈ g.adj := by
  have hp' : p ∈ Sv.ensureKey (dset (Sv.ensureKey g.adj s) s
      (dset ((dget (Sv.ensureKey g.adj s) s).getD []) t w)) t := hp
  rcases mem_ensureKey_sv hp' with h1 | h1
  · exact Or.inl h1
  · rcases mem_dset h1 with h2 | h2
    · exact Or.inr (Or.inl h2)
    · rcases mem_ensureKey_sv h2 with h3 | h3
      · exact Or.inr (Or.inr (Or.inl h3))
      · exact Or.inr (Or.inr (Or.inr h3))

theorem dkeys_ensureKey_nodup {adj : PyDict (PyDict ℚ)} {k : String}
    (h : (dkeys adj).Nodup) : (dkeys (Sv.ensureKey adj k)).Nodup := by
  unfold Sv.ensureKey
  rcases hge : dget adj k with _ | v
  · have : k ∉ dkeys adj := by
      intro hm
      rw [mem_dkeys_iff_dget, hge] at hm
      simp at hm
    rw [dkeys_dset_of_not_mem _ _ _ this]
    simpa [List.nodup_append] using ⟨h, this⟩
  · exact h

/-- `add_edge` preserves well-formedness. -/
theorem WF_add_edge {g : Sv.Graph} (hwf : g.WF) (s t : String) (w : ℚ) :
    (Sv.add_edge g s t w).WF := by
  have hNnodup : (dkeys ((dget (Sv.ensureKey g.adj s) s).getD [])).Nodup := by
    rw [dget_ensureKey, if_pos rfl]
    rcases hge : dget g.adj s with _ | nbrs
    · simp [dkeys]
    · simp only [Option.getD_some]
      exact hwf.2.1 (s, nbrs) (dget_mem hge)
  refine ⟨?_, ?_, ?_⟩
  · show (dkeys (Sv.ensureKey (dset (Sv.ensureKey g.adj s) s
      (dset ((dget (Sv.ensureKey g.adj s) s).getD []) t w)) t)).Nodup
    exact dkeys_ensureKey_nodup (dkeys_dset_nodup _ _ _ (dkeys_ensureKey_nodup hwf.1))
  · intro p hp
    rcases mem_add_edge_adj hp with h1 | h1 | h1 | h1
    · rw [h1]; simp [dkeys]
    · rw [h1]
      exact dkeys_dset_nodup _ _ _ hNnodup
    · rw [h1]; simp [dkeys]
    · exact hwf.2.1 p h1
  · intro e he
    rcases List.mem_flatMap.mp he with ⟨p, hp, hmem⟩
    rcases List.mem_map.mp hmem with ⟨q, hq, heq⟩
    have htarget : e.2.1 = q.1 := by rw [← heq]
    have hnode : ∀ n, Sv.has_node g n = true ∨ n = s ∨ n = t →
        (dget (Sv.add_edge g s t w).adj n).isSome := by
      intro n hn
      have := has_node_add_edge g s t w n
      unfold Sv.has_node at this
      rw [this]
      rcases hn with h | h | h <;> simp [h, Sv.has_node] at * <;> simp [h]
    rcases mem_add_edge_adj hp with h1 | h1 | h1 | h1
    · rw [h1] at hq; simp at hq
    · rw [h1] at hq
      rcases mem_dset hq with h2 | h2
      · apply hnode
        right; right
        rw [htarget, h2]
      · rw [dget_ensureKey, if_pos rfl] at h2
        rcases hge : dget g.adj s with _ | nbrs
        · rw [hge] at h2; simp at h2
        · rw [hge] at h2
          simp only [Option.getD_some] at h2
          apply hnode
          left
          have hmem2 : (s, q.1, q.2) ∈ Sv.edgesList g :=
            List.mem_flatMap.mpr ⟨(s, nbrs), dget_mem hge, List.mem_map.mpr ⟨q, h2, rfl⟩⟩
          have := hwf.2.2 _ hmem2
          simp only [Sv.has_node]
          rw [htarget]
          simpa using this
    · rw [h1] at hq; simp at hq
    · apply hnode
      left
      have hmem2 : (p.1, q.1, q.2) ∈ Sv.edgesList g :=
        List.mem_flatMap.mpr ⟨p, h1, List.mem_map.mpr ⟨q, hq, rfl⟩⟩
      have := hwf.2.2 _ hmem2
      simp only [Sv.has_node]
      rw [htarget]
      simpa using this

theorem WF_init : Sv.Graph.init.WF := by
  refine ⟨by simp [Sv.Graph.init, dkeys], by simp [Sv.Graph.init], by simp [Sv.Graph.init, Sv.edgesList]⟩

theorem WF_from_edge_list (es : List (String × String × ℚ)) :
    (Sv.from_edge_list es).WF := by
  unfold Sv.from_edge_list
  exact foldl_preserves Sv.Graph.WF _ es Sv.Graph.init
    (fun g e _ h => WF_add_edge h e.1 e.2.1 e.2.2) WF_init

/-- Pair projection of a flattened adjacency list is duplicate-free. -/
theorem flat_pairs_nodup (adj : List (String × PyDict ℚ))
    (houter : (adj.map Prod.fst).Nodup)
    (hinner : ∀ p ∈ adj, (dkeys p.2).Nodup) :
    ((adj.flatMap fun p => p.2.map fun q => (p.1, q.1, q.2)).map
      fun e => (e.1, e.2.1)).Nodup := by
  induction adj with
  | nil => simp
  | cons p rest ih =>
    rw [List.map_cons, List.nodup_cons] at houter
    simp only [List.flatMap_cons, List.map_append, List.map_map]
    rw [List.nodup_append]
    refine ⟨?_, ?_, ?_⟩
    · have hn : (dkeys p.2).Nodup := hinner p (by simp)
      rw [show ((fun e => (e.1, e.2.1)) ∘ fun q => (p.1, q.1, q.2)) =
          ((fun x => (p.1, x)) ∘ Prod.fst : String × ℚ → String × String) from rfl,
        ← List.map_map]
      exact List.Nodup.map (fun x y hxy => by simpa using hxy) hn
    · exact ih houter.2 fun r hr => hinner r (List.mem_cons_of_mem _ hr)
    · intro x hx hy
      rcases List.mem_map.mp hx with ⟨q, _, hq2⟩
      have hx1 : x.1 = p.1 := by rw [← hq2]; rfl
      rcases List.mem_map.mp hy with ⟨e, he1, he2⟩
      rcases List.mem_flatMap.mp he1 with ⟨r, hr1, hr2⟩
      rcases List.mem_map.mp hr2 with ⟨q', _, hq'2⟩
      have hy1 : x.1 = r.1 := by rw [← he2, ← hq'2]
      apply houter.1
      rw [show p.1 = r.1 by rw [← hx1, hy1]]
      exact List.mem_map.mpr ⟨r, hr1, rfl⟩

/-- Under well-formedness there is at most one edge per ordered pair. -/
theorem edgesList_pairs_nodup {g : Sv.Graph} (hwf : g.WF) :
    ((Sv.edgesList g).map fun e => (e.1, e.2.1)).Nodup :=
  flat_pairs_nodup g.adj hwf.1 hwf.2.1

/-- Edge lookup over `from_edge_list` with pairwise-distinct ordered pairs:
exactly the listed edges are present. -/
theorem edgeW_from_edge_list_distinct (es : List (String × String × ℚ))
    (hd : (es.map fun e => (e.1, e.2.1)).Nodup) (a b : String) (w : ℚ) :
    Sv.edgeW (Sv.from_edge_list es) a b = some w ↔ (a, b, w) ∈ es := by
  have main : ∀ (l : List (String × String × ℚ)) (g : Sv.Graph),
      (l.map fun e => (e.1, e.2.1)).Nodup →
      (∀ x ∈ l, Sv.edgeW g x.1 x.2.1 = none) →
      ∀ a b w, (Sv.edgeW (l.foldl (fun g e => Sv.add_edge g e.1 e.2.1 e.2.2) g) a b
        = some w ↔ (a, b, w) ∈ l ∨ Sv.edgeW g a b = some w) := by
    intro l
    induction l with
    | nil => intro g _ _ a b w; simp
    | cons e t ih =>
      intro g hnd hnone a b w
      simp only [List.foldl_cons]
      have hnd' : (t.map fun e => (e.1, e.2.1)).Nodup := by
        rw [List.map_cons, List.nodup_cons] at hnd
        exact hnd.2
      have hnone' : ∀ x ∈ t, Sv.edgeW (Sv.add_edge g e.1 e.2.1 e.2.2) x.1 x.2.1 = none := by
        intro x hx
        rw [edgeW_add_edge]
        have hne : ¬(x.1 = e.1 ∧ x.2.1 = e.2.1) := by
          intro hc
          rw [List.map_cons, List.nodup_cons] at hnd
          exact hnd.1 (List.mem_map.mpr ⟨x, hx, by rw [Prod.mk.injEq]; exact ⟨hc.1, hc.2⟩⟩)
        rw [if_neg hne]
        exact hnone x (List.mem_cons_of_mem _ hx)
      rw [ih (Sv.add_edge g e.1 e.2.1 e.2.2) hnd' hnone' a b w]
      rw [edgeW_add_edge]
      by_cases hc : a = e.1 ∧ b = e.2.1
      · rw [if_pos hc]
        constructor
        · rintro (h | h)
          · exact Or.inl (List.mem_cons_of_mem _ h)
          · left
            have hw : e.2.2 = w := by injection h
            obtain ⟨h1, h2⟩ := hc
            subst h1
            subst h2
            subst hw
            exact List.mem_cons_self _ _
        · rintro (h | h)
          · rcases List.mem_cons.mp h with h1 | h1
            · right
              rw [← h1]
            · exact Or.inl h1
          · have := hnone e (List.mem_cons_self _ _)
            rw [show Sv.edgeW g a b = Sv.edgeW g e.1 e.2.1 by rw [hc.1, hc.2]] at h
            rw [this] at h
            cases h
      · rw [if_neg hc]
        constructor
        · rintro (h | h)
          · exact Or.inl (List.mem_cons_of_mem _ h)
          · exact Or.inr h
        · rintro (h | h)
          · rcases List.mem_cons.mp h with h1 | h1
            · exfalso
              apply hc
              constructor
              · exact congrArg (fun x => x.1) h1
              · exact congrArg (fun x => x.2.1) h1
            · exact Or.inl h1
          · exact Or.inr h
  unfold Sv.from_edge_list
  rw [main es Sv.Graph.init hd
    (fun x _ => by simp [Sv.edgeW, Sv.Graph.init, Sv.neighbors, dget]) a b w]
  simp [Sv.edgeW, Sv.Graph.init, Sv.neighbors, dget]

/-! ### Metadata bookkeeping over `from_edge_list` -/

theorem metadata_foldl (es : List (String × String × ℚ)) : ∀ (g : Sv.Graph),
    ((es.foldl (fun g e => Sv.add_edge g e.1 e.2.1 e.2.2) g).metadata.edge_count =
      g.metadata.edge_count + es.length) ∧
    ((es.foldl (fun g e => Sv.add_edge g e.1 e.2.1 e.2.2) g).metadata.has_negative_weights =
      (g.metadata.has_negative_weights || es.any fun e => decide (e.2.2 < 0))) ∧
    ((es.foldl (fun g e => Sv.add_edge g e.1 e.2.1 e.2.2) g).metadata.negative_edges =
      g.metadata.negative_edges ++ es.filter fun e => decide (e.2.2 < 0)) ∧
    ((es.foldl (fun g e => Sv.add_edge g e.1 e.2.1 e.2.2) g).metadata.min_weight =
      es.foldl Sv.minStep g.metadata.min_weight) ∧
    ((es.foldl (fun g e => Sv.add_edge g e.1 e.2.1 e.2.2) g).metadata.max_weight =
      es.foldl Sv.maxStep g.metadata.max_weight) := by
  induction es with
  | nil => intro g; simp
  | cons e t ih =>
    intro g
    simp only [List.foldl_cons]
    rcases ih (Sv.add_edge g e.1 e.2.1 e.2.2) with ⟨h1, h2, h3, h4, h5⟩
    have hec : (Sv.add_edge g e.1 e.2.1 e.2.2).metadata.edge_count =
        g.metadata.edge_count + 1 := rfl
    have hfl : (Sv.add_edge g e.1 e.2.1 e.2.2).metadata.has_negative_weights =
        (g.metadata.has_negative_weights || decide (e.2.2 < 0)) := rfl
    have hne : (Sv.add_edge g e.1 e.2.1 e.2.2).metadata.negative_edges =
        (if e.2.2 < 0 then g.metadata.negative_edges ++ [(e.1, e.2.1, e.2.2)]
         else g.metadata.negative_edges) := rfl
    have hmin : (Sv.add_edge g e.1 e.2.1 e.2.2).metadata.min_weight =
        Sv.minStep g.metadata.min_weight e := rfl
    have hmax : (Sv.add_edge g e.1 e.2.1 e.2.2).metadata.max_weight =
        Sv.maxStep g.metadata.max_weight e := rfl
    refine ⟨?_, ?_, ?_, ?_, ?_⟩
    · rw [h1, hec]
      simp [Nat.add_assoc, Nat.add_comm 1]
    · rw [h2, hfl]
      simp [List.any_cons, Bool.or_assoc]
    · rw [h3, hne, List.filter_cons]
      by_cases hneg : e.2.2 < 0
      · simp [hneg, List.append_assoc]
      · simp [hneg]
    · rw [h4, hmin]
    · rw [h5, hmax]

theorem minFold_spec (es : List (String × String × ℚ)) :
    ∀ (acc : Option ℚ) (m : ℚ), es.foldl Sv.minStep acc = some m →
      ((∃ e ∈ es, e.2.2 = m) ∨ acc = some m) ∧ (∀ e ∈ es, m ≤ e.2.2) ∧
      (∀ a, acc = some a → m ≤ a) := by
  induction es with
  | nil =>
    intro acc m h
    simp only [List.foldl_nil] at h
    exact ⟨Or.inr h, by simp, fun a ha => by rw [h] at ha; injection ha with h'; rw [h']⟩
  | cons e t ih =>
    intro acc m h
    simp only [List.foldl_cons] at h
    rcases ih (Sv.minStep acc e) m h with ⟨hex, hall, hacc⟩
    rcases acc with _ | a
    · have hstep : Sv.minStep none e = some e.2.2 := rfl
      have hm : m ≤ e.2.2 := hacc _ hstep
      refine ⟨?_, ?_, ?_⟩
      · rcases hex with h1 | h1
        · exact Or.inl (by rcases h1 with ⟨x, hx, he⟩; exact ⟨x, List.mem_cons_of_mem _ hx, he⟩)
        · rw [hstep] at h1
          left
          refine ⟨e, List.mem_cons_self _ _, ?_⟩
          injection h1 with h1'
      · intro x hx
        rcases List.mem_cons.mp hx with h1 | h1
        · rw [h1]; exact hm
        · exact hall x h1
      · intro a ha
        cases ha
    · have hstep : Sv.minStep (some a) e = some (min a e.2.2) := rfl
      have hm : m ≤ min a e.2.2 := hacc _ hstep
      refine ⟨?_, ?_, ?_⟩
      · rcases hex with h1 | h1
        · exact Or.inl (by rcases h1 with ⟨x, hx, he⟩; exact ⟨x, List.mem_cons_of_mem _ hx, he⟩)
        · rw [hstep] at h1
          have h1' : min a e.2.2 = m := by injection h1
          rcases min_choice a e.2.2 with hc | hc
          · rw [hc] at h1'
            exact Or.inr (by rw [h1'])
          · rw [hc] at h1'
            exact Or.inl ⟨e, List.mem_cons_self _ _, h1'⟩
      · intro x hx
        rcases List.mem_cons.mp hx with h1 | h1
        · rw [h1]; exact le_trans hm (min_le_right _ _)
        · exact hall x h1
      · intro a' ha'
        injection ha' with h''
        rw [← h'']
        exact le_trans hm (min_le_left _ _)

theorem maxFold_spec (es : List (String × String × ℚ)) :
    ∀ (acc : Option ℚ) (m : ℚ), es.foldl Sv.maxStep acc = some m →
      ((∃ e ∈ es, e.2.2 = m) ∨ acc = some m) ∧ (∀ e ∈ es, e.2.2 ≤ m) ∧
      (∀ a, acc = some a → a ≤ m) := by
  induction es with
  | nil =>
    intro acc m h
    simp only [List.foldl_nil] at h
    exact ⟨Or.inr h, by simp, fun a ha => by rw [h] at ha; injection ha with h'; rw [h']⟩
  | cons e t ih =>
    intro acc m h
    simp only [List.foldl_cons] at h
    rcases ih (Sv.maxStep acc e) m h with ⟨hex, hall, hacc⟩
    rcases acc with _ | a
    · have hstep : Sv.maxStep none e = some e.2.2 := rfl
      have hm : e.2.2 ≤ m := hacc _ hstep
      refine ⟨?_, ?_, ?_⟩
      · rcases hex with h1 | h1
        · exact Or.inl (by rcases h1 with ⟨x, hx, he⟩; exact ⟨x, List.mem_cons_of_mem _ hx, he⟩)
        · rw [hstep] at h1
          left
          refine ⟨e, List.mem_cons_self _ _, ?_⟩
          injection h1 with h1'
      · intro x hx
        rcases List.mem_cons.mp hx with h1 | h1
        · rw [h1]; exact hm
        · exact hall x h1
      · intro a ha
        cases ha
    · have hstep : Sv.maxStep (some a) e = some (max a e.2.2) := rfl
      have hm : max a e.2.2 ≤ m := hacc _ hstep
      refine ⟨?_, ?_, ?_⟩
      · rcases hex with h1 | h1
        · exact Or.inl (by rcases h1 with ⟨x, hx, he⟩; exact ⟨x, List.mem_cons_of_mem _ hx, he⟩)
        · rw [hstep] at h1
          have h1' : max a e.2.2 = m := by injection h1
          rcases max_choice a e.2.2 with hc | hc
          · rw [hc] at h1'
            exact Or.inr (by rw [h1'])
          · rw [hc] at h1'
            exact Or.inl ⟨e, List.mem_cons_self _ _, h1'⟩
      · intro x hx
        rcases List.mem_cons.mp hx with h1 | h1
        · rw [h1]; exact le_trans (le_max_right _ _) hm
        · exact hall x h1
      · intro a' ha'
        injection ha' with h''
        rw [← h'']
        exact le_trans (le_max_left _ _) hm

/-! ### C7 — graph metadata invariant (amended theorem) -/

/-- C7 (amended): add_edge with an already-present (source, target) pair
does overwrite the prior weight, and well-formed graphs carry exactly one
edge per ordered pair; but the metadata counts add_edge calls, not present
edges, and its negative/min/max records are never recomputed.  When no
ordered pair is duplicated, the recomputed metadata does agree with the edge
set actually present: edge_count equals the number of present edges,
node_count counts the distinct nodes, has_negative_weights holds iff some
present edge is negative, negative_edges are exactly the present negative
edges, and min/max weight bound the present weights tightly. -/
theorem C7_metadata_invariant (es : List (String × String × ℚ))
    (hd : (es.map fun e => (e.1, e.2.1)).Nodup) :
    (∀ (g' : Sv.Graph) (s t : String) (w : ℚ),
        Sv.edgeW (Sv.add_edge g' s t w) s t = some w) ∧
    ((Sv.edgesList (Sv.from_edge_list es)).map fun e => (e.1, e.2.1)).Nodup ∧
    (∀ a b w, (a, b, w) ∈ Sv.edgesList (Sv.from_edge_list es) ↔ (a, b, w) ∈ es) ∧
    (Sv.get_metadata (Sv.from_edge_list es)).edge_count =
      (Sv.edgesList (Sv.from_edge_list es)).length ∧
    (Sv.get_metadata (Sv.from_edge_list es)).node_count =
      (Sv.nodesList (Sv.from_edge_list es)).length ∧
    (Sv.nodesList (Sv.from_edge_list es)).Nodup ∧
    ((Sv.get_metadata (Sv.from_edge_list es)).has_negative_weights = true ↔
      ∃ e ∈ Sv.edgesList (Sv.from_edge_list es), e.2.2 < 0) ∧
    (∀ e, e ∈ (Sv.get_metadata (Sv.from_edge_list es)).negative_edges ↔
      e ∈ Sv.edgesList (Sv.from_edge_list es) ∧ e.2.2 < 0) ∧
    (∀ m, (Sv.get_metadata (Sv.from_edge_list es)).min_weight = some m →
      (∃ e ∈ Sv.edgesList (Sv.from_edge_list es), e.2.2 = m) ∧
      ∀ e ∈ Sv.edgesList (Sv.from_edge_list es), m ≤ e.2.2) ∧
    (∀ m, (Sv.get_metadata (Sv.from_edge_list es)).max_weight = some m →
      (∃ e ∈ Sv.edgesList (Sv.from_edge_list es), e.2.2 = m) ∧
      ∀ e ∈ Sv.edgesList (Sv.from_edge_list es), e.2.2 ≤ m) := by
  have hwf := WF_from_edge_list es
  have hmem : ∀ a b w, (a, b, w) ∈ Sv.edgesList (Sv.from_edge_list es) ↔ (a, b, w) ∈ es := by
    intro a b w
    rw [mem_edgesList_iff hwf, edgeW_from_edge_list_distinct es hd]
  have hmem' : ∀ e, e ∈ Sv.edgesList (Sv.from_edge_list es) ↔ e ∈ es := by
    intro e
    rcases e with ⟨a, b, w⟩
    exact hmem a b w
  have hmd := metadata_foldl es Sv.Graph.init
  have hfe : Sv.from_edge_list es =
      es.foldl (fun g e => Sv.add_edge g e.1 e.2.1 e.2.2) Sv.Graph.init := rfl
  rw [← hfe] at hmd
  have hperm : (Sv.edgesList (Sv.from_edge_list es)).Perm es := by
    have h1 : (Sv.edgesList (Sv.from_edge_list es)).Nodup :=
      (edgesList_pairs_nodup hwf).of_map
    have h2 : es.Nodup := hd.of_map
    exact (h1.subperm fun x hx => (hmem' x).mp hx).antisymm
      (h2.subperm fun x hx => (hmem' x).mpr hx)
  refine ⟨?_, edgesList_pairs_nodup hwf, hmem, ?_, ?_, ?_, ?_, ?_, ?_, ?_⟩
  · intro g' s t w
    rw [edgeW_add_edge, if_pos ⟨rfl, rfl⟩]
  · show (Sv.from_edge_list es).metadata.edge_count = _
    rw [hmd.1, hperm.length_eq]
    simp [Sv.Graph.init, Sv.GraphMetadata.init]
  · show (Sv.from_edge_list es).adj.length = _
    simp [Sv.nodesList, dkeys]
  · exact hwf.1
  · show (Sv.from_edge_list es).metadata.has_negative_weights = true ↔ _
    rw [hmd.2.1]
    simp only [Sv.Graph.init, Sv.GraphMetadata.init, Bool.false_or]
    rw [List.any_eq_true]
    constructor
    · rintro ⟨e, he, hne⟩
      exact ⟨e, (hmem' e).mpr he, of_decide_eq_true hne⟩
    · rintro ⟨e, he, hne⟩
      exact ⟨e, (hmem' e).mp he, decide_eq_true hne⟩
  · intro e
    show e ∈ (Sv.from_edge_list es).metadata.negative_edges ↔ _
    rw [hmd.2.2.1]
    simp only [Sv.Graph.init, Sv.GraphMetadata.init, List.nil_append]
    rw [List.mem_filter]
    constructor
    · rintro ⟨he, hne⟩
      exact ⟨(hmem' e).mpr he, of_decide_eq_true hne⟩
    · rintro ⟨he, hne⟩
      exact ⟨(hmem' e).mp he, decide_eq_true hne⟩
  · intro m hm
    have hm' : es.foldl Sv.minStep none = some m := by
      have : (Sv.from_edge_list es).metadata.min_weight = some m := hm
      rw [hmd.2.2.2.1] at this
      simpa [Sv.Graph.init, Sv.GraphMetadata.init] using this
    rcases minFold_spec es none m hm' with ⟨hex, hall, _⟩
    constructor
    · rcases hex with h1 | h1
      · rcases h1 with ⟨e, he, heq⟩
        exact ⟨e, (hmem' e).mpr he, heq⟩
      · cases h1
    · intro e he
      exact hall e ((hmem' e).mp he)
  · intro m hm
    have hm' : es.foldl Sv.maxStep none = some m := by
      have : (Sv.from_edge_list es).metadata.max_weight = some m := hm
      rw [hmd.2.2.2.2] at this
      simpa [Sv.Graph.init, Sv.GraphMetadata.init] using this
    rcases maxFold_spec es none m hm' with ⟨hex, hall, _⟩
    constructor
    · rcases hex with h1 | h1
      · rcases h1 with ⟨e, he, heq⟩
        exact ⟨e, (hmem' e).mpr he, heq⟩
      · cases h1
    · intro e he
      exact hall e ((hmem' e).mp he)

/-- C7 witness: the two-distinct-edge graph A→B=5, B→C=-1. -/
theorem C7_witness :
    ((([("A", "B", (5 : ℚ)), ("B", "C", -1)].map fun e => (e.1, e.2.1)).Nodup) ∧
     (Sv.get_metadata (Sv.from_edge_list [("A", "B", 5), ("B", "C", -1)])).edge_count =
       (Sv.edgesList (Sv.from_edge_list [("A", "B", 5), ("B", "C", -1)])).length) := by
  refine ⟨by decide, ?_⟩
  exact (C7_metadata_invariant [("A", "B", 5), ("B", "C", -1)]
    (by decide)).2.2.2.1

/-! ### Chain and walk infrastructure -/

theorem oLe_refl (x : Option ℚ) : Sv.oLe x x := by
  cases x <;> simp [Sv.oLe]

theorem oLe_trans {x y z : Option ℚ} (h1 : Sv.oLe x y) (h2 : Sv.oLe y z) :
    Sv.oLe x z := by
  cases x <;> cases y <;> cases z <;> simp_all [Sv.oLe]
  exact le_trans h1 h2

theorem edgesList_of_edgeW {g : Sv.Graph} {a b : String} {w : ℚ}
    (h : Sv.edgeW g a b = some w) : (a, b, w) ∈ Sv.edgesList g := by
  unfold Sv.edgeW Sv.neighbors at h
  rcases hga : dget g.adj a with _ | nbrs
  · rw [hga] at h
    simp [dget] at h
  · rw [hga] at h
    simp only [Option.getD_some] at h
    exact List.mem_flatMap.mpr ⟨(a, nbrs), dget_mem hga,
      List.mem_map.mpr ⟨(b, w), dget_mem h, rfl⟩⟩

/-- Appending an edge to a walk. -/
theorem Sv.WalkTo.snoc {g : Sv.Graph} {s a b : String} {W w : ℚ}
    (hw : Sv.WalkTo g s a W) (he : Sv.edgeW g a b = some w) :
    Sv.WalkTo g s b (W + w) := by
  induction hw with
  | nil x => simpa using Sv.WalkTo.cons x b b w 0 he (Sv.WalkTo.nil b)
  | cons x y c w' W' he' _ ih =>
    have := Sv.WalkTo.cons x y b w' (W' + w) he' (ih he)
    rwa [← add_assoc] at this

/-- Splitting a chain at an interior node: both halves are chains and
weights add. -/
theorem chain_split (g : Sv.Graph) (x : String) (l₂ : List String) :
    ∀ l₁ : List String,
      (Sv.okChain g (l₁ ++ x :: l₂) ↔ Sv.okChain g (l₁ ++ [x]) ∧ Sv.okChain g (x :: l₂)) ∧
      Sv.chainW g (l₁ ++ x :: l₂) = Sv.chainW g (l₁ ++ [x]) + Sv.chainW g (x :: l₂) := by
  intro l₁
  induction l₁ with
  | nil => simp [Sv.okChain, Sv.chainW]
  | cons a l₁ ih =>
    cases l₁ with
    | nil =>
      constructor
      · show Sv.okChain g (a :: x :: l₂) ↔ _
        cases l₂ with
        | nil => simp [Sv.okChain]
        | cons b t => simp [Sv.okChain, and_assoc]
      · show Sv.chainW g (a :: x :: l₂) = _
        cases l₂ with
        | nil => simp [Sv.chainW]
        | cons b t => simp [Sv.chainW, add_assoc]
    | cons b l₁' =>
      constructor
      · show Sv.okChain g (a :: b :: (l₁' ++ x :: l₂)) ↔
          Sv.okChain g (a :: b :: (l₁' ++ [x])) ∧ _
        rw [show Sv.okChain g (a :: b :: (l₁' ++ x :: l₂)) =
            ((Sv.edgeW g a b).isSome ∧ Sv.okChain g (b :: (l₁' ++ x :: l₂))) from rfl]
        rw [show Sv.okChain g (a :: b :: (l₁' ++ [x])) =
            ((Sv.edgeW g a b).isSome ∧ Sv.okChain g (b :: (l₁' ++ [x]))) from rfl]
        rw [show (b :: (l₁' ++ x :: l₂)) = ((b :: l₁') ++ x :: l₂) from rfl]
        rw [show (b :: (l₁' ++ [x])) = ((b :: l₁') ++ [x]) from rfl]
        rw [(ih).1]
        tauto
      · show Sv.chainW g (a :: b :: (l₁' ++ x :: l₂)) = _
        rw [show Sv.chainW g (a :: b :: (l₁' ++ x :: l₂)) =
            (Sv.edgeW g a b).getD 0 + Sv.chainW g ((b :: l₁') ++ x :: l₂) from rfl]
        rw [(ih).2]
        show (Sv.edgeW g a b).getD 0 +
            (Sv.chainW g ((b :: l₁') ++ [x]) + Sv.chainW g (x :: l₂)) =
          ((Sv.edgeW g a b).getD 0 + Sv.chainW g ((b :: l₁') ++ [x])) + Sv.chainW g (x :: l₂)
        rw [add_assoc]

/-- A chain is a walk between its endpoints. -/
theorem chain_walk {g : Sv.Graph} : ∀ {l : List String} {x y : String},
    Sv.okChain g l → l.head? = some x → l.getLast? = some y →
    Sv.WalkTo g x y (Sv.chainW g l) := by
  intro l
  induction l with
  | nil => intro x y _ h; simp at h
  | cons a t ih =>
    intro x y hc hh hl
    have hax : a = x := by injection hh
    subst hax
    cases t with
    | nil =>
      have : a = y := by simpa using hl
      subst this
      show Sv.WalkTo g a a (Sv.chainW g [a])
      simpa [Sv.chainW] using Sv.WalkTo.nil a
    | cons b t' =>
      have hc' : (Sv.edgeW g a b).isSome ∧ Sv.okChain g (b :: t') := hc
      rcases Option.isSome_iff_exists.mp hc'.1 with ⟨w, hw⟩
      have hl' : (b :: t').getLast? = some y := by
        rw [← hl]
        simp [List.getLast?_cons_cons]
      have := Sv.WalkTo.cons a b y w (Sv.chainW g (b :: t')) hw
        (ih hc'.2 rfl hl')
      rw [show Sv.chainW g (a :: b :: t') =
          (Sv.edgeW g a b).getD 0 + Sv.chainW g (b :: t') from rfl, hw]
      simpa using this

/-- A walk induces a chain between its endpoints. -/
theorem walk_chain {g : Sv.Graph} {x y : String} {W : ℚ}
    (h : Sv.WalkTo g x y W) :
    ∃ l : List String, Sv.okChain g l ∧ l.head? = some x ∧ l.getLast? = some y ∧
      Sv.chainW g l = W := by
  induction h with
  | nil a => exact ⟨[a], trivial, rfl, rfl, rfl⟩
  | cons a b c w W' he _ ih =>
    rcases ih with ⟨l, hc, hh, hl, hw⟩
    cases l with
    | nil => simp at hh
    | cons b' t =>
      have hb : b' = b := by injection hh
      subst hb
      refine ⟨a :: b' :: t, ⟨by simp [he], hc⟩, rfl, ?_, ?_⟩
      · rw [← hl]
        simp [List.getLast?_cons_cons]
      · rw [show Sv.chainW g (a :: b' :: t) =
          (Sv.edgeW g a b').getD 0 + Sv.chainW g (b' :: t) from rfl, he, hw]
        simp

/-- A duplicate-containing list splits at the duplicated element. -/
theorem not_nodup_split {l : List String} (h : ¬l.Nodup) :
    ∃ x l₁ l₂ l₃, l = l₁ ++ x :: l₂ ++ x :: l₃ := by
  induction l with
  | nil => exact absurd List.nodup_nil h
  | cons a t ih =>
    by_cases ha : a ∈ t
    · rcases List.append_of_mem ha with ⟨l₂, l₃, rfl⟩
      exact ⟨a, [], l₂, l₃, rfl⟩
    · have ht : ¬t.Nodup := fun hn => h (List.nodup_cons.mpr ⟨ha, hn⟩)
      rcases ih ht with ⟨x, l₁, l₂, l₃, rfl⟩
      exact ⟨x, a :: l₁, l₂, l₃, rfl⟩

/-- Pigeonhole: a list over a finite universe longer than the universe has a
duplicate. -/
theorem long_list_not_nodup {l ns : List String}
    (hsub : ∀ x ∈ l, x ∈ ns) (hlen : ns.length + 1 ≤ l.length) : ¬l.Nodup := by
  intro hnd
  have h1 : l.toFinset.card = l.length := List.toFinset_card_of_nodup hnd
  have h2 : l.toFinset ⊆ ns.toFinset := by
    intro x hx
    rw [List.mem_toFinset] at hx ⊢
    exact hsub x hx
  have h3 := Finset.card_le_card h2
  have h4 := ns.toFinset_card_le
  omega

/-! ### Relaxation-state lemmas (probe and Bellman-Ford share these) -/

theorem oLe_some_right {x : Option ℚ} {a : ℚ} (h : Sv.oLe x (some a)) :
    ∃ b, x = some b ∧ b ≤ a := by
  cases x with
  | none => cases h
  | some b => exact ⟨b, rfl, h⟩

theorem probeRelax_none {d : PyDict (Option ℚ)} {e : String × String × ℚ}
    (h : (dget d e.1).join = none) : Sv.probeRelax d e = d := by
  unfold Sv.probeRelax
  rw [h]

theorem probeRelax_to_inf {d : PyDict (Option ℚ)} {e : String × String × ℚ} {ds : ℚ}
    (h1 : (dget d e.1).join = some ds) (h2 : (dget d e.2.1).join = none) :
    Sv.probeRelax d e = dset d e.2.1 (some (ds + e.2.2)) := by
  unfold Sv.probeRelax
  rw [h1, h2]

theorem probeRelax_improve {d : PyDict (Option ℚ)} {e : String × String × ℚ}
    {ds dt : ℚ} (h1 : (dget d e.1).join = some ds) (h2 : (dget d e.2.1).join = some dt)
    (h3 : ds + e.2.2 < dt) :
    Sv.probeRelax d e = dset d e.2.1 (some (ds + e.2.2)) := by
  unfold Sv.probeRelax
  rw [h1, h2]
  dsimp only
  rw [if_pos h3]

theorem probeRelax_keep {d : PyDict (Option ℚ)} {e : String × String × ℚ}
    {ds dt : ℚ} (h1 : (dget d e.1).join = some ds) (h2 : (dget d e.2.1).join = some dt)
    (h3 : ¬(ds + e.2.2 < dt)) : Sv.probeRelax d e = d := by
  unfold Sv.probeRelax
  rw [h1, h2]
  dsimp only
  rw [if_neg h3]

theorem probeRelax_decrease (d : PyDict (Option ℚ)) (e : String × String × ℚ)
    (v : String) : Sv.oLe ((dget (Sv.probeRelax d e) v).join) ((dget d v).join) := by
  rcases h1 : (dget d e.1).join with _ | ds
  · rw [probeRelax_none h1]
    exact oLe_refl _
  · rcases h2 : (dget d e.2.1).join with _ | dt
    · rw [probeRelax_to_inf h1 h2]
      by_cases hv : v = e.2.1
      · rw [hv, dget_dset_self, h2]
        simp [Sv.oLe, Option.join]
      · rw [dget_dset_ne _ _ _ _ hv]
        exact oLe_refl _
    · by_cases himp : ds + e.2.2 < dt
      · rw [probeRelax_improve h1 h2 himp]
        by_cases hv : v = e.2.1
        · rw [hv, dget_dset_self, h2]
          simp only [Option.join, Sv.oLe]
          exact le_of_lt himp
        · rw [dget_dset_ne _ _ _ _ hv]
          exact oLe_refl _
      · rw [probeRelax_keep h1 h2 himp]
        exact oLe_refl _

theorem foldl_probeRelax_decrease (l : List (String × String × ℚ))
    (d : PyDict (Option ℚ)) (v : String) :
    Sv.oLe ((dget (l.foldl Sv.probeRelax d) v).join) ((dget d v).join) := by
  induction l generalizing d with
  | nil => exact oLe_refl _
  | cons e t ih =>
    exact oLe_trans (ih (Sv.probeRelax d e)) (probeRelax_decrease d e v)

theorem probePass_decrease (g : Sv.Graph) (d : PyDict (Option ℚ)) (v : String) :
    Sv.oLe ((dget (Sv.probePass g d) v).join) ((dget d v).join) :=
  foldl_probeRelax_decrease _ d v

theorem probeRelax_walks {g : Sv.Graph} (hwf : g.WF) {s : String}
    {d : PyDict (Option ℚ)} {e : String × String × ℚ} (he : e ∈ Sv.edgesList g)
    (hw : Sv.distWalks g s d) : Sv.distWalks g s (Sv.probeRelax d e) := by
  have hedge : Sv.edgeW g e.1 e.2.1 = some e.2.2 := by
    rcases e with ⟨a, b, w⟩
    exact (mem_edgesList_iff hwf a b w).mp he
  have hset : ∀ ds : ℚ, (dget d e.1).join = some ds →
      Sv.distWalks g s (dset d e.2.1 (some (ds + e.2.2))) := by
    intro ds h1 v dv hv
    by_cases hveq : v = e.2.1
    · rw [hveq, dget_dset_self] at hv
      simp only [Option.join] at hv
      injection hv with hv'
      rw [hveq, ← hv']
      exact (hw e.1 ds h1).snoc hedge
    · rw [dget_dset_ne _ _ _ _ hveq] at hv
      exact hw v dv hv
  rcases h1 : (dget d e.1).join with _ | ds
  · rw [probeRelax_none h1]
    exact hw
  · rcases h2 : (dget d e.2.1).join with _ | dt
    · rw [probeRelax_to_inf h1 h2]
      exact hset ds h1
    · by_cases himp : ds + e.2.2 < dt
      · rw [probeRelax_improve h1 h2 himp]
        exact hset ds h1
      · rw [probeRelax_keep h1 h2 himp]
        exact hw

theorem probePass_walks {g : Sv.Graph} (hwf : g.WF) {s : String}
    {d : PyDict (Option ℚ)} (hw : Sv.distWalks g s d) :
    Sv.distWalks g s (Sv.probePass g d) := by
  unfold Sv.probePass
  exact foldl_preserves (Sv.distWalks g s) Sv.probeRelax _ d
    (fun st e he h => probeRelax_walks hwf he h) hw

/-- One relaxation of the edge e brings the target under source + weight. -/
theorem probeRelax_edge_bound (d : PyDict (Option ℚ)) (e : String × String × ℚ)
    (du : ℚ) (hdu : (dget d e.1).join = some du) :
    ∃ dv, (dget (Sv.probeRelax d e) e.2.1).join = some dv ∧ dv ≤ du + e.2.2 := by
  rcases h2 : (dget d e.2.1).join with _ | dt
  · rw [probeRelax_to_inf hdu h2]
    refine ⟨du + e.2.2, ?_, le_refl _⟩
    rw [dget_dset_self]
    rfl
  · by_cases himp : du + e.2.2 < dt
    · rw [probeRelax_improve hdu h2 himp]
      refine ⟨du + e.2.2, ?_, le_refl _⟩
      rw [dget_dset_self]
      rfl
    · rw [probeRelax_keep hdu h2 himp]
      exact ⟨dt, h2, le_of_not_gt (by simpa using himp)⟩

/-- Relaxing a whole pass brings the target of every edge under
source + weight (w.r.t. the pre-pass source value). -/
theorem probePass_edge_bound {g : Sv.Graph} {d : PyDict (Option ℚ)}
    {e : String × String × ℚ} (he : e ∈ Sv.edgesList g) (du : ℚ)
    (hdu : (dget d e.1).join = some du) :
    ∃ dv, (dget (Sv.probePass g d) e.2.1).join = some dv ∧ dv ≤ du + e.2.2 := by
  rcases List.append_of_mem he with ⟨l₁, l₂, hsplit⟩
  unfold Sv.probePass
  rw [hsplit, List.foldl_append, List.foldl_cons]
  have h1 : Sv.oLe ((dget (l₁.foldl Sv.probeRelax d) e.1).join) ((dget d e.1).join) :=
    foldl_probeRelax_decrease l₁ d e.1
  rw [hdu] at h1
  rcases oLe_some_right h1 with ⟨du', hdu', hle⟩
  rcases probeRelax_edge_bound (l₁.foldl Sv.probeRelax d) e du' hdu' with ⟨dv, hdv, hdvle⟩
  have h2 : Sv.oLe ((dget (l₂.foldl Sv.probeRelax
        (Sv.probeRelax (l₁.foldl Sv.probeRelax d) e)) e.2.1).join)
      ((dget (Sv.probeRelax (l₁.foldl Sv.probeRelax d) e) e.2.1).join) :=
    foldl_probeRelax_decrease l₂ _ e.2.1
  rw [hdv] at h2
  rcases oLe_some_right h2 with ⟨dv', hdv', hle'⟩
  exact ⟨dv', hdv', le_trans hle' (le_trans hdvle (by linarith))⟩

/-- A chain of length ≥ 2 decomposes at its last edge. -/
theorem chain_snoc {g : Sv.Graph} : ∀ {l : List String} {v : String},
    Sv.okChain g l → l.getLast? = some v → 2 ≤ l.length →
    ∃ (l' : List String) (u : String) (w : ℚ), l = l' ++ [v] ∧
      l'.getLast? = some u ∧ Sv.okChain g l' ∧ Sv.edgeW g u v = some w ∧
      Sv.chainW g l = Sv.chainW g l' + w ∧ l'.length + 1 = l.length ∧
      l'.head? = l.head? := by
  intro l
  induction l with
  | nil => intro v _ _ h; simp at h
  | cons a t ih =>
    intro v hc hlast hlen
    cases t with
    | nil => simp at hlen
    | cons b t' =>
      have hc' : (Sv.edgeW g a b).isSome ∧ Sv.okChain g (b :: t') := hc
      rcases Option.isSome_iff_exists.mp hc'.1 with ⟨wab, hwab⟩
      cases t' with
      | nil =>
        have hbv : b = v := by simpa using hlast
        subst hbv
        refine ⟨[a], a, wab, rfl, rfl, trivial, hwab, ?_, rfl, rfl⟩
        show (Sv.edgeW g a b).getD 0 + Sv.chainW g [b] = Sv.chainW g [a] + wab
        rw [hwab]
        simp [Sv.chainW]
      | cons c t'' =>
        have hlast' : (b :: c :: t'').getLast? = some v := by
          rw [← hlast]
          simp [List.getLast?_cons_cons]
        rcases ih hc'.2 hlast' (by simp) with
          ⟨l', u, w, hsplit, hlastl', hcl', hew, hwsum, hlenl', hheadl'⟩
        have hl'b : l'.head? = some b := by rw [hheadl']; rfl
        rcases l' with _ | ⟨b', l''⟩
        · simp at hl'b
        · have hbb : b' = b := by injection hl'b
          subst hbb
          refine ⟨a :: b' :: l'', u, w, by rw [show ((a :: b' :: l'') ++ [v]) =
              a :: ((b' :: l'') ++ [v]) from rfl, ← hsplit], ?_, ?_, hew, ?_, ?_, rfl⟩
          · rw [← hlastl']
            simp [List.getLast?_cons_cons]
          · exact ⟨by simp [hwab], hcl'⟩
          · show (Sv.edgeW g a b').getD 0 + Sv.chainW g (b' :: c :: t'') =
              Sv.chainW g (a :: b' :: l'') + w
            rw [hwsum, show Sv.chainW g (a :: b' :: l'') =
              (Sv.edgeW g a b').getD 0 + Sv.chainW g (b' :: l'') from rfl, add_assoc]
          · simp only [List.length_cons] at hlenl' ⊢
            omega

/-- One pass advances the chain-length bound by one. -/
theorem probePass_bound {g : Sv.Graph} {s : String} {k : ℕ}
    {d : PyDict (Option ℚ)} (hb : Sv.distBound g s k d) :
    Sv.distBound g s (k + 1) (Sv.probePass g d) := by
  intro l v hc hh hl hlen
  by_cases hshort : l.length ≤ k + 1
  · rcases hb l v hc hh hl hshort with ⟨dv, hdv, hle⟩
    have := probePass_decrease g d v
    rw [hdv] at this
    rcases oLe_some_right this with ⟨dv', hdv', hle'⟩
    exact ⟨dv', hdv', le_trans hle' hle⟩
  · have hlen2 : 2 ≤ l.length := by
      rcases l with _ | ⟨a, t⟩
      · simp at hh
      · rcases t with _ | ⟨b, t'⟩
        · exact absurd (by simpa using Nat.succ_le_succ (Nat.zero_le k)) hshort
        · simp
    rcases chain_snoc hc hl hlen2 with
      ⟨l', u, w, hsplit, hlastl', hcl', hew, hwsum, hlenl', hheadl'⟩
    have hshort' : l'.length ≤ k + 1 := by omega
    have hh' : l'.head? = some s := by rw [hheadl']; exact hh
    rcases hb l' u hcl' hh' hlastl' hshort' with ⟨du, hdu, hdule⟩
    have hmem : (u, v, w) ∈ Sv.edgesList g := edgesList_of_edgeW hew
    rcases probePass_edge_bound hmem du hdu with ⟨dv, hdv, hdvle⟩
    exact ⟨dv, hdv, by rw [hwsum]; calc dv ≤ du + w := hdvle
      _ ≤ Sv.chainW g l' + w := by linarith⟩

theorem distFix_of_improves_false {g : Sv.Graph} {d : PyDict (Option ℚ)}
    (h : Sv.improvesSome g d = false) : Sv.distFix g d := by
  intro e he ds hds
  have h' := h
  rw [Sv.improvesSome] at h'
  have hthis := List.any_eq_false.mp h' e he
  rw [hds] at hthis
  rcases h2 : (dget d e.2.1).join with _ | dt
  · rw [h2] at hthis
    dsimp only at hthis
    simp at hthis
  · rw [h2] at hthis
    dsimp only at hthis
    simp only [decide_eq_true_eq] at hthis
    exact ⟨dt, rfl, le_of_not_gt (by simpa using hthis)⟩

theorem improves_false_of_distFix {g : Sv.Graph} {d : PyDict (Option ℚ)}
    (h : Sv.distFix g d) : Sv.improvesSome g d = false := by
  rw [Sv.improvesSome, List.any_eq_false]
  intro e he
  rcases h1 : (dget d e.1).join with _ | ds
  · dsimp only
    simp
  · rcases h e he ds h1 with ⟨dt, hdt, hle⟩
    rw [hdt]
    dsimp only
    simp only [decide_eq_true_eq]
    exact not_lt_of_ge hle

/-- Under a fixpoint, every chain propagates distance bounds. -/
theorem fix_chain_bound {g : Sv.Graph} {d : PyDict (Option ℚ)}
    (hfix : Sv.distFix g d) : ∀ (l : List String) (x v : String),
    Sv.okChain g l → l.head? = some x → l.getLast? = some v →
    ∀ dx, (dget d x).join = some dx →
    ∃ dv, (dget d v).join = some dv ∧ dv ≤ dx + Sv.chainW g l := by
  intro l
  induction l with
  | nil => intro x v _ hh _ _ _; simp at hh
  | cons a t ih =>
    intro x v hc hh hl dx hdx
    have hax : a = x := by injection hh
    subst hax
    cases t with
    | nil =>
      have hav : a = v := by simpa using hl
      subst hav
      exact ⟨dx, hdx, by simp [Sv.chainW]⟩
    | cons b t' =>
      have hc' : (Sv.edgeW g a b).isSome ∧ Sv.okChain g (b :: t') := hc
      rcases Option.isSome_iff_exists.mp hc'.1 with ⟨w, hw⟩
      have hmem : (a, b, w) ∈ Sv.edgesList g := edgesList_of_edgeW hw
      rcases hfix (a, b, w) hmem dx hdx with ⟨db, hdb, hdble⟩
      have hl' : (b :: t').getLast? = some v := by
        rw [← hl]
        simp [List.getLast?_cons_cons]
      rcases ih b v hc'.2 rfl hl' db hdb with ⟨dv, hdv, hdvle⟩
      refine ⟨dv, hdv, ?_⟩
      rw [show Sv.chainW g (a :: b :: t') =
        (Sv.edgeW g a b).getD 0 + Sv.chainW g (b :: t') from rfl, hw]
      simp only [Option.getD_some]
      linarith

/-! ### Negative-cycle extraction -/

theorem edgeW_source_node {g : Sv.Graph} {a b : String} {w : ℚ}
    (h : Sv.edgeW g a b = some w) : a ∈ Sv.nodesList g := by
  unfold Sv.edgeW Sv.neighbors at h
  rcases hga : dget g.adj a with _ | nbrs
  · rw [hga] at h
    simp [dget] at h
  · rw [Sv.nodesList, mem_dkeys_iff_dget, hga]
    rfl

theorem edgeW_target_node {g : Sv.Graph} (hwf : g.WF) {a b : String} {w : ℚ}
    (h : Sv.edgeW g a b = some w) : b ∈ Sv.nodesList g := by
  have := hwf.2.2 _ (edgesList_of_edgeW h)
  rw [Sv.nodesList, mem_dkeys_iff_dget]
  exact this

theorem chain_nodes_sub {g : Sv.Graph} (hwf : g.WF) :
    ∀ {l : List String}, Sv.okChain g l → 2 ≤ l.length →
      ∀ x ∈ l, x ∈ Sv.nodesList g := by
  intro l
  induction l with
  | nil => intro _ h; simp at h
  | cons a t ih =>
    intro hc hlen x hx
    cases t with
    | nil => simp at hlen
    | cons b t' =>
      have hc' : (Sv.edgeW g a b).isSome ∧ Sv.okChain g (b :: t') := hc
      rcases Option.isSome_iff_exists.mp hc'.1 with ⟨w, hw⟩
      rcases List.mem_cons.mp hx with h1 | h1
      · rw [h1]
        exact edgeW_source_node hw
      · cases t' with
        | nil =>
          have hb : x = b := by simpa using h1
          rw [hb]
          exact edgeW_target_node hwf hw
        | cons c t'' =>
          exact ih hc'.2 (by simp) x h1

/-- Removing the loop between two occurrences of a node: the outer chain is
still a chain with the same endpoints, the inner loop is a closed chain, and
the weights add up. -/
theorem chain_surgery {g : Sv.Graph} (l₁ l₂ l₃ : List String) (x : String)
    (hc : Sv.okChain g (l₁ ++ x :: (l₂ ++ x :: l₃))) :
    Sv.okChain g (l₁ ++ x :: l₃) ∧ Sv.okChain g ((x :: l₂) ++ [x]) ∧
    Sv.chainW g (l₁ ++ x :: (l₂ ++ x :: l₃)) =
      Sv.chainW g (l₁ ++ x :: l₃) + Sv.chainW g ((x :: l₂) ++ [x]) ∧
    (l₁ ++ x :: l₃).head? = (l₁ ++ x :: (l₂ ++ x :: l₃)).head? ∧
    (l₁ ++ x :: l₃).getLast? = (l₁ ++ x :: (l₂ ++ x :: l₃)).getLast? := by
  have hs1 := chain_split g x (l₂ ++ x :: l₃) l₁
  have hsplit1 := (hs1.1.mp hc)
  have hs2 := chain_split g x l₃ (x :: l₂)
  have hmid : Sv.okChain g ((x :: l₂) ++ x :: l₃) := hsplit1.2
  have hsplit2 := hs2.1.mp hmid
  have hs3 := chain_split g x l₃ l₁
  refine ⟨hs3.1.mpr ⟨hsplit1.1, hsplit2.2⟩, hsplit2.1, ?_, ?_, ?_⟩
  · rw [hs1.2, hs3.2]
    have := hs2.2
    rw [show Sv.chainW g (x :: (l₂ ++ x :: l₃)) =
      Sv.chainW g ((x :: l₂) ++ x :: l₃) from rfl, this]
    ring
  · cases l₁ with
    | nil => rfl
    | cons a t => rfl
  · have hgen : ∀ (A : List String) (b : String) (B : List String),
        (A ++ b :: B).getLast? = (b :: B).getLast? := by
      intro A
      induction A with
      | nil => intro b B; rfl
      | cons a t ih =>
        intro b B
        cases t with
        | nil => simp [List.getLast?_cons_cons]
        | cons c t' =>
          rw [show ((a :: c :: t') ++ b :: B) = a :: c :: (t' ++ b :: B) from rfl,
            List.getLast?_cons_cons]
          exact ih b B
    rw [hgen, hgen, show (x :: (l₂ ++ x :: l₃)) = (x :: l₂) ++ x :: l₃ from rfl, hgen]

theorem getLast?_append_cons {α : Type} (A : List α) (b : α) (B : List α) :
    (A ++ b :: B).getLast? = (b :: B).getLast? := by
  induction A with
  | nil => rfl
  | cons a t ih =>
    cases t with
    | nil => simp [List.getLast?_cons_cons]
    | cons c t' =>
      rw [show ((a :: c :: t') ++ b :: B) = a :: c :: (t' ++ b :: B) from rfl,
        List.getLast?_cons_cons]
      exact ih

/-- Every negative closed chain contains a simple negative cycle. -/
theorem neg_closed_chain_simple {g : Sv.Graph} :
    ∀ (n : ℕ) (c : List String), c.length ≤ n → 2 ≤ c.length →
      c.head? = c.getLast? → Sv.okChain g c → Sv.chainW g c < 0 →
      ∃ c', Sv.SimpleNegCycle g c' := by
  intro n
  induction n with
  | zero =>
    intro c hlen h2 _ _ _
    omega
  | succ n ih =>
    intro c hlen h2 hclosed hc hneg
    by_cases hnd : c.dropLast.Nodup
    · exact ⟨c, h2, hclosed, hc, hnd, hneg⟩
    · rcases c with _ | ⟨y, rest⟩
      · simp at h2
      · rcases rest with _ | ⟨r0, rest'⟩
        · simp at h2
        · have hlast : (r0 :: rest').getLast? = some y := by
            have : (y :: r0 :: rest').getLast? = some y := by
              rw [← hclosed]
              rfl
            rwa [List.getLast?_cons_cons] at this
          have hne : (r0 :: rest') ≠ [] := by simp
          have hy : (r0 :: rest').getLast hne = y := by
            have := List.getLast?_eq_getLast (r0 :: rest') hne
            rw [hlast] at this
            injection this with h'
            exact h'.symm
          have hrest : (r0 :: rest') = (r0 :: rest').dropLast ++ [y] := by
            rw [← hy]
            exact (List.dropLast_append_getLast hne).symm
          set mid := (r0 :: rest').dropLast with hmid
          have hcform : (y :: r0 :: rest') = (y :: mid) ++ [y] := by
            rw [show ((y :: mid) ++ [y]) = y :: (mid ++ [y]) from rfl, ← hrest]
          have hdrop : (y :: r0 :: rest').dropLast = y :: mid := by
            rw [hcform]
            exact List.dropLast_concat
          rw [hdrop] at hnd
          rcases not_nodup_split hnd with ⟨x, l₁, l₂, l₃, hsplit⟩
          have hcform2 : (y :: r0 :: rest') = l₁ ++ x :: (l₂ ++ x :: (l₃ ++ [y])) := by
            rw [hcform, hsplit]
            simp [List.append_assoc]
          rw [hcform2] at hc hneg hlen
          have hsurg := chain_surgery l₁ l₂ (l₃ ++ [y]) x hc
      -- endpoints of the original closed chain
          have hhead : (l₁ ++ x :: (l₂ ++ x :: (l₃ ++ [y]))).head? = some y := by
            rw [← hcform2]
            rfl
          have hlast2 : (l₁ ++ x :: (l₂ ++ x :: (l₃ ++ [y]))).getLast? = some y := by
            rw [← hcform2, ← hclosed]
            rfl
          by_cases hc' : Sv.chainW g ((x :: l₂) ++ [x]) < 0
          · apply ih ((x :: l₂) ++ [x])
            · have : (l₁ ++ x :: (l₂ ++ x :: (l₃ ++ [y]))).length =
                  l₁.length + l₂.length + l₃.length + 3 := by
                simp
                omega
              simp only [List.length_append, List.length_cons] at hlen ⊢
              simp
              omega
            · simp
            · rw [getLast?_append_cons]
              rfl
            · exact hsurg.2.1
            · exact hc'
          · apply ih (l₁ ++ x :: (l₃ ++ [y]))
            · simp only [List.length_append, List.length_cons] at hlen ⊢
              omega
            · simp only [List.length_append, List.length_cons]
              omega
            · rw [hsurg.2.2.2.1.trans hhead]
              exact (hsurg.2.2.2.2.trans hlast2).symm
            · exact hsurg.1
            · have hadd := hsurg.2.2.1
              linarith [hadd ▸ hneg, not_lt.mp hc']

/-- Shortening: a chain from s to t whose weight stays at most `c0`, when
every chain of at most node-count length weighs more than `c0`, forces a
simple negative cycle. -/
theorem chain_shorten_negcycle {g : Sv.Graph} (hwf : g.WF) {s t : String} {c0 : ℚ}
    (hV : 1 ≤ (Sv.nodesList g).length)
    (key : ∀ (l : List String), Sv.okChain g l → l.head? = some s →
      l.getLast? = some t → l.length ≤ (Sv.nodesList g).length →
      c0 < Sv.chainW g l) :
    ∀ (n : ℕ) (l : List String), l.length ≤ n → Sv.okChain g l →
      l.head? = some s → l.getLast? = some t → Sv.chainW g l ≤ c0 →
      ∃ c, Sv.SimpleNegCycle g c := by
  intro n
  induction n with
  | zero =>
    intro l hlen _ hh _ _
    rcases l with _ | _
    · simp at hh
    · simp at hlen
  | succ n ih =>
    intro l hlen hc hh hl hw
    by_cases hshort : l.length ≤ (Sv.nodesList g).length
    · exact absurd hw (not_le.mpr (key l hc hh hl hshort))
    · have h2 : 2 ≤ l.length := by omega
      have hsub := chain_nodes_sub hwf hc h2
      have hnd := long_list_not_nodup hsub (by omega)
      rcases not_nodup_split hnd with ⟨x, l₁, l₂, l₃, hsplit⟩
      have hsplit' : l = l₁ ++ x :: (l₂ ++ x :: l₃) := by
        rw [hsplit]
        simp [List.append_assoc]
      rw [hsplit'] at hc hh hl hw hlen
      have hsurg := chain_surgery l₁ l₂ l₃ x hc
      by_cases hneg : Sv.chainW g ((x :: l₂) ++ [x]) < 0
      · exact neg_closed_chain_simple (l₂.length + 2) ((x :: l₂) ++ [x])
          (by simp) (by simp)
          (by rw [getLast?_append_cons]; rfl) hsurg.2.1 hneg
      · apply ih (l₁ ++ x :: l₃)
        · simp only [List.length_append, List.length_cons] at hlen ⊢
          omega
        · exact hsurg.1
        · rw [hsurg.2.2.2.1]
          exact hh
        · rw [hsurg.2.2.2.2]
          exact hl
        · have hadd := hsurg.2.2.1
          linarith [not_lt.mp hneg]

/-- When the tentative distances realise walks and bound every chain of at
most node-count length, any remaining improvable edge exposes a simple
negative cycle. -/
theorem improvement_implies_negcycle {g : Sv.Graph} (hwf : g.WF) {s : String}
    {d : PyDict (Option ℚ)}
    (hb : Sv.distBound g s ((Sv.nodesList g).length - 1) d)
    (hw : Sv.distWalks g s d)
    (himp : Sv.improvesSome g d = true) :
    ∃ c, Sv.SimpleNegCycle g c := by
  rw [Sv.improvesSome, List.any_eq_true] at himp
  rcases himp with ⟨e, he, himp⟩
  rcases h1 : (dget d e.1).join with _ | ds
  · rw [h1] at himp
    dsimp only at himp
    simp at himp
  · rw [h1] at himp
    dsimp only at himp
    have hedge : Sv.edgeW g e.1 e.2.1 = some e.2.2 := by
      rcases e with ⟨a, b, w⟩
      exact (mem_edgesList_iff hwf a b w).mp he
    have hV : 1 ≤ (Sv.nodesList g).length := by
      have := edgeW_source_node hedge
      rcases hns : Sv.nodesList g with _ | _
      · rw [hns] at this
        simp at this
      · simp
    have hkV : (Sv.nodesList g).length - 1 + 1 = (Sv.nodesList g).length := by omega
    -- the walk realising d[e.1], extended along e, gives a chain of weight
    -- ds + w that no short chain can match
    have hwalk : Sv.WalkTo g s e.2.1 (ds + e.2.2) :=
      Sv.WalkTo.snoc (hw e.1 ds h1) hedge
    rcases walk_chain hwalk with ⟨Q, hQc, hQh, hQl, hQw⟩
    apply chain_shorten_negcycle hwf hV ?_ Q.length Q le_rfl hQc hQh hQl (le_of_eq hQw)
    intro l hc hh hl hlen
    rcases hb l e.2.1 hc hh hl (by omega) with ⟨dv, hdv, hdvle⟩
    rcases h2 : (dget d e.2.1).join with _ | dt
    · rw [h2] at hdv
      exact absurd hdv (by simp)
    · rw [h2] at himp
      dsimp only at himp
      simp only [decide_eq_true_eq] at himp
      rw [h2] at hdv
      have h3 : dt = dv := by injection hdv
      subst h3
      linarith

/-! ### Probe initialisation and iteration -/

theorem dget_map_none_join (l : List String) (v : String) :
    (dget (l.map fun n => (n, (none : Option ℚ))) v).join = none := by
  induction l with
  | nil => rfl
  | cons a t ih =>
    show (if a = v then some (none : Option ℚ) else dget _ v).join = none
    by_cases h : a = v
    · rw [if_pos h]
      rfl
    · rw [if_neg h]
      exact ih

theorem probeInit_join (g : Sv.Graph) (s0 v : String) :
    (dget (Sv.probeInit g s0) v).join = if v = s0 then some 0 else none := by
  unfold Sv.probeInit
  by_cases h : v = s0
  · subst h
    rw [if_pos rfl, dget_dset_self]
    rfl
  · rw [if_neg h, dget_dset_ne _ _ _ _ h]
    exact dget_map_none_join _ v

theorem probeInit_walks (g : Sv.Graph) (s0 : String) :
    Sv.distWalks g s0 (Sv.probeInit g s0) := by
  intro v d hd
  rw [probeInit_join] at hd
  by_cases h : v = s0
  · rw [if_pos h] at hd
    have hd0 : d = 0 := by
      injection hd with h'
      exact h'.symm
    subst hd0
    subst h
    exact Sv.WalkTo.nil v
  · rw [if_neg h] at hd
    simp at hd

theorem probeInit_bound (g : Sv.Graph) (s0 : String) :
    Sv.distBound g s0 0 (Sv.probeInit g s0) := by
  intro l v _ hh hl hlen
  rcases l with _ | ⟨a, t⟩
  · simp at hh
  · rcases t with _ | ⟨b, t'⟩
    · have ha : a = s0 := by injection hh
      have hv : a = v := by simpa using hl
      refine ⟨0, ?_, ?_⟩
      · rw [← hv, ha, probeInit_join, if_pos rfl]
      · exact le_of_eq rfl
    · simp at hlen

theorem probe_iter_walks {g : Sv.Graph} (hwf : g.WF) (s0 : String) (k : ℕ) :
    Sv.distWalks g s0
      ((List.range k).foldl (fun d _ => Sv.probePass g d) (Sv.probeInit g s0)) := by
  induction k with
  | zero => exact probeInit_walks g s0
  | succ n ih =>
    rw [List.range_succ, List.foldl_append]
    exact probePass_walks hwf ih

theorem probe_iter_bound {g : Sv.Graph} (s0 : String) (k : ℕ) :
    Sv.distBound g s0 k
      ((List.range k).foldl (fun d _ => Sv.probePass g d) (Sv.probeInit g s0)) := by
  induction k with
  | zero => exact probeInit_bound g s0
  | succ n ih =>
    rw [List.range_succ, List.foldl_append]
    exact probePass_bound ih

theorem detect_negative_cycle_cons {g : Sv.Graph} {s0 : String} {nb : PyDict ℚ}
    {rest : PyDict (PyDict ℚ)} (hadj : g.adj = (s0, nb) :: rest) :
    Sv.detect_negative_cycle g =
      Sv.improvesSome g ((List.range rest.length).foldl (fun d _ => Sv.probePass g d)
        (Sv.probeInit g s0)) := by
  unfold Sv.detect_negative_cycle
  rw [hadj]
  dsimp only
  rw [List.length_cons, Nat.add_sub_cancel]

theorem nodesList_length {g : Sv.Graph} : (Sv.nodesList g).length = g.adj.length := by
  rw [Sv.nodesList, dkeys, List.length_map]

/-- Soundness of the probe: a positive answer exposes a simple negative
cycle. -/
theorem detect_sound {g : Sv.Graph} (hwf : g.WF)
    (h : Sv.detect_negative_cycle g = true) : ∃ c, Sv.SimpleNegCycle g c := by
  rcases hadj : g.adj with _ | ⟨⟨s0, nb⟩, rest⟩
  · rw [Sv.detect_negative_cycle, hadj] at h
    exact absurd h (by simp)
  · rw [detect_negative_cycle_cons hadj] at h
    have hnl : (Sv.nodesList g).length = rest.length + 1 := by
      rw [nodesList_length, hadj, List.length_cons]
    exact improvement_implies_negcycle hwf
      (by rw [hnl, Nat.add_sub_cancel]; exact probe_iter_bound s0 rest.length)
      (probe_iter_walks hwf s0 rest.length) h

/-- Completeness of the probe: a simple negative cycle reachable from the
probe node forces a positive answer. -/
theorem detect_complete {g : Sv.Graph} (hwf : g.WF) {s0 : String} {nb : PyDict ℚ}
    {rest : PyDict (PyDict ℚ)} (hadj : g.adj = (s0, nb) :: rest)
    {c : List String} {v : String} (hc : Sv.SimpleNegCycle g c)
    (hv : c.head? = some v) (hr : Sv.Reaches g s0 v) :
    Sv.detect_negative_cycle g = true := by
  rw [detect_negative_cycle_cons hadj]
  by_contra hfalse
  rw [Bool.not_eq_true] at hfalse
  have hfix := distFix_of_improves_false hfalse
  have hb := @probe_iter_bound g s0 rest.length
  rcases hb [s0] s0 trivial rfl rfl (by simp) with ⟨d0, hd0, _⟩
  rcases hr with ⟨W, hwalk⟩
  rcases walk_chain hwalk with ⟨Q, hQc, hQh, hQl, hQw⟩
  rcases fix_chain_bound hfix Q s0 v hQc hQh hQl d0 hd0 with ⟨dv, hdv, hdvle⟩
  rcases hc with ⟨hlen2, hclosed, hcok, hnd, hneg⟩
  have hcl : c.getLast? = some v := hclosed ▸ hv
  rcases fix_chain_bound hfix c v v hcok hv hcl dv hdv with ⟨dv', hdv', hle'⟩
  rw [hdv] at hdv'
  have hdd : dv = dv' := by injection hdv'
  linarith [hdd ▸ hle', hneg]

/-! ### Metadata of graphs built by from_edge_list -/

theorem hnc_foldl (es : List (String × String × ℚ)) : ∀ (g : Sv.Graph),
    (es.foldl (fun g e => Sv.add_edge g e.1 e.2.1 e.2.2) g).metadata.has_negative_cycle =
      g.metadata.has_negative_cycle := by
  induction es with
  | nil => intro g; rfl
  | cons e t ih =>
    intro g
    rw [List.foldl_cons, ih]
    rfl

theorem hnc_from_edge_list (es : List (String × String × ℚ)) :
    (Sv.from_edge_list es).metadata.has_negative_cycle = false := by
  rw [Sv.from_edge_list, hnc_foldl]
  rfl

theorem hnw_from_edge_list (es : List (String × String × ℚ)) :
    (Sv.from_edge_list es).metadata.has_negative_weights =
      es.any fun e => decide (e.2.2 < 0) := by
  rw [Sv.from_edge_list, (metadata_foldl es Sv.Graph.init).2.1]
  rfl

theorem edgeW_foldl_mem (es : List (String × String × ℚ)) :
    ∀ (g : Sv.Graph) (a b : String) (w : ℚ),
      Sv.edgeW (es.foldl (fun g e => Sv.add_edge g e.1 e.2.1 e.2.2) g) a b = some w →
      (a, b, w) ∈ es ∨ Sv.edgeW g a b = some w := by
  induction es with
  | nil => intro g a b w h; exact Or.inr h
  | cons e t ih =>
    intro g a b w h
    rw [List.foldl_cons] at h
    rcases ih _ a b w h with h1 | h1
    · exact Or.inl (List.mem_cons_of_mem _ h1)
    · rw [edgeW_add_edge] at h1
      by_cases hab : a = e.1 ∧ b = e.2.1
      · rw [if_pos hab] at h1
        have hw : w = e.2.2 := by
          injection h1 with h'
          exact h'.symm
        left
        rw [hab.1, hab.2, hw]
        simp
      · rw [if_neg hab] at h1
        exact Or.inr h1

theorem edgeW_from_edge_list_mem {es : List (String × String × ℚ)} {a b : String}
    {w : ℚ} (h : Sv.edgeW (Sv.from_edge_list es) a b = some w) : (a, b, w) ∈ es := by
  rcases edgeW_foldl_mem es Sv.Graph.init a b w h with h1 | h1
  · exact h1
  · exact absurd h1 (by simp [Sv.edgeW, Sv.neighbors, Sv.Graph.init, dget])

theorem chainW_neg_edge {g : Sv.Graph} : ∀ {l : List String}, Sv.okChain g l →
    Sv.chainW g l < 0 → ∃ a b w, Sv.edgeW g a b = some w ∧ w < 0 := by
  intro l
  induction l with
  | nil => intro _ h; exact absurd h (by norm_num [Sv.chainW])
  | cons a t ih =>
    intro hc hneg
    cases t with
    | nil => exact absurd hneg (by norm_num [Sv.chainW])
    | cons b t' =>
      have hc' : (Sv.edgeW g a b).isSome ∧ Sv.okChain g (b :: t') := hc
      rcases Option.isSome_iff_exists.mp hc'.1 with ⟨w, hw⟩
      rw [show Sv.chainW g (a :: b :: t') =
        (Sv.edgeW g a b).getD 0 + Sv.chainW g (b :: t') from rfl, hw] at hneg
      simp only [Option.getD_some] at hneg
      by_cases hwn : w < 0
      · exact ⟨a, b, w, hw, hwn⟩
      · exact ih hc'.2 (by linarith [not_lt.mp hwn])

/-- C4: the `has_negative_cycle` metadata flag of any constructed graph is
computed by the Bellman-Ford probe only when negative-weight edges are
present (otherwise it stays false); whenever the flag is set a simple
negative-total-weight cycle actually exists in the graph (so acyclic graphs
and graphs whose cycles all have non-negative total weight never get the
flag); and whenever a simple negative-total-weight cycle is reachable from
the probe node (the first node of the adjacency dict) the flag is set. -/
theorem C4_negative_cycle_probe (es : List (String × String × ℚ)) :
    ((Sv.get_metadata (Sv.from_edge_list es)).has_negative_cycle =
      if (Sv.from_edge_list es).metadata.has_negative_weights
      then Sv.detect_negative_cycle (Sv.from_edge_list es) else false) ∧
    ((Sv.get_metadata (Sv.from_edge_list es)).has_negative_cycle = true →
      ∃ c, Sv.SimpleNegCycle (Sv.from_edge_list es) c) ∧
    (∀ p rest, (Sv.from_edge_list es).adj = p :: rest →
      ∀ c v, Sv.SimpleNegCycle (Sv.from_edge_list es) c → c.head? = some v →
        Sv.Reaches (Sv.from_edge_list es) p.1 v →
        (Sv.get_metadata (Sv.from_edge_list es)).has_negative_cycle = true) := by
  have hwf := WF_from_edge_list es
  have hmeta : (Sv.get_metadata (Sv.from_edge_list es)).has_negative_cycle =
      if (Sv.from_edge_list es).metadata.has_negative_weights
      then Sv.detect_negative_cycle (Sv.from_edge_list es)
      else (Sv.from_edge_list es).metadata.has_negative_cycle := rfl
  refine ⟨?_, ?_, ?_⟩
  · rw [hmeta, hnc_from_edge_list]
  · intro h
    rw [hmeta] at h
    by_cases hnw : (Sv.from_edge_list es).metadata.has_negative_weights = true
    · rw [if_pos hnw] at h
      exact detect_sound hwf h
    · rw [if_neg hnw, hnc_from_edge_list] at h
      exact absurd h (by simp)
  · intro p rest hadj c v hc hv hr
    have hnw : (Sv.from_edge_list es).metadata.has_negative_weights = true := by
      rcases chainW_neg_edge hc.2.2.1 hc.2.2.2.2 with ⟨a, b, w, hw, hwn⟩
      rw [hnw_from_edge_list, List.any_eq_true]
      exact ⟨(a, b, w), edgeW_from_edge_list_mem hw, by simpa using hwn⟩
    rw [hmeta, if_pos hnw]
    rcases p with ⟨s0, nb⟩
    exact detect_complete hwf hadj hc hv hr

/-- C4 witness graph: the two-edge negative cycle A -1→ B -1→ A. -/
def esC4 : List (String × String × ℚ) := [("A", "B", -1), ("B", "A", -1)]

/-- C4 witness: on the concrete graph with the reachable negative cycle
[A, B, A], the metadata flag is set. -/
theorem C4_witness :
    (Sv.get_metadata (Sv.from_edge_list esC4)).has_negative_cycle = true :=
  (C4_negative_cycle_probe esC4).2.2 ("A", [("B", -1)]) [("B", [("A", -1)])]
    (by with_unfolding_all decide) ["A", "B", "A"] "A"
    ⟨by with_unfolding_all decide, by with_unfolding_all decide,
      ⟨by with_unfolding_all decide, by with_unfolding_all decide, trivial⟩,
      by with_unfolding_all decide, by with_unfolding_all decide⟩
    (by with_unfolding_all decide) ⟨0, Sv.WalkTo.nil "A"⟩

/-! ### Bellman-Ford: relation of the pass to the probe, and the update flag -/

theorem bfPass_eq (g : Sv.Graph)
    (st : PyDict (Option ℚ) × PyDict (Option String) × Bool) :
    Sv.bfPass g st = (Sv.edgesList g).foldl Sv.bfRelax st := rfl

theorem improvesSome_eq_any (g : Sv.Graph) (d : PyDict (Option ℚ)) :
    Sv.improvesSome g d = (Sv.edgesList g).any (Sv.impAt d) := rfl

theorem bfRelax_fst (st : PyDict (Option ℚ) × PyDict (Option String) × Bool)
    (e : String × String × ℚ) : (Sv.bfRelax st e).1 = Sv.probeRelax st.1 e := by
  rcases st with ⟨d, p, u⟩
  unfold Sv.bfRelax Sv.probeRelax
  dsimp only
  rcases h1 : (dget d e.1).join with _ | ds
  · rfl
  · rcases h2 : (dget d e.2.1).join with _ | dt
    · rfl
    · dsimp only
      by_cases hlt : ds + e.2.2 < dt
      · rw [if_pos hlt, if_pos hlt]
      · rw [if_neg hlt, if_neg hlt]

theorem bf_foldl_fst (l : List (String × String × ℚ)) :
    ∀ (st : PyDict (Option ℚ) × PyDict (Option String) × Bool),
      (l.foldl Sv.bfRelax st).1 = l.foldl Sv.probeRelax st.1 := by
  induction l with
  | nil => intro st; rfl
  | cons e t ih =>
    intro st
    rw [List.foldl_cons, List.foldl_cons, ih, bfRelax_fst]

theorem bfPass_fst (g : Sv.Graph)
    (st : PyDict (Option ℚ) × PyDict (Option String) × Bool) :
    (Sv.bfPass g st).1 = Sv.probePass g st.1 := by
  rw [bfPass_eq, Sv.probePass, bf_foldl_fst]

theorem bfRelax_flag (st : PyDict (Option ℚ) × PyDict (Option String) × Bool)
    (e : String × String × ℚ) :
    (Sv.bfRelax st e).2.2 = (st.2.2 || Sv.impAt st.1 e) := by
  rcases st with ⟨d, p, u⟩
  unfold Sv.bfRelax Sv.impAt
  dsimp only
  rcases h1 : (dget d e.1).join with _ | ds
  · simp
  · rcases h2 : (dget d e.2.1).join with _ | dt
    · simp
    · dsimp only
      by_cases hlt : ds + e.2.2 < dt
      · rw [if_pos hlt]
        simp [hlt]
      · rw [if_neg hlt]
        simp [hlt]

theorem impAt_false_skip {st : PyDict (Option ℚ) × PyDict (Option String) × Bool}
    {e : String × String × ℚ} (h : Sv.impAt st.1 e = false) :
    Sv.bfRelax st e = st := by
  rcases st with ⟨d, p, u⟩
  unfold Sv.impAt at h
  unfold Sv.bfRelax
  dsimp only at h ⊢
  rcases h1 : (dget d e.1).join with _ | ds
  · rfl
  · rw [h1] at h
    rcases h2 : (dget d e.2.1).join with _ | dt
    · rw [h2] at h
      simp at h
    · rw [h2] at h
      dsimp only at h ⊢
      simp only [decide_eq_false_iff_not] at h
      rw [if_neg h]

theorem foldl_bfRelax_false (l : List (String × String × ℚ)) :
    ∀ (st : PyDict (Option ℚ) × PyDict (Option String) × Bool),
      (l.foldl Sv.bfRelax st).2.2 = false →
      l.foldl Sv.bfRelax st = st ∧ st.2.2 = false ∧
        ∀ e ∈ l, Sv.impAt st.1 e = false := by
  induction l with
  | nil =>
    intro st h
    exact ⟨rfl, h, by simp⟩
  | cons e t ih =>
    intro st h
    rw [List.foldl_cons] at h
    rcases ih (Sv.bfRelax st e) h with ⟨hst, hflag, hrest⟩
    rw [bfRelax_flag] at hflag
    rcases Bool.or_eq_false_iff.mp hflag with ⟨hu, himp⟩
    have hskip := @impAt_false_skip st e himp
    refine ⟨?_, hu, ?_⟩
    · rw [hskip] at hst
      rw [List.foldl_cons, hskip]
      exact hst
    · intro e' he'
      rcases List.mem_cons.mp he' with h1 | h1
      · rw [h1]
        exact himp
      · have := hrest e' h1
        rwa [hskip] at this

theorem bfPass_false {g : Sv.Graph} {d : PyDict (Option ℚ)}
    {p : PyDict (Option String)} (h : (Sv.bfPass g (d, p, false)).2.2 = false) :
    Sv.bfPass g (d, p, false) = (d, p, false) ∧ Sv.improvesSome g d = false := by
  rw [bfPass_eq] at h ⊢
  rcases foldl_bfRelax_false _ _ h with ⟨hst, _, hall⟩
  refine ⟨hst, ?_⟩
  rw [improvesSome_eq_any, List.any_eq_false]
  intro e he
  exact Bool.not_eq_true _ ▸ (hall e he)

/-! ### Predecessor-path lemmas -/

theorem prevPath_split (p : PyDict (Option String)) (x : String) (l₂ : List String) :
    ∀ l₁ : List String,
      Sv.prevPath p (l₁ ++ x :: l₂) ↔
        Sv.prevPath p (l₁ ++ [x]) ∧ Sv.prevPath p (x :: l₂) := by
  intro l₁
  induction l₁ with
  | nil =>
    constructor
    · intro h
      exact ⟨trivial, h⟩
    · intro h
      exact h.2
  | cons a l₁ ih =>
    cases l₁ with
    | nil =>
      constructor
      · intro h
        have h' : (dget p a).join = some x ∧ Sv.prevPath p (x :: l₂) := h
        exact ⟨⟨h'.1, trivial⟩, h'.2⟩
      · intro h
        have h1 : (dget p a).join = some x ∧ Sv.prevPath p [x] := h.1
        exact ⟨h1.1, h.2⟩
    | cons b l₁' =>
      constructor
      · intro h
        have h' : (dget p a).join = some b ∧ Sv.prevPath p ((b :: l₁') ++ x :: l₂) := h
        rcases ih.mp h'.2 with ⟨hL, hR⟩
        exact ⟨⟨h'.1, hL⟩, hR⟩
      · intro h
        have h1 : (dget p a).join = some b ∧ Sv.prevPath p ((b :: l₁') ++ [x]) := h.1
        exact ⟨h1.1, ih.mpr ⟨h1.2, h.2⟩⟩

theorem prevPath_dset_ne {p : PyDict (Option String)} {t : String} {v : Option String} :
    ∀ l : List String, (∀ a ∈ l.dropLast, a ≠ t) →
      (Sv.prevPath (dset p t v) l ↔ Sv.prevPath p l) := by
  intro l
  induction l with
  | nil => intro _; exact Iff.rfl
  | cons a l ih =>
    intro hne
    cases l with
    | nil => exact Iff.rfl
    | cons b l' =>
      have ha : a ≠ t := hne a (List.mem_cons_self a _)
      have hne' : ∀ x ∈ (b :: l').dropLast, x ≠ t := fun x hx =>
        hne x (List.mem_cons_of_mem a hx)
      constructor
      · intro h
        have h' : (dget (dset p t v) a).join = some b ∧
            Sv.prevPath (dset p t v) (b :: l') := h
        rw [dget_dset_ne _ _ _ _ ha] at h'
        exact ⟨h'.1, (ih hne').mp h'.2⟩
      · intro h
        have h' : (dget p a).join = some b ∧ Sv.prevPath p (b :: l') := h
        refine ⟨?_, (ih hne').mpr h'.2⟩
        rw [dget_dset_ne _ _ _ _ ha]
        exact h'.1

theorem prevPath_telescope {g : Sv.Graph} {d : PyDict (Option ℚ)}
    {p : PyDict (Option String)} (hok : Sv.PrevOk g d p) :
    ∀ (l : List String) (a b : String), Sv.prevPath p l → l.head? = some a →
      l.getLast? = some b → 2 ≤ l.length →
      Sv.okChain g l.reverse ∧ ∃ da db, (dget d a).join = some da ∧
        (dget d b).join = some db ∧ Sv.chainW g l.reverse ≤ da - db := by
  intro l
  induction l with
  | nil => intro a b _ _ _ hlen; simp at hlen
  | cons a0 l ih =>
    intro a b hp hh hl hlen
    have ha : a0 = a := by injection hh
    subst ha
    cases l with
    | nil => simp at hlen
    | cons c l' =>
      have hp' : (dget p a0).join = some c ∧ Sv.prevPath p (c :: l') := hp
      rcases hok a0 c hp'.1 with ⟨dn, dp', w, hdn, hdp, hew, hle⟩
      cases l' with
      | nil =>
        have hb : c = b := by simpa using hl
        subst hb
        refine ⟨⟨Option.isSome_iff_exists.mpr ⟨w, hew⟩, trivial⟩, dn, dp', hdn, hdp, ?_⟩
        show (Sv.edgeW g c a0).getD 0 + Sv.chainW g [a0] ≤ dn - dp'
        rw [hew]
        show w + Sv.chainW g [a0] ≤ dn - dp'
        have h0 : Sv.chainW g [a0] = 0 := rfl
        rw [h0]
        linarith
      | cons e l'' =>
        have hl' : (c :: e :: l'').getLast? = some b := by
          rw [List.getLast?_cons_cons] at hl
          exact hl
        rcases ih c b hp'.2 rfl hl' (by simp) with ⟨hchain, dc, db, hdc, hdb, hsum⟩
        have hdceq : dc = dp' := by
          rw [hdp] at hdc
          injection hdc with h'
          exact h'.symm
        subst hdceq
        have hrev : (c :: e :: l'').reverse = (e :: l'').reverse ++ [c] := by
          simp
        have hrev2 : (a0 :: c :: e :: l'').reverse =
            (e :: l'').reverse ++ c :: [a0] := by
          simp
        rw [hrev] at hchain hsum
        rw [hrev2]
        have hspl := chain_split g c [a0] ((e :: l'').reverse)
        have hc2 : Sv.okChain g [c, a0] := ⟨Option.isSome_iff_exists.mpr ⟨w, hew⟩, trivial⟩
        refine ⟨hspl.1.mpr ⟨hchain, hc2⟩, dn, db, hdn, hdb, ?_⟩
        rw [hspl.2]
        have hw2 : Sv.chainW g [c, a0] = w := by
          show (Sv.edgeW g c a0).getD 0 + Sv.chainW g [a0] = w
          rw [hew]
          show w + Sv.chainW g [a0] = w
          have h0 : Sv.chainW g [a0] = 0 := rfl
          rw [h0, add_zero]
        rw [hw2]
        linarith

theorem prevPath_closed_of_not_nodup {p : PyDict (Option String)} {l : List String}
    (hp : Sv.prevPath p l) (hnd : ¬l.Nodup) :
    ∃ x M, Sv.prevPath p (x :: M ++ [x]) := by
  rcases not_nodup_split hnd with ⟨x, l₁, l₂, l₃, hsp⟩
  have hsp' : l = l₁ ++ x :: (l₂ ++ x :: l₃) := by
    rw [hsp]
    simp [List.append_assoc]
  rw [hsp'] at hp
  have h1 := (prevPath_split p x (l₂ ++ x :: l₃) l₁).mp hp
  have h2 : Sv.prevPath p ((x :: l₂) ++ x :: l₃) := h1.2
  have h3 := (prevPath_split p x l₃ (x :: l₂)).mp h2
  exact ⟨x, l₂, h3.1⟩

theorem prevPath_rotate {p : PyDict (Option String)} {x t : String} {M : List String}
    (hp : Sv.prevPath p (x :: M ++ [x])) (ht : t ∈ x :: M) :
    ∃ N, Sv.prevPath p (t :: N ++ [t]) := by
  rcases List.append_of_mem ht with ⟨A, B, hAB⟩
  cases A with
  | nil =>
    have hx : x = t := by injection hAB
    subst hx
    exact ⟨M, hp⟩
  | cons a0 A' =>
    have hAB' : x :: M = a0 :: (A' ++ t :: B) := hAB
    have hx : x = a0 := by injection hAB'
    have hM : M = A' ++ t :: B := by injection hAB'
    subst hx
    rw [hM] at hp
    have hform : (x :: (A' ++ t :: B)) ++ [x] = (x :: A') ++ t :: (B ++ [x]) := by
      simp
    rw [hform] at hp
    have h1 := (prevPath_split p t (B ++ [x]) (x :: A')).mp hp
    refine ⟨B ++ x :: A', ?_⟩
    have hglue := (prevPath_split p x (A' ++ [t]) (t :: B)).mpr
      ⟨h1.2, h1.1⟩
    have hform2 : (t :: B) ++ x :: (A' ++ [t]) = t :: (B ++ x :: A') ++ [t] := by
      simp
    rwa [hform2] at hglue

theorem prevPath_min {p : PyDict (Option String)} {t : String} :
    ∀ (n : ℕ) (N : List String), N.length ≤ n → Sv.prevPath p (t :: N ++ [t]) →
      ∃ N', Sv.prevPath p (t :: N' ++ [t]) ∧ t ∉ N' := by
  intro n
  induction n with
  | zero =>
    intro N hlen hp
    have : N = [] := List.length_eq_zero.mp (Nat.le_zero.mp hlen)
    subst this
    exact ⟨[], hp, by simp⟩
  | succ n ih =>
    intro N hlen hp
    by_cases ht : t ∈ N
    · rcases List.append_of_mem ht with ⟨N₁, N₂, rfl⟩
      have hform : t :: (N₁ ++ t :: N₂) ++ [t] = (t :: N₁) ++ t :: (N₂ ++ [t]) := by
        simp
      rw [hform] at hp
      have h1 := (prevPath_split p t (N₂ ++ [t]) (t :: N₁)).mp hp
      have h2 : Sv.prevPath p (t :: N₂ ++ [t]) := h1.2
      apply ih N₂ ?_ h2
      simp only [List.length_append, List.length_cons] at hlen
      omega
    · exact ⟨N, hp, ht⟩

/-- The core preservation step: performing one strict relaxation update keeps
the Bellman-Ford predecessor invariant. -/
theorem BFInv_update {g : Sv.Graph} {start : String} {d : PyDict (Option ℚ)}
    {p : PyDict (Option String)} {s t : String} {w ds v : ℚ}
    (hinv : Sv.BFInv g start d p) (hew : Sv.edgeW g s t = some w)
    (hds : (dget d s).join = some ds) (hv : ds + w ≤ v)
    (himp : (dget d t).join = none ∨ ∃ dt, (dget d t).join = some dt ∧ v < dt) :
    Sv.BFInv g start (dset d t (some v)) (dset p t (some s)) := by
  rcases hinv with ⟨hok, hstart, hdisj⟩
  refine ⟨?_, ?_, ?_⟩
  · -- PrevOk
    intro n q hq
    by_cases hn : n = t
    · subst hn
      rw [dget_dset_self] at hq
      have hqs : q = s := by
        have h' : (some s : Option String) = some q := hq
        injection h' with h''
        exact h''.symm
      subst hqs
      by_cases hst : q = n
      · subst hst
        refine ⟨v, v, w, ?_, ?_, hew, ?_⟩
        · rw [dget_dset_self]
          rfl
        · rw [dget_dset_self]
          rfl
        · rcases himp with h | ⟨dt, hdt, hlt⟩
          · rw [hds] at h
            cases h
          · rw [hds] at hdt
            have : ds = dt := by injection hdt
            subst this
            linarith
      · refine ⟨v, ds, w, ?_, ?_, hew, hv⟩
        · rw [dget_dset_self]
          rfl
        · rw [dget_dset_ne _ _ _ _ hst]
          exact hds
    · rw [dget_dset_ne _ _ _ _ hn] at hq
      rcases hok n q hq with ⟨dn, dq, w', hdn, hdq, hew', hle'⟩
      by_cases hq' : q = t
      · subst hq'
        rcases himp with h | ⟨dt, hdt, hlt⟩
        · rw [hdq] at h
          cases h
        · rw [hdq] at hdt
          have hdd : dq = dt := by injection hdt
          subst hdd
          refine ⟨dn, v, w', ?_, ?_, hew', by linarith⟩
          · rw [dget_dset_ne _ _ _ _ hn]
            exact hdn
          · rw [dget_dset_self]
            rfl
      · refine ⟨dn, dq, w', ?_, ?_, hew', hle'⟩
        · rw [dget_dset_ne _ _ _ _ hn]
          exact hdn
        · rw [dget_dset_ne _ _ _ _ hq']
          exact hdq
  · -- PrevNoneStart
    intro n hfin hnone
    by_cases hn : n = t
    · subst hn
      rw [dget_dset_self] at hnone
      have h' : (some s : Option String) = none := hnone
      cases h'
    · rw [dget_dset_ne _ _ _ _ hn] at hfin hnone
      exact hstart n hfin hnone
  · -- BadFin or acyclic
    rcases hdisj with hbad | hacy
    · left
      rcases hbad with ⟨c, v, h2, hh, hl, hc, hcw, hfin⟩
      refine ⟨c, v, h2, hh, hl, hc, hcw, ?_⟩
      by_cases hv : v = t
      · subst hv
        rw [dget_dset_self]
        rfl
      · rw [dget_dset_ne _ _ _ _ hv]
        exact hfin
    · by_cases hst : s = t
      · -- negative self loop
        subst hst
        left
        have hwneg : w < 0 := by
          rcases himp with h | ⟨dt, hdt, hlt⟩
          · rw [hds] at h
            cases h
          · rw [hds] at hdt
            have : ds = dt := by injection hdt
            subst this
            linarith
        refine ⟨[s, s], s, by simp, rfl, rfl,
          ⟨Option.isSome_iff_exists.mpr ⟨w, hew⟩, trivial⟩, ?_, ?_⟩
        · show (Sv.edgeW g s s).getD 0 + Sv.chainW g [s] < 0
          rw [hew]
          show w + Sv.chainW g [s] < 0
          have h0 : Sv.chainW g [s] = 0 := rfl
          rw [h0]
          linarith
        · rw [dget_dset_self]
          rfl
      · by_cases hacy' : Sv.PrevAcyclic (dset p t (some s))
        · exact Or.inr hacy'
        · left
          rw [Sv.PrevAcyclic] at hacy'
          push_neg at hacy'
          rcases hacy' with ⟨l, hpl, hnd⟩
          rcases prevPath_closed_of_not_nodup hpl hnd with ⟨x, M, hclosed⟩
          by_cases ht : t ∈ x :: M
          · -- the cycle uses the fresh pointer t ↦ s
            rcases prevPath_rotate hclosed ht with ⟨N, hrot⟩
            rcases prevPath_min N.length N le_rfl hrot with ⟨N', hmin, htN⟩
            -- the successor of t is s
            rcases hN' : N' with _ | ⟨n0, N''⟩
            · exfalso
              rw [hN'] at hmin
              have hstep : (dget (dset p t (some s)) t).join = some t ∧
                  Sv.prevPath (dset p t (some s)) [t] := hmin
              rw [dget_dset_self] at hstep
              have h'' : (some s : Option String) = some t := hstep.1
              have h3 : s = t := by injection h''
              exact hst h3
            · rw [hN'] at hmin htN
              have hstep : (dget (dset p t (some s)) t).join = some n0 ∧
                  Sv.prevPath (dset p t (some s)) (n0 :: N'' ++ [t]) := hmin
              rw [dget_dset_self] at hstep
              have hn0 : n0 = s := by
                have h'' : (some s : Option String) = some n0 := hstep.1
                injection h'' with h3
                exact h3.symm
              subst hn0
              -- transfer the s → t predecessor path to the old prev dict
              have hsrc : ∀ a ∈ (n0 :: N'' ++ [t]).dropLast, a ≠ t := by
                intro a ha
                have hdl : (n0 :: N'' ++ [t]).dropLast = n0 :: N'' := by
                  rw [show (n0 :: N'' ++ [t]) = (n0 :: N'') ++ [t] from rfl]
                  exact List.dropLast_concat
                rw [hdl] at ha
                intro hat
                subst hat
                exact htN ha
              have hold : Sv.prevPath p (n0 :: N'' ++ [t]) :=
                (prevPath_dset_ne _ hsrc).mp hstep.2
              -- telescope along the old path from s to t
              have hlast : (n0 :: N'' ++ [t]).getLast? = some t := by
                rw [show (n0 :: N'' ++ [t]) = (n0 :: N'') ++ [t] from rfl,
                  getLast?_append_cons]
                rfl
              rcases prevPath_telescope hok (n0 :: N'' ++ [t]) n0 t hold rfl hlast
                  (by simp) with ⟨hchain, da, db, hda, hdb, hsum⟩
              have hdas : da = ds := by
                rw [hds] at hda
                injection hda with h'
                exact h'.symm
              subst hdas
              -- the old distance of t is finite, so the strict branch applies
              rcases himp with h | ⟨dt, hdt, hlt⟩
              · rw [hdb] at h
                cases h
              · rw [hdb] at hdt
                have hdd : db = dt := by injection hdt
                subst hdd
                -- build the negative closed chain t → … → s → t
                have hrevform : (n0 :: N'' ++ [t]).reverse =
                    (N'' ++ [t]).reverse ++ [n0] := by
                  simp
                rw [hrevform] at hchain hsum
                have hspl := chain_split g n0 [t] ((N'' ++ [t]).reverse)
                have hc2 : Sv.okChain g [n0, t] :=
                  ⟨Option.isSome_iff_exists.mpr ⟨w, hew⟩, trivial⟩
                have hCok : Sv.okChain g ((N'' ++ [t]).reverse ++ n0 :: [t]) :=
                  hspl.1.mpr ⟨hchain, hc2⟩
                have hw2 : Sv.chainW g [n0, t] = w := by
                  show (Sv.edgeW g n0 t).getD 0 + Sv.chainW g [t] = w
                  rw [hew]
                  show w + Sv.chainW g [t] = w
                  have h0 : Sv.chainW g [t] = 0 := rfl
                  rw [h0, add_zero]
                have hCw : Sv.chainW g ((N'' ++ [t]).reverse ++ n0 :: [t]) < 0 := by
                  rw [hspl.2, hw2]
                  linarith
                have hrevt : (N'' ++ [t]).reverse = t :: N''.reverse := by
                  simp
                refine ⟨(N'' ++ [t]).reverse ++ n0 :: [t], t, ?_, ?_, ?_, hCok, hCw, ?_⟩
                · rw [hrevt]
                  simp
                · rw [hrevt]
                  rfl
                · rw [hrevt, show (t :: N''.reverse) ++ n0 :: [t] =
                    (t :: N''.reverse ++ [n0]) ++ [t] from by simp, getLast?_append_cons]
                  rfl
                · rw [dget_dset_self]
                  rfl
          · -- the cycle avoids t entirely: it already existed, contradiction
            exfalso
            have hsrc : ∀ a ∈ (x :: M ++ [x]).dropLast, a ≠ t := by
              intro a ha
              have hdl : (x :: M ++ [x]).dropLast = x :: M := by
                rw [show (x :: M ++ [x]) = (x :: M) ++ [x] from rfl]
                exact List.dropLast_concat
              rw [hdl] at ha
              intro hat
              subst hat
              exact ht ha
            have hold : Sv.prevPath p (x :: M ++ [x]) :=
              (prevPath_dset_ne _ hsrc).mp hclosed
            have hnodup : (x :: (M ++ [x])).Nodup := hacy _ hold
            rw [List.nodup_cons] at hnodup
            exact hnodup.1 (by simp)

theorem bfRelax_BFInv {g : Sv.Graph} {start : String} (hwf : g.WF)
    {st : PyDict (Option ℚ) × PyDict (Option String) × Bool}
    {e : String × String × ℚ} (he : e ∈ Sv.edgesList g)
    (hinv : Sv.BFInv g start st.1 st.2.1) :
    Sv.BFInv g start (Sv.bfRelax st e).1 (Sv.bfRelax st e).2.1 := by
  rcases st with ⟨d, p, u⟩
  have hew : Sv.edgeW g e.1 e.2.1 = some e.2.2 := by
    rcases e with ⟨a, b, w⟩
    exact (mem_edgesList_iff hwf a b w).mp he
  unfold Sv.bfRelax
  dsimp only
  rcases h1 : (dget d e.1).join with _ | ds
  · exact hinv
  · rcases h2 : (dget d e.2.1).join with _ | dt
    · exact BFInv_update hinv hew h1 (le_refl _) (Or.inl h2)
    · dsimp only
      by_cases hlt : ds + e.2.2 < dt
      · rw [if_pos hlt]
        exact BFInv_update hinv hew h1 (le_refl _) (Or.inr ⟨dt, h2, hlt⟩)
      · rw [if_neg hlt]
        exact hinv

theorem foldl_bfRelax_BFInv {g : Sv.Graph} {start : String} (hwf : g.WF) :
    ∀ (l : List (String × String × ℚ)), (∀ e ∈ l, e ∈ Sv.edgesList g) →
      ∀ st, Sv.BFInv g start st.1 st.2.1 →
      Sv.BFInv g start (l.foldl Sv.bfRelax st).1 (l.foldl Sv.bfRelax st).2.1 := by
  intro l
  induction l with
  | nil => intro _ st h; exact h
  | cons e t ih =>
    intro hsub st h
    rw [List.foldl_cons]
    exact ih (fun e' he' => hsub e' (List.mem_cons_of_mem e he'))
      (Sv.bfRelax st e) (bfRelax_BFInv hwf (hsub e (List.mem_cons_self e t)) h)

theorem bfPass_BFInv {g : Sv.Graph} {start : String} (hwf : g.WF)
    {d : PyDict (Option ℚ)} {p : PyDict (Option String)} {u : Bool}
    (h : Sv.BFInv g start d p) :
    Sv.BFInv g start (Sv.bfPass g (d, p, u)).1 (Sv.bfPass g (d, p, u)).2.1 := by
  rw [bfPass_eq]
  exact foldl_bfRelax_BFInv hwf _ (fun e he => he) (d, p, u) h

theorem dget_dset_isSome {α : Type} {d : PyDict α} {n : String} (k : String) (v : α)
    (h : (dget d n).isSome) : (dget (dset d k v) n).isSome := by
  by_cases hk : n = k
  · subst hk
    rw [dget_dset_self]
    rfl
  · rw [dget_dset_ne _ _ _ _ hk]
    exact h

theorem probeRelax_isSome {d : PyDict (Option ℚ)} {e : String × String × ℚ}
    {n : String} (h : (dget d n).isSome) :
    (dget (Sv.probeRelax d e) n).isSome := by
  unfold Sv.probeRelax
  rcases h1 : (dget d e.1).join with _ | ds
  · exact h
  · rcases h2 : (dget d e.2.1).join with _ | dt
    · exact dget_dset_isSome _ _ h
    · dsimp only
      by_cases hlt : ds + e.2.2 < dt
      · rw [if_pos hlt]
        exact dget_dset_isSome _ _ h
      · rw [if_neg hlt]
        exact h

theorem probePass_isSome {g : Sv.Graph} {d : PyDict (Option ℚ)} {n : String}
    (h : (dget d n).isSome) : (dget (Sv.probePass g d) n).isSome := by
  rw [Sv.probePass]
  generalize Sv.edgesList g = l
  induction l generalizing d with
  | nil => exact h
  | cons e t ih =>
    rw [List.foldl_cons]
    exact ih (probeRelax_isSome h)

theorem bfLoop_ok_inv {g : Sv.Graph} {tmo : Option TimeoutSpec} (hwf : g.WF)
    {start : String} :
    ∀ (k tick : ℕ) (d : PyDict (Option ℚ)) (p : PyDict (Option String))
      (d' : PyDict (Option ℚ)) (p' : PyDict (Option String)),
      Sv.bfLoop g tmo k tick (d, p) = .ok (d', p') →
      Sv.distWalks g start d → Sv.BFInv g start d p →
      Sv.distWalks g start d' ∧ Sv.BFInv g start d' p' ∧
        (∀ n, (dget d n).isSome → (dget d' n).isSome) ∧
        ∀ n, Sv.oLe ((dget d' n).join) ((dget d n).join) := by
  intro k
  induction k with
  | zero =>
    intro tick d p d' p' h hw hinv
    have h' : d = d' ∧ p = p' := by
      simp only [Sv.bfLoop] at h
      injection h with h1
      injection h1 with h2 h3
      exact ⟨h2, h3⟩
    rcases h' with ⟨rfl, rfl⟩
    exact ⟨hw, hinv, fun n hn => hn, fun n => oLe_refl _⟩
  | succ k ih =>
    intro tick d p d' p' h hw hinv
    simp only [Sv.bfLoop] at h
    rcases htmo : (match tmo with | none => false | some ts => ts.fires tick) with _ | _
    · rw [htmo] at h
      rw [if_neg (by simp)] at h
      rcases hq : Sv.bfPass g (d, p, false) with ⟨d2, p2, upd⟩
      rw [hq] at h
      dsimp only at h
      have hw2 : Sv.distWalks g start d2 := by
        have := bfPass_fst g (d, p, false)
        rw [hq] at this
        have h2 : d2 = Sv.probePass g d := this
        rw [h2]
        exact probePass_walks hwf hw
      have hinv2 : Sv.BFInv g start d2 p2 := by
        have := @bfPass_BFInv g start hwf d p false hinv
        rwa [hq] at this
      have hkeys2 : ∀ n, (dget d n).isSome → (dget d2 n).isSome := by
        intro n hn
        have := bfPass_fst g (d, p, false)
        rw [hq] at this
        have h2 : d2 = Sv.probePass g d := this
        rw [h2]
        exact probePass_isSome hn
      have hle2 : ∀ n, Sv.oLe ((dget d2 n).join) ((dget d n).join) := by
        intro n
        have := bfPass_fst g (d, p, false)
        rw [hq] at this
        have h2 : d2 = Sv.probePass g d := this
        rw [h2]
        exact probePass_decrease g d n
      rcases upd with _ | _
      · have h' : d2 = d' ∧ p2 = p' := by
          injection h with h1
          injection h1 with h2 h3
          exact ⟨h2, h3⟩
        rcases h' with ⟨rfl, rfl⟩
        exact ⟨hw2, hinv2, hkeys2, hle2⟩
      · rcases ih (tick + 1) d2 p2 d' p' h hw2 hinv2 with ⟨hw', hinv', hkeys', hle'⟩
        exact ⟨hw', hinv', fun n hn => hkeys' n (hkeys2 n hn),
          fun n => oLe_trans (hle' n) (hle2 n)⟩
    · rw [htmo] at h
      rw [if_pos rfl] at h
      cases h

/-! ### Fixpoint consequences and path reconstruction -/

theorem BadFin_fix_false {g : Sv.Graph} {d : PyDict (Option ℚ)}
    (hfix : Sv.distFix g d) (hbad : Sv.BadFin g d) : False := by
  rcases hbad with ⟨c, v, h2, hh, hl, hc, hcw, hfin⟩
  rcases Option.isSome_iff_exists.mp hfin with ⟨dv, hdv⟩
  rcases fix_chain_bound hfix c v v hc hh hl dv hdv with ⟨dv', hdv', hle⟩
  rw [hdv] at hdv'
  have : dv = dv' := by injection hdv'
  subst this
  linarith

theorem prevTight_of_fix {g : Sv.Graph} {d : PyDict (Option ℚ)}
    {p : PyDict (Option String)} (hok : Sv.PrevOk g d p) (hfix : Sv.distFix g d) :
    ∀ n q, (dget p n).join = some q →
      ∃ dn dq w, (dget d n).join = some dn ∧ (dget d q).join = some dq ∧
        Sv.edgeW g q n = some w ∧ dn = dq + w := by
  intro n q hq
  rcases hok n q hq with ⟨dn, dq, w, hdn, hdq, hew, hle⟩
  have hmem : (q, n, w) ∈ Sv.edgesList g := edgesList_of_edgeW hew
  rcases hfix (q, n, w) hmem dq hdq with ⟨dn', hdn', hle'⟩
  rw [hdn] at hdn'
  have : dn = dn' := by injection hdn'
  subst this
  exact ⟨dn, dq, w, hdn, hdq, hew, le_antisymm (by linarith) hle⟩

theorem prevPath_telescope_eq {g : Sv.Graph} {d : PyDict (Option ℚ)}
    {p : PyDict (Option String)}
    (htight : ∀ n q, (dget p n).join = some q →
      ∃ dn dq w, (dget d n).join = some dn ∧ (dget d q).join = some dq ∧
        Sv.edgeW g q n = some w ∧ dn = dq + w) :
    ∀ (l : List String) (a b : String), Sv.prevPath p l → l.head? = some a →
      l.getLast? = some b → 2 ≤ l.length →
      Sv.okChain g l.reverse ∧ ∃ da db, (dget d a).join = some da ∧
        (dget d b).join = some db ∧ Sv.chainW g l.reverse = da - db := by
  intro l
  induction l with
  | nil => intro a b _ _ _ hlen; simp at hlen
  | cons a0 l ih =>
    intro a b hp hh hl hlen
    have ha : a0 = a := by injection hh
    subst ha
    cases l with
    | nil => simp at hlen
    | cons c l' =>
      have hp' : (dget p a0).join = some c ∧ Sv.prevPath p (c :: l') := hp
      rcases htight a0 c hp'.1 with ⟨dn, dp', w, hdn, hdp, hew, heq⟩
      cases l' with
      | nil =>
        have hb : c = b := by simpa using hl
        subst hb
        refine ⟨⟨Option.isSome_iff_exists.mpr ⟨w, hew⟩, trivial⟩, dn, dp', hdn, hdp, ?_⟩
        show (Sv.edgeW g c a0).getD 0 + Sv.chainW g [a0] = dn - dp'
        rw [hew]
        show w + Sv.chainW g [a0] = dn - dp'
        have h0 : Sv.chainW g [a0] = 0 := rfl
        rw [h0]
        linarith
      | cons e l'' =>
        have hl' : (c :: e :: l'').getLast? = some b := by
          rw [List.getLast?_cons_cons] at hl
          exact hl
        rcases ih c b hp'.2 rfl hl' (by simp) with ⟨hchain, dc, db, hdc, hdb, hsum⟩
        have hdceq : dc = dp' := by
          rw [hdp] at hdc
          injection hdc with h'
          exact h'.symm
        subst hdceq
        have hrev : (c :: e :: l'').reverse = (e :: l'').reverse ++ [c] := by
          simp
        have hrev2 : (a0 :: c :: e :: l'').reverse =
            (e :: l'').reverse ++ c :: [a0] := by
          simp
        rw [hrev] at hchain hsum
        rw [hrev2]
        have hspl := chain_split g c [a0] ((e :: l'').reverse)
        have hc2 : Sv.okChain g [c, a0] := ⟨Option.isSome_iff_exists.mpr ⟨w, hew⟩, trivial⟩
        refine ⟨hspl.1.mpr ⟨hchain, hc2⟩, dn, db, hdn, hdb, ?_⟩
        rw [hspl.2]
        have hw2 : Sv.chainW g [c, a0] = w := by
          show (Sv.edgeW g c a0).getD 0 + Sv.chainW g [a0] = w
          rw [hew]
          show w + Sv.chainW g [a0] = w
          have h0 : Sv.chainW g [a0] = 0 := rfl
          rw [h0, add_zero]
        rw [hw2]
        linarith

theorem walkPrev_none_path {prev : PyDict (Option String)} :
    ∀ (fuel : ℕ) (n : String), Sv.walkPrev prev n fuel = none →
      ∃ l, Sv.prevPath prev (n :: l) ∧ (n :: l).length = fuel + 1 := by
  intro fuel
  induction fuel with
  | zero =>
    intro n _
    exact ⟨[], trivial, rfl⟩
  | succ f ih =>
    intro n h
    rw [Sv.walkPrev] at h
    rcases h1 : (dget prev n).join with _ | q
    · rw [h1] at h
      cases h
    · rw [h1] at h
      dsimp only at h
      have h2 : Sv.walkPrev prev q f = none := by
        rcases h3 : Sv.walkPrev prev q f with _ | l
        · rfl
        · rw [h3] at h
          cases h
      rcases ih q h2 with ⟨l, hp, hlen⟩
      refine ⟨q :: l, ⟨h1, hp⟩, ?_⟩
      simp only [List.length_cons] at hlen ⊢
      omega

theorem prevPath_sources {prev : PyDict (Option String)} :
    ∀ l, Sv.prevPath prev l → ∀ a ∈ l.dropLast, ∃ b, (dget prev a).join = some b := by
  intro l
  induction l with
  | nil => intro _ a ha; simp at ha
  | cons a0 l ih =>
    intro hp a ha
    cases l with
    | nil => simp at ha
    | cons c l' =>
      have hp' : (dget prev a0).join = some c ∧ Sv.prevPath prev (c :: l') := hp
      have hdl : (a0 :: c :: l').dropLast = a0 :: (c :: l').dropLast := rfl
      rw [hdl] at ha
      rcases List.mem_cons.mp ha with h1 | h1
      · exact ⟨c, h1 ▸ hp'.1⟩
      · exact ih hp'.2 a h1

theorem walkPrev_total {prev : PyDict (Option String)}
    (hacy : Sv.PrevAcyclic prev) (n : String) :
    ∃ l, Sv.walkPrev prev n (prev.length + 1) = some l := by
  rcases h : Sv.walkPrev prev n (prev.length + 1) with _ | l
  · exfalso
    rcases walkPrev_none_path (prev.length + 1) n h with ⟨l, hp, hlen⟩
    have hsub : ∀ a ∈ (n :: l).dropLast, a ∈ dkeys prev := by
      intro a ha
      rcases prevPath_sources (n :: l) hp a ha with ⟨b, hb⟩
      rw [mem_dkeys_iff_dget]
      rcases h2 : dget prev a with _ | v
      · rw [h2] at hb
        cases hb
      · rfl
    have hklen : (dkeys prev).length = prev.length := List.length_map _ _
    have hdllen : (n :: l).dropLast.length = prev.length + 1 := by
      rw [List.length_dropLast]
      omega
    have hnd : ¬(n :: l).dropLast.Nodup :=
      long_list_not_nodup hsub (by omega)
    have hnodup : (n :: l).Nodup := hacy _ hp
    exact hnd (hnodup.sublist (List.dropLast_sublist _))
  · exact ⟨l, rfl⟩

theorem walkPrev_spec {prev : PyDict (Option String)} :
    ∀ (fuel : ℕ) (n : String) (l : List String),
      Sv.walkPrev prev n fuel = some l →
      l.head? = some n ∧ Sv.prevPath prev l ∧
        ∃ z, l.getLast? = some z ∧ (dget prev z).join = none := by
  intro fuel
  induction fuel with
  | zero =>
    intro n l h
    cases h
  | succ f ih =>
    intro n l h
    rw [Sv.walkPrev] at h
    rcases h1 : (dget prev n).join with _ | q
    · rw [h1] at h
      dsimp only at h
      have hl : l = [n] := by
        injection h with h'
        exact h'.symm
      subst hl
      exact ⟨rfl, trivial, n, rfl, h1⟩
    · rw [h1] at h
      dsimp only at h
      rcases h3 : Sv.walkPrev prev q f with _ | l'
      · rw [h3] at h
        cases h
      · rw [h3] at h
        have hl : l = n :: l' := by
          have h4 : some (n :: l') = some l := h
          injection h4 with h'
          exact h'.symm
        subst hl
        rcases ih q l' h3 with ⟨hh', hp', z, hz, hznone⟩
        rcases l' with _ | ⟨q', l''⟩
        · cases hh'
        · have hq : q' = q := by injection hh'
          subst hq
          refine ⟨rfl, ⟨h1, hp'⟩, z, ?_, hznone⟩
          rw [List.getLast?_cons_cons]
          exact hz

theorem dget_map_none_join2 {α : Type} (l : List String) (v : String) :
    (dget (l.map fun n => (n, (none : Option α))) v).join = none := by
  induction l with
  | nil => rfl
  | cons a t ih =>
    show (if a = v then some (none : Option α) else dget _ v).join = none
    by_cases h : a = v
    · rw [if_pos h]
      rfl
    · rw [if_neg h]
      exact ih

theorem dget_map_mem {α : Type} (x : α) {l : List String} {v : String}
    (hv : v ∈ l) : (dget (l.map fun n => (n, x)) v).isSome := by
  induction l with
  | nil => simp at hv
  | cons a t ih =>
    show (if a = v then some x else dget _ v).isSome
    by_cases h : a = v
    · rw [if_pos h]
      rfl
    · rw [if_neg h]
      exact ih (by rcases List.mem_cons.mp hv with h1 | h1
                   · exact absurd h1.symm h
                   · exact h1)

theorem PrevAcyclic_none (p : PyDict (Option String))
    (hnone : ∀ n, (dget p n).join = none) : Sv.PrevAcyclic p := by
  intro l hp
  rcases l with _ | ⟨a, l⟩
  · exact List.nodup_nil
  · rcases l with _ | ⟨b, l'⟩
    · simp
    · have hp' : (dget p a).join = some b ∧ Sv.prevPath p (b :: l') := hp
      rw [hnone a] at hp'
      cases hp'.1

theorem BFInv_init (g : Sv.Graph) (start : String) :
    Sv.BFInv g start (Sv.probeInit g start)
      ((Sv.nodesList g).map fun n => (n, (none : Option String))) := by
  refine ⟨?_, ?_, Or.inr (PrevAcyclic_none _ fun n => dget_map_none_join2 _ n)⟩
  · intro n q hq
    rw [dget_map_none_join2] at hq
    cases hq
  · intro n hfin _
    rw [probeInit_join] at hfin
    by_cases h : n = start
    · exact h
    · rw [if_neg h] at hfin
      cases hfin

/-- What a normal Bellman-Ford return means: the returned path is a chain
from start to goal whose weight is exactly the returned cost, and the cost
lower-bounds the weight of every chain from start to goal. -/
theorem bellmanFord_ok_spec {g : Sv.Graph} (hwf : g.WF) {start goal : String}
    {tmo : Option TimeoutSpec} {path : List String} {c : ℚ}
    (h : Sv.bellmanFordCompute g start goal tmo = .ok (path, c)) :
    path.head? = some start ∧ path.getLast? = some goal ∧ Sv.okChain g path ∧
      Sv.chainW g path = c ∧
      ∀ l, Sv.okChain g l → l.head? = some start → l.getLast? = some goal →
        c ≤ Sv.chainW g l := by
  unfold Sv.bellmanFordCompute at h
  simp only [bind, Except.bind] at h
  rcases hloop : Sv.bfLoop g tmo ((Sv.nodesList g).length - 1) 0
      (dset ((Sv.nodesList g).map fun n => (n, (none : Option ℚ))) start (some 0),
       (Sv.nodesList g).map fun n => (n, (none : Option String))) with e | dp
  · rw [hloop] at h
    cases h
  · rw [hloop] at h
    rcases dp with ⟨dist, prev⟩
    dsimp only at h
    rcases himp : Sv.improvesSome g dist with _ | _
    · -- no remaining improvement: fixpoint
      rw [himp] at h
      rw [if_neg (by simp)] at h
      have hfix := distFix_of_improves_false himp
      rcases bfLoop_ok_inv hwf _ _ _ _ _ _ hloop (probeInit_walks g start)
        (BFInv_init g start) with ⟨hw', hinv', hkeys, hole⟩
      have hole0 : Sv.oLe ((dget dist start).join) (some 0) := by
        have h0 := hole start
        rwa [dget_dset_self] at h0
      rcases oLe_some_right hole0 with ⟨ds0, hds0, hds0le⟩
      have hds00 : ds0 = 0 := by
        rcases walk_chain (hw' start ds0 hds0) with ⟨c0, hc0, hh0, hl0, hwc0⟩
        rcases fix_chain_bound hfix c0 start start hc0 hh0 hl0 ds0 hds0 with
          ⟨dv, hdv, hle⟩
        rw [hds0] at hdv
        have hdd : ds0 = dv := by injection hdv
        subst hdd
        rw [hwc0] at hle
        linarith
      subst hds00
      rcases hgoal : dget dist goal with _ | od
      · rw [hgoal] at h
        cases h
      · rcases od with _ | cval
        · rw [hgoal] at h
          cases h
        · rw [hgoal] at h
          dsimp only at h
          have hgj : (dget dist goal).join = some cval := by
            rw [hgoal]
            rfl
          have hopt : ∀ l, Sv.okChain g l → l.head? = some start →
              l.getLast? = some goal → cval ≤ Sv.chainW g l := by
            intro l hcl hhl hll
            rcases fix_chain_bound hfix l start goal hcl hhl hll 0 hds0 with
              ⟨dv, hdv, hle⟩
            rw [hgj] at hdv
            have hdd : cval = dv := by injection hdv
            subst hdd
            linarith
          have hacy : Sv.PrevAcyclic prev := by
            rcases hinv'.2.2 with hbad | hacy
            · exact (BadFin_fix_false hfix hbad).elim
            · exact hacy
          rcases walkPrev_total hacy goal with ⟨lw, hlw⟩
          have hrec : Sv.reconstruct_path prev goal = some lw.reverse := by
            rw [Sv.reconstruct_path, hlw]
            rfl
          rw [hrec] at h
          simp only [pure, Except.pure] at h
          have hpc : lw.reverse = path ∧ cval = c := by
            injection h with h1
            exact ⟨congrArg Prod.fst h1, congrArg Prod.snd h1⟩
          rcases hpc with ⟨hpath, hc⟩
          subst hc
          rcases walkPrev_spec _ goal lw hlw with ⟨hhlw, hplw, z, hzlast, hznone⟩
          rcases lw with _ | ⟨g0, lw'⟩
          · cases hhlw
          · have hg0 : g0 = goal := by injection hhlw
            subst hg0
            rcases lw' with _ | ⟨w1, lw''⟩
            · -- single node: goal has no predecessor, so goal = start
              have hz2 : z = g0 := by
                have : some g0 = some z := hzlast
                injection this with h'
                exact h'.symm
              subst hz2
              have hgs : z = start :=
                hinv'.2.1 z (by rw [hgj]; rfl) hznone
              have hc0 : cval = 0 := by
                rw [← hgs] at hds0
                rw [hgj] at hds0
                injection hds0
              rw [← hpath]
              refine ⟨by rw [hgs]; rfl, rfl, trivial, ?_, ?_⟩
              · rw [hc0]
                rfl
              · rw [hc0] at hopt ⊢
                exact hopt
            · -- at least one predecessor step
              have htel := prevPath_telescope_eq (prevTight_of_fix hinv'.1 hfix)
                (g0 :: w1 :: lw'') g0 z hplw rfl hzlast (by simp)
              rcases htel with ⟨hchain, da, db, hda, hdb, hsum⟩
              have hda2 : da = cval := by
                rw [hgj] at hda
                injection hda with h'
                exact h'.symm
              subst hda2
              have hzs : z = start :=
                hinv'.2.1 z (by rw [hdb]; rfl) hznone
              have hdb0 : db = 0 := by
                rw [hzs, hds0] at hdb
                injection hdb with h'
                exact h'.symm
              subst hdb0
              rw [← hpath]
              refine ⟨?_, ?_, hchain, ?_, hopt⟩
              · rw [List.head?_reverse, hzlast, hzs]
              · rw [List.getLast?_reverse]
                rfl
              · rw [hsum]
                ring
    · rw [himp] at h
      rw [if_pos rfl] at h
      cases h

/-! ### C6: the trivial self-route -/

theorem dijkstra_self_route (g : Sv.Graph) (start : String) (ts : TimeoutSpec)
    (hts : ts.fires 0 = false) (fuel : ℕ) :
    Sv.dijkstraCompute g start start (some ts) (fuel + 1) = .ok ([start], 0) := by
  have hd : dget [(start, (none : Option String))] start = some none := by
    show (if start = start then some (none : Option String) else dget [] start) =
      some none
    rw [if_pos rfl]
  have hw : Sv.walkPrev [(start, (none : Option String))] start 2 = some [start] := by
    rw [Sv.walkPrev, hd]
    rfl
  have hrec : Sv.reconstruct_path [(start, (none : Option String))] start =
      some [start] := by
    rw [Sv.reconstruct_path]
    show (Sv.walkPrev [(start, none)] start 2).map List.reverse = some [start]
    rw [hw]
    rfl
  rw [Sv.dijkstraCompute]
  simp only [Sv.dijkstraLoop, Sv.popMin, hts, List.contains_nil, Bool.false_eq_true,
    if_false, reduceCtorEq, hrec]
  simp

theorem validate_self_ok (g : Sv.Graph) (x : String)
    (hv : (Sv.validate_graph g).is_valid = true) (hx : Sv.has_node g x = true) :
    Sv.validate_route_request g x x = ⟨true, []⟩ := by
  simp only [Sv.validate_route_request, hv, hx, Bool.not_true, Bool.false_eq_true,
    if_false]

theorem v2_self_reject (g : V2.Graph) (x : String) (b : Bool)
    (hx : (V2.nodesList g).contains x = true) :
    V2.validate_route_request g x x b =
      .error (.validationError ("Start and goal must differ (both='" ++ x ++ "')")) := by
  simp only [V2.validate_route_request, hx, Bool.not_true, Bool.false_eq_true,
    if_false, if_pos rfl]
  simp

/-- C6 counterexample: the v2 validator rejects a self-route outright, and in
the claude-sonnet-4.5 pipeline a self-route at a node on an (unreachable by
the probe, hence validation-passing) negative cycle takes the Bellman-Ford
failure path instead of returning ([x], 0). -/
theorem C6_counterexample :
    (V2.validate_route_request gOneV2 "A" "A" false =
      .error (.validationError "Start and goal must differ (both='A')")) ∧
    (Sv.validate_route_request gUnreach "C" "C").is_valid = true ∧
    ((Sv.route Sv.ServiceState.init ⟨gUnreach, "C", "C", "rid", tmoNever⟩).map
        (fun x => (x.2.status, x.2.path, x.2.cost)) =
      .ok (.NEGATIVE_CYCLE, none, none)) := by
  refine ⟨?_, ?_, ?_⟩ <;> with_unfolding_all decide

/-- C6 (amended): in the claude-sonnet-4.5 stack a self-route at a present
node is never a validation error (when the graph itself validates) and the
Dijkstra algorithm resolves it to ([x], 0); but the v2 validator rejects
start = goal as a validation error, and (per the counterexample) the
claude-sonnet-4.5 Bellman-Ford path can fail on a self-route. -/
theorem C6_trivial_self_route :
    (∀ (g : Sv.Graph) (x : String), (Sv.validate_graph g).is_valid = true →
      Sv.has_node g x = true → Sv.validate_route_request g x x = ⟨true, []⟩) ∧
    (∀ (g : Sv.Graph) (x : String) (ts : TimeoutSpec) (fuel : ℕ), ts.fires 0 = false →
      Sv.dijkstraCompute g x x (some ts) (fuel + 1) = .ok ([x], 0)) ∧
    (∀ (g : V2.Graph) (x : String) (b : Bool), (V2.nodesList g).contains x = true →
      V2.validate_route_request g x x b =
        .error (.validationError ("Start and goal must differ (both='" ++ x ++ "')"))) :=
  ⟨fun g x hv hx => validate_self_ok g x hv hx,
   fun g x ts fuel hts => dijkstra_self_route g x ts hts fuel,
   fun g x b hx => v2_self_reject g x b hx⟩

/-- C6 witness: the three amended statements at the one-edge fixtures. -/
theorem C6_witness :
    Sv.validate_route_request gOne "A" "A" = ⟨true, []⟩ ∧
    Sv.dijkstraCompute gOne "A" "A" (some tmoNever) 1 = .ok (["A"], 0) ∧
    V2.validate_route_request gOneV2 "A" "A" false =
      .error (.validationError "Start and goal must differ (both='A')") :=
  ⟨C6_trivial_self_route.1 gOne "A" (by with_unfolding_all decide)
      (by with_unfolding_all decide),
   C6_trivial_self_route.2.1 gOne "A" tmoNever 0 rfl,
   C6_trivial_self_route.2.2 gOneV2 "A" false (by with_unfolding_all decide)⟩

/-! ### Dijkstra: heap and distance-dict lemmas -/

theorem entryLe_fst_le {a b : ℚ × String} (h : Sv.entryLe a b = true) : a.1 ≤ b.1 := by
  rw [Sv.entryLe] at h
  simp only [Bool.or_eq_true, Bool.and_eq_true, decide_eq_true_eq] at h
  rcases h with h1 | ⟨h1, _⟩
  · exact le_of_lt h1
  · exact le_of_eq h1

theorem entryLe_false_ge {a b : ℚ × String} (h : Sv.entryLe a b = false) : b.1 ≤ a.1 := by
  rw [Sv.entryLe] at h
  simp only [Bool.or_eq_false_iff, Bool.and_eq_false_iff, decide_eq_false_iff_not] at h
  exact le_of_not_lt h.1

theorem popMin_cons_isSome (e : ℚ × String) (t : List (ℚ × String)) :
    (Sv.popMin (e :: t)).isSome := by
  rw [Sv.popMin]
  rcases h : Sv.popMin t with _ | mr
  · rfl
  · rcases mr with ⟨m, r⟩
    dsimp only
    by_cases hle : Sv.entryLe e m = true
    · rw [if_pos hle]
      rfl
    · rw [if_neg hle]
      rfl

theorem popMin_some {h : List (ℚ × String)} :
    ∀ {m : ℚ × String} {r : List (ℚ × String)}, Sv.popMin h = some (m, r) →
    m ∈ h ∧ (∀ x ∈ h, x = m ∨ x ∈ r) ∧ (∀ x ∈ r, x ∈ h) ∧
      r.length + 1 = h.length ∧ ∀ x ∈ h, m.1 ≤ x.1 := by
  induction h with
  | nil => intro m r hp; cases hp
  | cons e t ih =>
    intro m r hp
    rw [Sv.popMin] at hp
    rcases h2 : Sv.popMin t with _ | mr
    · rw [h2] at hp
      have ht : t = [] := by
        rcases t with _ | ⟨e', t'⟩
        · rfl
        · have := popMin_cons_isSome e' t'
          rw [h2] at this
          cases this
      subst ht
      have hp' : some (e, ([] : List (ℚ × String))) = some (m, r) := hp
      have hme : e = m ∧ ([] : List (ℚ × String)) = r := by
        injection hp' with h'
        exact ⟨congrArg Prod.fst h', congrArg Prod.snd h'⟩
      rcases hme with ⟨rfl, hr⟩
      subst hr
      refine ⟨List.mem_singleton_self e, ?_, by simp, rfl, ?_⟩
      · intro x hx
        rcases List.mem_singleton.mp hx with rfl
        exact Or.inl rfl
      · intro x hx
        rcases List.mem_singleton.mp hx with rfl
        exact le_refl _
    · rcases mr with ⟨m', r'⟩
      rw [h2] at hp
      dsimp only at hp
      rcases ih h2 with ⟨hmem, hcover, hsub, hlen, hmin⟩
      by_cases hle : Sv.entryLe e m' = true
      · rw [if_pos hle] at hp
        have hme : e = m ∧ t = r := by
          injection hp with h'
          exact ⟨congrArg Prod.fst h', congrArg Prod.snd h'⟩
        rcases hme with ⟨rfl, rfl⟩
        refine ⟨List.mem_cons_self _ _, ?_, fun x hx => List.mem_cons_of_mem _ hx,
          rfl, ?_⟩
        · intro x hx
          rcases List.mem_cons.mp hx with rfl | hx'
          · exact Or.inl rfl
          · exact Or.inr hx'
        · intro x hx
          rcases List.mem_cons.mp hx with rfl | hx'
          · exact le_refl _
          · exact le_trans (entryLe_fst_le hle) (hmin x hx')
      · rw [if_neg hle] at hp
        have hme : m' = m ∧ e :: r' = r := by
          injection hp with h'
          exact ⟨congrArg Prod.fst h', congrArg Prod.snd h'⟩
        rcases hme with ⟨rfl, hr⟩
        subst hr
        refine ⟨List.mem_cons_of_mem _ hmem, ?_, ?_, ?_, ?_⟩
        · intro x hx
          rcases List.mem_cons.mp hx with rfl | hx'
          · exact Or.inr (List.mem_cons_self _ _)
          · rcases hcover x hx' with h3 | h3
            · exact Or.inl h3
            · exact Or.inr (List.mem_cons_of_mem _ h3)
        · intro x hx
          rcases List.mem_cons.mp hx with rfl | hx'
          · exact List.mem_cons_self _ _
          · exact List.mem_cons_of_mem _ (hsub x hx')
        · simp only [List.length_cons] at hlen ⊢
          omega
        · intro x hx
          rcases List.mem_cons.mp hx with rfl | hx'
          · exact entryLe_false_ge (Bool.not_eq_true _ ▸ hle)
          · exact hmin x hx'

theorem dget_dmapSome (d : PyDict ℚ) (n : String) :
    dget (Sv.dmapSome d) n = (dget d n).map some := by
  induction d with
  | nil => rfl
  | cons kv t ih =>
    show (if kv.1 = n then some (some kv.2) else dget (Sv.dmapSome t) n) =
      ((if kv.1 = n then some kv.2 else dget t n)).map some
    by_cases h : kv.1 = n
    · rw [if_pos h, if_pos h]
      rfl
    · rw [if_neg h, if_neg h]
      exact ih

theorem dget_dmapSome_join (d : PyDict ℚ) (n : String) :
    (dget (Sv.dmapSome d) n).join = dget d n := by
  rw [dget_dmapSome]
  rcases dget d n with _ | v
  · rfl
  · rfl

theorem dmapSome_dset (d : PyDict ℚ) (k : String) (v : ℚ) :
    Sv.dmapSome (dset d k v) = dset (Sv.dmapSome d) k (some v) := by
  induction d with
  | nil => rfl
  | cons kv t ih =>
    show Sv.dmapSome (if kv.1 = k then (k, v) :: t else kv :: dset t k v) =
      (if kv.1 = k then (k, some v) :: Sv.dmapSome t
       else (kv.1, some kv.2) :: dset (Sv.dmapSome t) k (some v))
    by_cases h : kv.1 = k
    · rw [if_pos h, if_pos h]
      rfl
    · rw [if_neg h, if_neg h]
      show (kv.1, some kv.2) :: Sv.dmapSome (dset t k v) = _
      rw [ih]

theorem neighbors_edgeW {g : Sv.Graph} (hwf : g.WF) {node : String}
    {q : String × ℚ} (hq : q ∈ Sv.neighbors g node) :
    Sv.edgeW g node q.1 = some q.2 := by
  rw [Sv.edgeW]
  rcases q with ⟨m, w⟩
  apply nodup_dget_of_mem ?_ hq
  rw [Sv.neighbors]
  rcases hadj : dget g.adj node with _ | nbrs
  · simp [dkeys]
  · exact hwf.2.1 (node, nbrs) (dget_mem hadj)

/-- General relaxation-fold facts (any edge weights). -/
theorem relaxNbrs_base {g : Sv.Graph} {start node : String} {cost : ℚ}
    (hwf : g.WF) :
    ∀ (nbrs : PyDict ℚ) (h : List (ℚ × String)) (d : PyDict ℚ)
      (p : PyDict (Option String)),
      (∀ q ∈ nbrs, Sv.edgeW g node q.1 = some q.2) →
      Sv.BFInv g start (Sv.dmapSome d) p →
      (∃ dn, dget d node = some dn ∧ dn ≤ cost) →
      Sv.heapDist d h →
      Sv.distWalksD g start d →
      Sv.WalkTo g start node cost →
      (∀ e ∈ h, Sv.WalkTo g start e.2 e.1) →
      Sv.BFInv g start
        (Sv.dmapSome (Sv.relaxNbrs cost node nbrs (h, d, p)).2.1)
        (Sv.relaxNbrs cost node nbrs (h, d, p)).2.2 ∧
      Sv.heapDist (Sv.relaxNbrs cost node nbrs (h, d, p)).2.1
        (Sv.relaxNbrs cost node nbrs (h, d, p)).1 ∧
      (∃ dn, dget (Sv.relaxNbrs cost node nbrs (h, d, p)).2.1 node = some dn ∧
        dn ≤ cost) ∧
      (∀ n dv, dget d n = some dv →
        ∃ dv₂, dget (Sv.relaxNbrs cost node nbrs (h, d, p)).2.1 n = some dv₂ ∧
          dv₂ ≤ dv) ∧
      (∃ tl, (Sv.relaxNbrs cost node nbrs (h, d, p)).1 = h ++ tl ∧
        tl.length ≤ nbrs.length) ∧
      Sv.distWalksD g start (Sv.relaxNbrs cost node nbrs (h, d, p)).2.1 ∧
      (∀ e ∈ (Sv.relaxNbrs cost node nbrs (h, d, p)).1,
        Sv.WalkTo g start e.2 e.1) := by
  intro nbrs
  induction nbrs with
  | nil =>
    intro h d p _ hBF hnode hhd hdw _ hhw
    exact ⟨hBF, hhd, hnode, fun n dv hdv => ⟨dv, hdv, le_refl _⟩,
      ⟨[], by show h = h ++ []; simp, by simp⟩, hdw, hhw⟩
  | cons q nbrs ih =>
    intro h d p hedges hBF hnode hhd hdw hcw hhw
    have hq : Sv.edgeW g node q.1 = some q.2 := hedges q (List.mem_cons_self _ _)
    have hstep : Sv.relaxNbrs cost node (q :: nbrs) (h, d, p) =
        Sv.relaxNbrs cost node nbrs
          (let nc := cost + q.2
           let better := match dget d q.1 with
             | none => true
             | some dv => decide (nc < dv)
           if better then (h ++ [(nc, q.1)], dset d q.1 nc, dset p q.1 (some node))
           else (h, d, p)) := rfl
    rcases hnode with ⟨dn, hdn, hdnle⟩
    rcases hbq : dget d q.1 with _ | dv
    · -- no current distance: unconditional update
      have hstep2 : Sv.relaxNbrs cost node (q :: nbrs) (h, d, p) =
          Sv.relaxNbrs cost node nbrs
            (h ++ [(cost + q.2, q.1)], dset d q.1 (cost + q.2),
             dset p q.1 (some node)) := by
        rw [hstep, hbq]
        rfl
      rw [hstep2]
      have hBF2 : Sv.BFInv g start (Sv.dmapSome (dset d q.1 (cost + q.2)))
          (dset p q.1 (some node)) := by
        rw [dmapSome_dset]
        exact BFInv_update hBF hq
          (by rw [dget_dmapSome_join]; exact hdn) (by linarith)
          (Or.inl (by rw [dget_dmapSome_join]; exact hbq))
      have hfrozen : ∀ n dv', dget d n = some dv' →
          ∃ dv₂, dget (dset d q.1 (cost + q.2)) n = some dv₂ ∧ dv₂ ≤ dv' := by
        intro n dv' hdv'
        by_cases hn : n = q.1
        · subst hn
          rw [hbq] at hdv'
          cases hdv'
        · exact ⟨dv', by rw [dget_dset_ne _ _ _ _ hn]; exact hdv', le_refl _⟩
      have hnode2 : ∃ dn', dget (dset d q.1 (cost + q.2)) node = some dn' ∧
          dn' ≤ cost := by
        rcases hfrozen node dn hdn with ⟨dn', hdn', hle'⟩
        exact ⟨dn', hdn', le_trans hle' hdnle⟩
      have hhd2 : Sv.heapDist (dset d q.1 (cost + q.2)) (h ++ [(cost + q.2, q.1)]) := by
        intro e he
        rcases List.mem_append.mp he with he' | he'
        · rcases hhd e he' with ⟨dn', hdn', hle'⟩
          rcases hfrozen e.2 dn' hdn' with ⟨dv₂, hdv₂, hle₂⟩
          exact ⟨dv₂, hdv₂, le_trans hle₂ hle'⟩
        · rcases List.mem_singleton.mp he' with rfl
          exact ⟨cost + q.2, by rw [dget_dset_self], le_refl _⟩
      have hdw2 : Sv.distWalksD g start (dset d q.1 (cost + q.2)) := by
        intro v dv' hdv'
        by_cases hv : v = q.1
        · subst hv
          rw [dget_dset_self] at hdv'
          have hd' : cost + q.2 = dv' := by injection hdv'
          subst hd'
          exact Sv.WalkTo.snoc hcw hq
        · rw [dget_dset_ne _ _ _ _ hv] at hdv'
          exact hdw v dv' hdv'
      have hhw2 : ∀ e ∈ h ++ [(cost + q.2, q.1)], Sv.WalkTo g start e.2 e.1 := by
        intro e he
        rcases List.mem_append.mp he with he' | he'
        · exact hhw e he'
        · rcases List.mem_singleton.mp he' with rfl
          exact Sv.WalkTo.snoc hcw hq
      rcases ih (h ++ [(cost + q.2, q.1)]) (dset d q.1 (cost + q.2))
        (dset p q.1 (some node))
        (fun q' hq' => hedges q' (List.mem_cons_of_mem _ hq'))
        hBF2 hnode2 hhd2 hdw2 hcw hhw2 with
        ⟨rBF, rhd, rnode, rle, ⟨tl, htl, htllen⟩, rdw, rhw⟩
      refine ⟨rBF, rhd, rnode, ?_, ?_, rdw, rhw⟩
      · intro n dv' hdv'
        rcases hfrozen n dv' hdv' with ⟨dv₂, hdv₂, hle₂⟩
        rcases rle n dv₂ hdv₂ with ⟨dv₃, hdv₃, hle₃⟩
        exact ⟨dv₃, hdv₃, le_trans hle₃ hle₂⟩
      · refine ⟨(cost + q.2, q.1) :: tl, ?_, ?_⟩
        · rw [htl]
          simp
        · simp only [List.length_cons, List.length_cons]
          omega
    · -- existing distance dv
      by_cases hlt : cost + q.2 < dv
      · have hstep2 : Sv.relaxNbrs cost node (q :: nbrs) (h, d, p) =
            Sv.relaxNbrs cost node nbrs
              (h ++ [(cost + q.2, q.1)], dset d q.1 (cost + q.2),
               dset p q.1 (some node)) := by
          rw [hstep, hbq]
          dsimp only
          rw [if_pos (by simpa using hlt)]
        rw [hstep2]
        have hBF2 : Sv.BFInv g start (Sv.dmapSome (dset d q.1 (cost + q.2)))
            (dset p q.1 (some node)) := by
          rw [dmapSome_dset]
          exact BFInv_update hBF hq
            (by rw [dget_dmapSome_join]; exact hdn) (by linarith)
            (Or.inr ⟨dv, by rw [dget_dmapSome_join]; exact hbq, hlt⟩)
        have hfrozen : ∀ n dv', dget d n = some dv' →
            ∃ dv₂, dget (dset d q.1 (cost + q.2)) n = some dv₂ ∧ dv₂ ≤ dv' := by
          intro n dv' hdv'
          by_cases hn : n = q.1
          · subst hn
            rw [hbq] at hdv'
            have hd' : dv = dv' := by injection hdv'
            subst hd'
            exact ⟨cost + q.2, by rw [dget_dset_self], le_of_lt hlt⟩
          · exact ⟨dv', by rw [dget_dset_ne _ _ _ _ hn]; exact hdv', le_refl _⟩
        have hnode2 : ∃ dn', dget (dset d q.1 (cost + q.2)) node = some dn' ∧
            dn' ≤ cost := by
          rcases hfrozen node dn hdn with ⟨dn', hdn', hle'⟩
          exact ⟨dn', hdn', le_trans hle' hdnle⟩
        have hhd2 : Sv.heapDist (dset d q.1 (cost + q.2))
            (h ++ [(cost + q.2, q.1)]) := by
          intro e he
          rcases List.mem_append.mp he with he' | he'
          · rcases hhd e he' with ⟨dn', hdn', hle'⟩
            rcases hfrozen e.2 dn' hdn' with ⟨dv₂, hdv₂, hle₂⟩
            exact ⟨dv₂, hdv₂, le_trans hle₂ hle'⟩
          · rcases List.mem_singleton.mp he' with rfl
            exact ⟨cost + q.2, by rw [dget_dset_self], le_refl _⟩
        have hdw2 : Sv.distWalksD g start (dset d q.1 (cost + q.2)) := by
          intro v dv' hdv'
          by_cases hv : v = q.1
          · subst hv
            rw [dget_dset_self] at hdv'
            have hd' : cost + q.2 = dv' := by injection hdv'
            subst hd'
            exact Sv.WalkTo.snoc hcw hq
          · rw [dget_dset_ne _ _ _ _ hv] at hdv'
            exact hdw v dv' hdv'
        have hhw2 : ∀ e ∈ h ++ [(cost + q.2, q.1)], Sv.WalkTo g start e.2 e.1 := by
          intro e he
          rcases List.mem_append.mp he with he' | he'
          · exact hhw e he'
          · rcases List.mem_singleton.mp he' with rfl
            exact Sv.WalkTo.snoc hcw hq
        rcases ih (h ++ [(cost + q.2, q.1)]) (dset d q.1 (cost + q.2))
          (dset p q.1 (some node))
          (fun q' hq' => hedges q' (List.mem_cons_of_mem _ hq'))
          hBF2 hnode2 hhd2 hdw2 hcw hhw2 with
          ⟨rBF, rhd, rnode, rle, ⟨tl, htl, htllen⟩, rdw, rhw⟩
        refine ⟨rBF, rhd, rnode, ?_, ?_, rdw, rhw⟩
        · intro n dv' hdv'
          rcases hfrozen n dv' hdv' with ⟨dv₂, hdv₂, hle₂⟩
          rcases rle n dv₂ hdv₂ with ⟨dv₃, hdv₃, hle₃⟩
          exact ⟨dv₃, hdv₃, le_trans hle₃ hle₂⟩
        · refine ⟨(cost + q.2, q.1) :: tl, ?_, ?_⟩
          · rw [htl]
            simp
          · simp only [List.length_cons, List.length_cons]
            omega
      · have hstep2 : Sv.relaxNbrs cost node (q :: nbrs) (h, d, p) =
            Sv.relaxNbrs cost node nbrs (h, d, p) := by
          rw [hstep, hbq]
          dsimp only
          rw [if_neg (by simpa using hlt)]
        rw [hstep2]
        rcases ih h d p (fun q' hq' => hedges q' (List.mem_cons_of_mem _ hq'))
          hBF ⟨dn, hdn, hdnle⟩ hhd hdw hcw hhw with
          ⟨rBF, rhd, rnode, rle, ⟨tl, htl, htllen⟩, rdw, rhw⟩
        exact ⟨rBF, rhd, rnode, rle, ⟨tl, htl, by simp only [List.length_cons]; omega⟩,
          rdw, rhw⟩

/-- Nonnegative-graph relaxation-fold facts: visited distances are frozen,
heap bookkeeping survives, processed neighbours end up relaxed, and the
start distance stays 0. -/
theorem relaxNbrs_nonneg {g : Sv.Graph} {start node : String} {cost : ℚ}
    (hwf : g.WF)
    (hnonneg : ∀ a b w, Sv.edgeW g a b = some w → 0 ≤ w) (vis : List String) :
    ∀ (nbrs : PyDict ℚ) (h : List (ℚ × String)) (d : PyDict ℚ)
      (p : PyDict (Option String)),
      (∀ q ∈ nbrs, Sv.edgeW g node q.1 = some q.2) →
      Sv.BFInv g start (Sv.dmapSome d) p →
      (∃ dn, dget d node = some dn ∧ dn ≤ cost) →
      Sv.heapDist d h →
      Sv.distWalksD g start d →
      Sv.WalkTo g start node cost →
      (∀ e ∈ h, Sv.WalkTo g start e.2 e.1) →
      (∀ m ∈ vis, ∃ dm, dget d m = some dm ∧ dm ≤ cost) →
      Sv.heapMin d h vis →
      Sv.heapAbove d h vis →
      dget d start = some 0 →
      0 ≤ cost →
      (∀ m ∈ vis, dget (Sv.relaxNbrs cost node nbrs (h, d, p)).2.1 m = dget d m) ∧
      Sv.heapMin (Sv.relaxNbrs cost node nbrs (h, d, p)).2.1
        (Sv.relaxNbrs cost node nbrs (h, d, p)).1 vis ∧
      Sv.heapAbove (Sv.relaxNbrs cost node nbrs (h, d, p)).2.1
        (Sv.relaxNbrs cost node nbrs (h, d, p)).1 vis ∧
      (∀ q ∈ nbrs, ∃ dm,
        dget (Sv.relaxNbrs cost node nbrs (h, d, p)).2.1 q.1 = some dm ∧
          dm ≤ cost + q.2) ∧
      dget (Sv.relaxNbrs cost node nbrs (h, d, p)).2.1 start = some 0 := by
  intro nbrs
  induction nbrs with
  | nil =>
    intro h d p _ _ _ _ _ _ _ _ hhm hha hs0 _
    exact ⟨fun m _ => rfl, hhm, hha, by simp, hs0⟩
  | cons q nbrs ih =>
    intro h d p hedges hBF hnode hhd hdw hcw hhw hvbc hhm hha hs0 hcost0
    have hq : Sv.edgeW g node q.1 = some q.2 := hedges q (List.mem_cons_self _ _)
    have hw0 : 0 ≤ q.2 := hnonneg _ _ _ hq
    have hstep : Sv.relaxNbrs cost node (q :: nbrs) (h, d, p) =
        Sv.relaxNbrs cost node nbrs
          (let nc := cost + q.2
           let better := match dget d q.1 with
             | none => true
             | some dv => decide (nc < dv)
           if better then (h ++ [(nc, q.1)], dset d q.1 nc, dset p q.1 (some node))
           else (h, d, p)) := rfl
    rcases hnode with ⟨dn, hdn, hdnle⟩
    have hupdate : ∀ (hbetter : dget d q.1 = none ∨
        ∃ dv, dget d q.1 = some dv ∧ cost + q.2 < dv),
        Sv.relaxNbrs cost node (q :: nbrs) (h, d, p) =
          Sv.relaxNbrs cost node nbrs
            (h ++ [(cost + q.2, q.1)], dset d q.1 (cost + q.2),
             dset p q.1 (some node)) := by
      intro hbetter
      rw [hstep]
      rcases hbetter with hb | ⟨dv, hb, hlt⟩
      · rw [hb]
        rfl
      · rw [hb]
        dsimp only
        rw [if_pos (by simpa using hlt)]
    rcases hbq : dget d q.1 with _ | dv
    · -- unconditional update; the target cannot be visited or the start
      have hq1vis : q.1 ∉ vis := by
        intro hmem
        rcases hvbc q.1 hmem with ⟨dm, hdm, _⟩
        rw [hbq] at hdm
        cases hdm
      have hq1start : q.1 ≠ start := by
        intro hq1
        rw [hq1, hs0] at hbq
        cases hbq
      rw [hupdate (Or.inl hbq)]
      have hBF2 : Sv.BFInv g start (Sv.dmapSome (dset d q.1 (cost + q.2)))
          (dset p q.1 (some node)) := by
        rw [dmapSome_dset]
        exact BFInv_update hBF hq
          (by rw [dget_dmapSome_join]; exact hdn) (by linarith)
          (Or.inl (by rw [dget_dmapSome_join]; exact hbq))
      have hfrozen : ∀ n, n ≠ q.1 → dget (dset d q.1 (cost + q.2)) n = dget d n :=
        fun n hn => dget_dset_ne _ _ _ _ hn
      have hvbc2 : ∀ m ∈ vis, ∃ dm, dget (dset d q.1 (cost + q.2)) m = some dm ∧
          dm ≤ cost := by
        intro m hm
        rcases hvbc m hm with ⟨dm, hdm, hle⟩
        exact ⟨dm, by rw [hfrozen m (fun hmq => hq1vis (hmq ▸ hm))]; exact hdm, hle⟩
      have hhm2 : Sv.heapMin (dset d q.1 (cost + q.2)) (h ++ [(cost + q.2, q.1)])
          vis := by
        intro n dn' hdn' hnvis
        by_cases hn : n = q.1
        · subst hn
          rw [dget_dset_self] at hdn'
          have : cost + q.2 = dn' := by injection hdn'
          subst this
          simp
        · rw [hfrozen n hn] at hdn'
          exact List.mem_append_left _ (hhm n dn' hdn' hnvis)
      have hha2 : Sv.heapAbove (dset d q.1 (cost + q.2)) (h ++ [(cost + q.2, q.1)])
          vis := by
        intro e he m hm
        rcases hvbc2 m hm with ⟨dm, hdm, hle⟩
        rcases List.mem_append.mp he with he' | he'
        · rcases hha e he' m hm with ⟨dm', hdm', hle'⟩
          refine ⟨dm', ?_, hle'⟩
          rw [hfrozen m (fun hmq => hq1vis (hmq ▸ hm))]
          exact hdm'
        · rcases List.mem_singleton.mp he' with rfl
          refine ⟨dm, hdm, ?_⟩
          show dm ≤ cost + q.2
          linarith
      have hs02 : dget (dset d q.1 (cost + q.2)) start = some 0 := by
        rw [hfrozen start (fun hse => hq1start hse.symm)]
        exact hs0
      have hnode2 : ∃ dn', dget (dset d q.1 (cost + q.2)) node = some dn' ∧
          dn' ≤ cost := by
        by_cases hnq : node = q.1
        · subst hnq
          rw [hdn] at hbq
          cases hbq
        · exact ⟨dn, by rw [hfrozen node hnq]; exact hdn, hdnle⟩
      have hhd2 : Sv.heapDist (dset d q.1 (cost + q.2)) (h ++ [(cost + q.2, q.1)]) := by
        intro e he
        rcases List.mem_append.mp he with he' | he'
        · rcases hhd e he' with ⟨dn', hdn', hle'⟩
          by_cases hn : e.2 = q.1
          · rw [hn, hbq] at hdn'
            cases hdn'
          · exact ⟨dn', by rw [hfrozen e.2 hn]; exact hdn', hle'⟩
        · rcases List.mem_singleton.mp he' with rfl
          exact ⟨cost + q.2, by rw [dget_dset_self], le_refl _⟩
      have hdw2 : Sv.distWalksD g start (dset d q.1 (cost + q.2)) := by
        intro v dv' hdv'
        by_cases hv : v = q.1
        · subst hv
          rw [dget_dset_self] at hdv'
          have : cost + q.2 = dv' := by injection hdv'
          subst this
          exact Sv.WalkTo.snoc hcw hq
        · rw [hfrozen v hv] at hdv'
          exact hdw v dv' hdv'
      have hhw2 : ∀ e ∈ h ++ [(cost + q.2, q.1)], Sv.WalkTo g start e.2 e.1 := by
        intro e he
        rcases List.mem_append.mp he with he' | he'
        · exact hhw e he'
        · rcases List.mem_singleton.mp he' with rfl
          exact Sv.WalkTo.snoc hcw hq
      rcases ih (h ++ [(cost + q.2, q.1)]) (dset d q.1 (cost + q.2))
        (dset p q.1 (some node))
        (fun q' hq' => hedges q' (List.mem_cons_of_mem _ hq'))
        hBF2 hnode2 hhd2 hdw2 hcw hhw2 hvbc2 hhm2 hha2 hs02 hcost0 with
        ⟨rfroz, rhm, rha, rrel, rs0⟩
      have hdist := (relaxNbrs_base hwf nbrs (h ++ [(cost + q.2, q.1)])
        (dset d q.1 (cost + q.2)) (dset p q.1 (some node))
        (fun q' hq' => hedges q' (List.mem_cons_of_mem _ hq'))
        hBF2 hnode2 hhd2 hdw2 hcw hhw2).2.2.2.1
      refine ⟨?_, rhm, rha, ?_, rs0⟩
      · intro m hm
        rw [rfroz m hm]
        exact hfrozen m (fun hmq => hq1vis (hmq ▸ hm))
      · intro q' hq'
        rcases List.mem_cons.mp hq' with rfl | hq''
        · rcases hdist q'.1 (cost + q'.2) (by rw [dget_dset_self]) with
            ⟨dm, hdm, hle⟩
          exact ⟨dm, hdm, hle⟩
        · exact rrel q' hq''
    · by_cases hlt : cost + q.2 < dv
      · -- strict improvement on an existing entry
        have hq1vis : q.1 ∉ vis := by
          intro hmem
          rcases hvbc q.1 hmem with ⟨dm, hdm, hle⟩
          rw [hbq] at hdm
          have : dv = dm := by injection hdm
          subst this
          linarith
        have hq1start : q.1 ≠ start := by
          intro hq1
          rw [hq1, hs0] at hbq
          have : (0 : ℚ) = dv := by injection hbq
          subst this
          linarith
        rw [hupdate (Or.inr ⟨dv, hbq, hlt⟩)]
        have hBF2 : Sv.BFInv g start (Sv.dmapSome (dset d q.1 (cost + q.2)))
            (dset p q.1 (some node)) := by
          rw [dmapSome_dset]
          exact BFInv_update hBF hq
            (by rw [dget_dmapSome_join]; exact hdn) (by linarith)
            (Or.inr ⟨dv, by rw [dget_dmapSome_join]; exact hbq, hlt⟩)
        have hfrozen : ∀ n, n ≠ q.1 → dget (dset d q.1 (cost + q.2)) n = dget d n :=
          fun n hn => dget_dset_ne _ _ _ _ hn
        have hvbc2 : ∀ m ∈ vis, ∃ dm, dget (dset d q.1 (cost + q.2)) m = some dm ∧
            dm ≤ cost := by
          intro m hm
          rcases hvbc m hm with ⟨dm, hdm, hle⟩
          exact ⟨dm, by rw [hfrozen m (fun hmq => hq1vis (hmq ▸ hm))]; exact hdm, hle⟩
        have hhm2 : Sv.heapMin (dset d q.1 (cost + q.2)) (h ++ [(cost + q.2, q.1)])
            vis := by
          intro n dn' hdn' hnvis
          by_cases hn : n = q.1
          · subst hn
            rw [dget_dset_self] at hdn'
            have : cost + q.2 = dn' := by injection hdn'
            subst this
            simp
          · rw [hfrozen n hn] at hdn'
            exact List.mem_append_left _ (hhm n dn' hdn' hnvis)
        have hha2 : Sv.heapAbove (dset d q.1 (cost + q.2)) (h ++ [(cost + q.2, q.1)])
            vis := by
          intro e he m hm
          rcases hvbc2 m hm with ⟨dm, hdm, hle⟩
          rcases List.mem_append.mp he with he' | he'
          · rcases hha e he' m hm with ⟨dm', hdm', hle'⟩
            refine ⟨dm', ?_, hle'⟩
            rw [hfrozen m (fun hmq => hq1vis (hmq ▸ hm))]
            exact hdm'
          · rcases List.mem_singleton.mp he' with rfl
            refine ⟨dm, hdm, ?_⟩
            show dm ≤ cost + q.2
            linarith
        have hs02 : dget (dset d q.1 (cost + q.2)) start = some 0 := by
          rw [hfrozen start (fun hse => hq1start hse.symm)]
          exact hs0
        have hnode2 : ∃ dn', dget (dset d q.1 (cost + q.2)) node = some dn' ∧
            dn' ≤ cost := by
          by_cases hnq : node = q.1
          · subst hnq
            rw [dget_dset_self]
            exact ⟨cost + q.2, rfl, by
              rw [hdn] at hbq
              have : dn = dv := by injection hbq
              subst this
              linarith⟩
          · exact ⟨dn, by rw [hfrozen node hnq]; exact hdn, hdnle⟩
        have hhd2 : Sv.heapDist (dset d q.1 (cost + q.2))
            (h ++ [(cost + q.2, q.1)]) := by
          intro e he
          rcases List.mem_append.mp he with he' | he'
          · rcases hhd e he' with ⟨dn', hdn', hle'⟩
            by_cases hn : e.2 = q.1
            · rw [hn] at hdn'
              rw [hbq] at hdn'
              have : dv = dn' := by injection hdn'
              subst this
              exact ⟨cost + q.2, by rw [hn, dget_dset_self], by linarith⟩
            · exact ⟨dn', by rw [hfrozen e.2 hn]; exact hdn', hle'⟩
          · rcases List.mem_singleton.mp he' with rfl
            exact ⟨cost + q.2, by rw [dget_dset_self], le_refl _⟩
        have hdw2 : Sv.distWalksD g start (dset d q.1 (cost + q.2)) := by
          intro v dv' hdv'
          by_cases hv : v = q.1
          · subst hv
            rw [dget_dset_self] at hdv'
            have : cost + q.2 = dv' := by injection hdv'
            subst this
            exact Sv.WalkTo.snoc hcw hq
          · rw [hfrozen v hv] at hdv'
            exact hdw v dv' hdv'
        have hhw2 : ∀ e ∈ h ++ [(cost + q.2, q.1)], Sv.WalkTo g start e.2 e.1 := by
          intro e he
          rcases List.mem_append.mp he with he' | he'
          · exact hhw e he'
          · rcases List.mem_singleton.mp he' with rfl
            exact Sv.WalkTo.snoc hcw hq
        rcases ih (h ++ [(cost + q.2, q.1)]) (dset d q.1 (cost + q.2))
          (dset p q.1 (some node))
          (fun q' hq' => hedges q' (List.mem_cons_of_mem _ hq'))
          hBF2 hnode2 hhd2 hdw2 hcw hhw2 hvbc2 hhm2 hha2 hs02 hcost0 with
          ⟨rfroz, rhm, rha, rrel, rs0⟩
        have hdist := (relaxNbrs_base hwf nbrs (h ++ [(cost + q.2, q.1)])
          (dset d q.1 (cost + q.2)) (dset p q.1 (some node))
          (fun q' hq' => hedges q' (List.mem_cons_of_mem _ hq'))
          hBF2 hnode2 hhd2 hdw2 hcw hhw2).2.2.2.1
        refine ⟨?_, rhm, rha, ?_, rs0⟩
        · intro m hm
          rw [rfroz m hm]
          exact hfrozen m (fun hmq => hq1vis (hmq ▸ hm))
        · intro q' hq'
          rcases List.mem_cons.mp hq' with rfl | hq''
          · rcases hdist q'.1 (cost + q'.2) (by rw [dget_dset_self]) with
              ⟨dm, hdm, hle⟩
            exact ⟨dm, hdm, hle⟩
          · exact rrel q' hq''
      · -- no improvement: state unchanged and q already relaxed
        have hstep2 : Sv.relaxNbrs cost node (q :: nbrs) (h, d, p) =
            Sv.relaxNbrs cost node nbrs (h, d, p) := by
          rw [hstep, hbq]
          dsimp only
          rw [if_neg (by simpa using hlt)]
        rw [hstep2]
        rcases ih h d p (fun q' hq' => hedges q' (List.mem_cons_of_mem _ hq'))
          hBF ⟨dn, hdn, hdnle⟩ hhd hdw hcw hhw hvbc hhm hha hs0 hcost0 with
          ⟨rfroz, rhm, rha, rrel, rs0⟩
        have hdist := (relaxNbrs_base hwf nbrs h d p
          (fun q' hq' => hedges q' (List.mem_cons_of_mem _ hq'))
          hBF ⟨dn, hdn, hdnle⟩ hhd hdw hcw hhw).2.2.2.1
        refine ⟨rfroz, rhm, rha, ?_, rs0⟩
        intro q' hq'
        rcases List.mem_cons.mp hq' with rfl | hq''
        · rcases hdist q'.1 dv hbq with ⟨dm, hdm, hle⟩
          exact ⟨dm, hdm, by linarith [not_lt.mp hlt]⟩
        · exact rrel q' hq''

/-- The cut argument: along any chain from the start, either every node is
visited, or some unvisited node already carries a distance bounded by the
chain weight. -/
theorem chain_cut {g : Sv.Graph} {start : String} {d : PyDict ℚ} {vis : List String}
    (hnonneg : ∀ a b w, Sv.edgeW g a b = some w → 0 ≤ w)
    (hvo : Sv.visitedOpt g start d vis)
    (hvr : Sv.visitedRelaxed g d vis)
    (hs0 : dget d start = some 0) :
    ∀ (n : ℕ) (l : List String) (v : String), l.length ≤ n → Sv.okChain g l →
      l.head? = some start → l.getLast? = some v →
      (∀ x ∈ l, x ∈ vis) ∨
      (∃ x dx, x ∈ l ∧ x ∉ vis ∧ dget d x = some dx ∧ dx ≤ Sv.chainW g l) := by
  intro n
  induction n with
  | zero =>
    intro l v hlen hc hh hl
    rcases l with _ | _
    · simp at hh
    · simp at hlen
  | succ n ih =>
    intro l v hlen hc hh hl
    by_cases h2 : 2 ≤ l.length
    · rcases chain_snoc hc hl h2 with
        ⟨l', u, w, hsplit, hlastl', hcl', hew, hwsum, hlenl', hheadl'⟩
      have hh' : l'.head? = some start := by rw [hheadl']; exact hh
      rcases ih l' u (by omega) hcl' hh' hlastl' with hall |
          ⟨x, dx, hx, hxv, hdx, hdxle⟩
      · have hu : u ∈ vis := by
          rcases List.mem_getLast?_eq_getLast (show u ∈ l'.getLast? from hlastl') with
            ⟨hne, hu'⟩
          exact hall u (hu' ▸ List.getLast_mem hne)
        rcases hvr u hu v w hew with ⟨du, dv, hdu, hdv, hrel⟩
        by_cases hvvis : v ∈ vis
        · left
          intro x hx
          rw [hsplit] at hx
          rcases List.mem_append.mp hx with h1 | h1
          · exact hall x h1
          · rcases List.mem_singleton.mp h1 with rfl
            exact hvvis
        · right
          refine ⟨v, dv, by rw [hsplit]; simp, hvvis, hdv, ?_⟩
          rcases hvo u hu with ⟨du', hdu', hbound⟩
          rw [hdu] at hdu'
          have : du = du' := by injection hdu'
          subst this
          have hb := hbound l' hcl' hh' hlastl'
          rw [hwsum]
          linarith
      · right
        refine ⟨x, dx, by rw [hsplit]; exact List.mem_append_left _ hx, hxv, hdx, ?_⟩
        rw [hwsum]
        have hw0 : 0 ≤ w := hnonneg _ _ _ hew
        linarith
    · rcases l with _ | ⟨a, t⟩
      · simp at hh
      · rcases t with _ | ⟨b, t'⟩
        · have ha : a = start := by injection hh
          subst ha
          by_cases hv : a ∈ vis
          · left
            intro x hx
            rcases List.mem_singleton.mp hx with rfl
            exact hv
          · right
            exact ⟨a, 0, List.mem_singleton_self _, hv, hs0, le_of_eq rfl⟩
        · exfalso
          apply h2
          simp

/-- On any graph, a normal Dijkstra return produces a chain from start to
goal (endpoints and edges are right, though with negative weights the cost
can disagree with the path weight). -/
theorem dijkstraLoop_ok_base {g : Sv.Graph} (hwf : g.WF) {start goal : String}
    {tmo : Option TimeoutSpec} :
    ∀ (fuel tick : ℕ) (st : Sv.DijState) (path : List String) (c : ℚ),
      Sv.dijkstraLoop g start goal tmo fuel tick st = .ok (path, c) →
      Sv.BFInv g start (Sv.dmapSome st.dist) st.prev →
      Sv.heapDist st.dist st.heap →
      Sv.distWalksD g start st.dist →
      (∀ e ∈ st.heap, Sv.WalkTo g start e.2 e.1) →
      path.head? = some start ∧ path.getLast? = some goal ∧ Sv.okChain g path := by
  intro fuel
  induction fuel with
  | zero => intro tick st path c h _ _ _ _; cases h
  | succ fuel ih =>
    intro tick st path c h hBF hhd hdw hhw
    simp only [Sv.dijkstraLoop] at h
    rcases hpop : Sv.popMin st.heap with _ | mr
    · rw [hpop] at h
      cases h
    · rcases mr with ⟨⟨cost, node⟩, h'⟩
      rw [hpop] at h
      dsimp only at h
      rcases htmo : (match tmo with | none => false | some ts => ts.fires tick)
        with _ | _
      · rw [htmo] at h
        rw [if_neg (by simp)] at h
        rcases popMin_some hpop with ⟨hmem, hcover, hsub, hlen, hmin⟩
        rcases hvisn : st.visited.contains node with _ | _
        · rw [hvisn] at h
          rw [if_neg (by simp)] at h
          by_cases hng : node = goal
          · subst hng
            rw [if_pos rfl] at h
            rcases hrec : Sv.reconstruct_path st.prev node with _ | p0
            · rw [hrec] at h
              cases h
            · rw [hrec] at h
              have hpc : p0 = path ∧ cost = c := by
                injection h with h1
                exact ⟨congrArg Prod.fst h1, congrArg Prod.snd h1⟩
              rcases hpc with ⟨rfl, rfl⟩
              rcases hlw_ex : Sv.walkPrev st.prev node (st.prev.length + 1)
                with _ | lw
              · rw [Sv.reconstruct_path, hlw_ex] at hrec
                cases hrec
              · rw [Sv.reconstruct_path, hlw_ex] at hrec
                have hp0 : lw.reverse = p0 := by
                  have hrec' : some lw.reverse = some p0 := hrec
                  injection hrec'
                rcases hhd (cost, node) hmem with ⟨dg, hdg, _⟩
                rcases walkPrev_spec _ node lw hlw_ex with ⟨hhlw, hplw, z, hzlast, hznone⟩
                rcases lw with _ | ⟨g0, lw'⟩
                · cases hhlw
                · have hg0 : g0 = node := by injection hhlw
                  subst hg0
                  rcases lw' with _ | ⟨w1, lw''⟩
                  · have hz2 : z = g0 := by
                      have h3 : some g0 = some z := hzlast
                      injection h3 with h4
                      exact h4.symm
                    subst hz2
                    have hgs : z = start := by
                      apply hBF.2.1 z ?_ hznone
                      rw [dget_dmapSome_join]
                      rw [hdg]
                      rfl
                    rw [← hp0]
                    exact ⟨by rw [hgs]; rfl, rfl, trivial⟩
                  · have htel := prevPath_telescope hBF.1
                      (g0 :: w1 :: lw'') g0 z hplw rfl hzlast (by simp)
                    rcases htel with ⟨hchain, da, db, hda, hdb, hsum⟩
                    have hzs : z = start := by
                      apply hBF.2.1 z ?_ hznone
                      rw [hdb]
                      rfl
                    rw [← hp0]
                    refine ⟨?_, ?_, hchain⟩
                    · rw [List.head?_reverse, hzlast, hzs]
                    · rw [List.getLast?_reverse]
                      rfl
          · rw [if_neg hng] at h
            rcases hstale :
                (match dget st.dist node with
                 | none => false
                 | some dv => decide (dv < cost)) with _ | _
            · rw [hstale] at h
              rw [if_neg (by simp)] at h
              rcases hrx : Sv.relaxNbrs cost node (Sv.neighbors g node)
                  (h', st.dist, st.prev) with ⟨h2, d2, p2⟩
              rw [hrx] at h
              dsimp only at h
              have hF := relaxNbrs_base hwf (Sv.neighbors g node) h' st.dist st.prev
                (fun q hq => neighbors_edgeW hwf hq) hBF
                (by rcases hhd (cost, node) hmem with ⟨dn, hdn, hle⟩
                    exact ⟨dn, hdn, hle⟩)
                (fun e he => hhd e (hsub e he))
                hdw (hhw (cost, node) hmem)
                (fun e he => hhw e (hsub e he))
              rw [hrx] at hF
              exact ih _ _ _ _ h hF.1 hF.2.1 hF.2.2.2.2.2.1 hF.2.2.2.2.2.2
            · rw [hstale] at h
              rw [if_pos rfl] at h
              exact ih _ _ _ _ h hBF (fun e he => hhd e (hsub e he)) hdw
                (fun e he => hhw e (hsub e he))
        · rw [hvisn] at h
          rw [if_pos rfl] at h
          exact ih _ _ _ _ h hBF (fun e he => hhd e (hsub e he)) hdw
            (fun e he => hhw e (hsub e he))
      · rw [htmo] at h
        rw [if_pos rfl] at h
        cases h

theorem contains_iff_mem {l : List String} {a : String} :
    l.contains a = true ↔ a ∈ l := by
  induction l with
  | nil => simp
  | cons b t ih =>
    rw [List.contains_cons, Bool.or_eq_true, beq_iff_eq, List.mem_cons, ih]

theorem chainW_nonneg {g : Sv.Graph}
    (hnonneg : ∀ a b w, Sv.edgeW g a b = some w → 0 ≤ w) :
    ∀ l, Sv.okChain g l → 0 ≤ Sv.chainW g l := by
  intro l
  induction l with
  | nil => intro _; exact le_of_eq rfl
  | cons a t ih =>
    intro hc
    cases t with
    | nil => exact le_of_eq rfl
    | cons b t' =>
      have hc' : (Sv.edgeW g a b).isSome ∧ Sv.okChain g (b :: t') := hc
      rcases Option.isSome_iff_exists.mp hc'.1 with ⟨w, hw⟩
      have h0 := hnonneg a b w hw
      have h1 := ih hc'.2
      rw [show Sv.chainW g (a :: b :: t') =
        (Sv.edgeW g a b).getD 0 + Sv.chainW g (b :: t') from rfl, hw]
      simp only [Option.getD_some]
      linarith

/-- On a graph with no negative edge weight, a normal Dijkstra return is a
chain from start to goal whose weight equals the returned cost, and the cost
lower-bounds every chain from start to goal. -/
theorem dijkstraLoop_ok_nonneg {g : Sv.Graph} (hwf : g.WF)
    (hnonneg : ∀ a b w, Sv.edgeW g a b = some w → 0 ≤ w)
    {start goal : String} {tmo : Option TimeoutSpec} :
    ∀ (fuel tick : ℕ) (st : Sv.DijState) (path : List String) (c : ℚ),
      Sv.dijkstraLoop g start goal tmo fuel tick st = .ok (path, c) →
      Sv.BFInv g start (Sv.dmapSome st.dist) st.prev →
      Sv.heapDist st.dist st.heap →
      Sv.distWalksD g start st.dist →
      (∀ e ∈ st.heap, Sv.WalkTo g start e.2 e.1) →
      Sv.heapMin st.dist st.heap st.visited →
      Sv.visitedOpt g start st.dist st.visited →
      Sv.visitedRelaxed g st.dist st.visited →
      Sv.heapAbove st.dist st.heap st.visited →
      dget st.dist start = some 0 →
      path.head? = some start ∧ path.getLast? = some goal ∧ Sv.okChain g path ∧
        Sv.chainW g path = c ∧
        ∀ l, Sv.okChain g l → l.head? = some start → l.getLast? = some goal →
          c ≤ Sv.chainW g l := by
  intro fuel
  induction fuel with
  | zero => intro tick st path c h _ _ _ _ _ _ _ _ _; cases h
  | succ fuel ih =>
    intro tick st path c h hBF hhd hdw hhw hhm hvo hvr hha hs0
    simp only [Sv.dijkstraLoop] at h
    rcases hpop : Sv.popMin st.heap with _ | mr
    · rw [hpop] at h
      cases h
    · rcases mr with ⟨⟨cost, node⟩, h'⟩
      rw [hpop] at h
      dsimp only at h
      rcases htmo : (match tmo with | none => false | some ts => ts.fires tick)
        with _ | _
      · rw [htmo] at h
        rw [if_neg (by simp)] at h
        rcases popMin_some hpop with ⟨hmem, hcover, hsub, hlen, hmin⟩
        rcases hvisn : st.visited.contains node with _ | _
        · rw [hvisn] at h
          rw [if_neg (by simp)] at h
          have hnodeun : node ∉ st.visited := by
            intro hmem'
            rw [contains_iff_mem.mpr hmem'] at hvisn
            cases hvisn
          have hcutb : ∀ (v : String) (l : List String), v ∉ st.visited →
              Sv.okChain g l → l.head? = some start → l.getLast? = some v →
              cost ≤ Sv.chainW g l := by
            intro v l hvun hc hh hl
            rcases chain_cut hnonneg hvo hvr hs0 l.length l v le_rfl hc hh hl with
              hall | ⟨x, dx, hx, hxv, hdx, hdxle⟩
            · exfalso
              apply hvun
              rcases List.mem_getLast?_eq_getLast (show v ∈ l.getLast? from hl) with
                ⟨hne, hv'⟩
              exact hall v (hv' ▸ List.getLast_mem hne)
            · have hxheap := hhm x dx hdx hxv
              exact le_trans (hmin (dx, x) hxheap) hdxle
          by_cases hng : node = goal
          · subst hng
            rw [if_pos rfl] at h
            rcases hhd (cost, node) hmem with ⟨dg, hdg, hdgle⟩
            have hdgeq : dg = cost :=
              le_antisymm hdgle (hmin (dg, node) (hhm node dg hdg hnodeun))
            subst hdgeq
            rcases hrec : Sv.reconstruct_path st.prev node with _ | p0
            · rw [hrec] at h
              cases h
            · rw [hrec] at h
              have hpc : p0 = path ∧ dg = c := by
                injection h with h1
                exact ⟨congrArg Prod.fst h1, congrArg Prod.snd h1⟩
              rcases hpc with ⟨rfl, rfl⟩
              have hop : ∀ l, Sv.okChain g l → l.head? = some start →
                  l.getLast? = some node → dg ≤ Sv.chainW g l :=
                fun l hc hh hl => hcutb node l hnodeun hc hh hl
              rcases hlw_ex : Sv.walkPrev st.prev node (st.prev.length + 1)
                with _ | lw
              · rw [Sv.reconstruct_path, hlw_ex] at hrec
                cases hrec
              · rw [Sv.reconstruct_path, hlw_ex] at hrec
                have hp0 : lw.reverse = p0 := by
                  have hrec' : some lw.reverse = some p0 := hrec
                  injection hrec'
                rcases walkPrev_spec _ node lw hlw_ex with
                  ⟨hhlw, hplw, z, hzlast, hznone⟩
                rcases lw with _ | ⟨g0, lw'⟩
                · cases hhlw
                · have hg0 : g0 = node := by injection hhlw
                  subst hg0
                  rcases lw' with _ | ⟨w1, lw''⟩
                  · have hz2 : z = g0 := by
                      have h3 : some g0 = some z := hzlast
                      injection h3 with h4
                      exact h4.symm
                    subst hz2
                    have hgs : z = start := by
                      apply hBF.2.1 z ?_ hznone
                      rw [dget_dmapSome_join, hdg]
                      rfl
                    have hc0 : dg = 0 := by
                      rw [hgs, hs0] at hdg
                      injection hdg with h4
                      exact h4.symm
                    rw [← hp0]
                    refine ⟨by rw [hgs]; rfl, rfl, trivial, by rw [hc0]; rfl, ?_⟩
                    exact hop
                  · have htel := prevPath_telescope hBF.1
                      (g0 :: w1 :: lw'') g0 z hplw rfl hzlast (by simp)
                    rcases htel with ⟨hchain, da, db, hda, hdb, hsum⟩
                    have hda2 : da = dg := by
                      rw [dget_dmapSome_join, hdg] at hda
                      injection hda with h4
                      exact h4.symm
                    subst hda2
                    have hzs : z = start := by
                      apply hBF.2.1 z ?_ hznone
                      rw [hdb]
                      rfl
                    have hdb0 : db = 0 := by
                      rw [hzs, dget_dmapSome_join, hs0] at hdb
                      injection hdb with h4
                      exact h4.symm
                    subst hdb0
                    have hhead : (g0 :: w1 :: lw'').reverse.head? = some start := by
                      rw [List.head?_reverse, hzlast, hzs]
                    have hlast : (g0 :: w1 :: lw'').reverse.getLast? = some g0 := by
                      rw [List.getLast?_reverse]
                      rfl
                    have hle1 : Sv.chainW g (g0 :: w1 :: lw'').reverse ≤ da := by
                      linarith
                    have hge1 := hop _ hchain hhead hlast
                    rw [← hp0]
                    exact ⟨hhead, hlast, hchain, le_antisymm hle1 hge1, hop⟩
          · rw [if_neg hng] at h
            rcases hstale :
                (match dget st.dist node with
                 | none => false
                 | some dv => decide (dv < cost)) with _ | _
            · rw [hstale] at h
              rw [if_neg (by simp)] at h
              rcases hhd (cost, node) hmem with ⟨dn, hdn, hdnle⟩
              have hdneq : dn = cost := by
                rw [hdn] at hstale
                simp only [decide_eq_false_iff_not] at hstale
                exact le_antisymm hdnle (not_lt.mp hstale)
              subst hdneq
              have hcost0 : 0 ≤ dn := by
                rcases walk_chain (hhw (dn, node) hmem) with ⟨c0, hc0, _, _, hwc0⟩
                have := chainW_nonneg hnonneg c0 hc0
                dsimp only at hwc0
                linarith
              have hvbc : ∀ m ∈ st.visited ++ [node], ∃ dm,
                  dget st.dist m = some dm ∧ dm ≤ dn := by
                intro m hm
                rcases List.mem_append.mp hm with hm' | hm'
                · exact hha (dn, node) hmem m hm'
                · rcases List.mem_singleton.mp hm' with rfl
                  exact ⟨dn, hdn, le_refl _⟩
              have hhm' : Sv.heapMin st.dist h' (st.visited ++ [node]) := by
                intro n dn' hdn' hnvis
                have hn1 : n ∉ st.visited := fun hh' =>
                  hnvis (List.mem_append_left _ hh')
                have hn2 : n ≠ node := fun hh' =>
                  hnvis (List.mem_append_right _ (by rw [hh']; simp))
                rcases hcover (dn', n) (hhm n dn' hdn' hn1) with heq | hmem'
                · exfalso
                  apply hn2
                  have : (dn', n).2 = (dn, node).2 := by rw [heq]
                  exact this
                · exact hmem'
              have hha' : Sv.heapAbove st.dist h' (st.visited ++ [node]) := by
                intro e he m hm
                rcases List.mem_append.mp hm with hm' | hm'
                · exact hha e (hsub e he) m hm'
                · rcases List.mem_singleton.mp hm' with rfl
                  exact ⟨dn, hdn, le_trans (le_of_eq rfl) (hmin e (hsub e he))⟩
              have hvo' : Sv.visitedOpt g start st.dist (st.visited ++ [node]) := by
                intro m hm
                rcases List.mem_append.mp hm with hm' | hm'
                · exact hvo m hm'
                · rcases List.mem_singleton.mp hm' with rfl
                  exact ⟨dn, hdn, fun l hc hh hl => hcutb m l hnodeun hc hh hl⟩
              rcases hrx : Sv.relaxNbrs dn node (Sv.neighbors g node)
                  (h', st.dist, st.prev) with ⟨h2, d2, p2⟩
              rw [hrx] at h
              dsimp only at h
              have hF := relaxNbrs_base hwf (Sv.neighbors g node) h' st.dist st.prev
                (fun q hq => neighbors_edgeW hwf hq) hBF
                ⟨dn, hdn, le_refl _⟩
                (fun e he => hhd e (hsub e he))
                hdw (hhw (dn, node) hmem)
                (fun e he => hhw e (hsub e he))
              have hF2 := relaxNbrs_nonneg hwf hnonneg (st.visited ++ [node])
                (Sv.neighbors g node) h' st.dist st.prev
                (fun q hq => neighbors_edgeW hwf hq) hBF
                ⟨dn, hdn, le_refl _⟩
                (fun e he => hhd e (hsub e he))
                hdw (hhw (dn, node) hmem)
                (fun e he => hhw e (hsub e he))
                hvbc hhm' hha' hs0 hcost0
              rw [hrx] at hF hF2
              rcases hF with ⟨rBF, rhd, rnode, rle, _, rdw, rhw⟩
              rcases hF2 with ⟨rfroz, rhm, rha, rrel, rs0⟩
              apply ih _ _ _ _ h rBF rhd rdw rhw rhm ?_ ?_ rha rs0
              · -- visitedOpt for the new state
                intro m hm
                rcases hvo' m hm with ⟨dm, hdm, hbound⟩
                refine ⟨dm, ?_, hbound⟩
                rw [rfroz m hm]
                exact hdm
              · -- visitedRelaxed for the new state
                intro n hn m w hew
                rcases List.mem_append.mp hn with hn' | hn'
                · rcases hvr n hn' m w hew with ⟨dn', dm', hdn', hdm', hrel⟩
                  rcases rle m dm' hdm' with ⟨dm₂, hdm₂, hle₂⟩
                  refine ⟨dn', dm₂, ?_, hdm₂, by linarith⟩
                  rw [rfroz n (List.mem_append_left _ hn')]
                  exact hdn'
                · rcases List.mem_singleton.mp hn' with rfl
                  have hmem2 : (m, w) ∈ Sv.neighbors g n := by
                    apply dget_mem
                    exact hew
                  rcases rrel (m, w) hmem2 with ⟨dm₂, hdm₂, hle₂⟩
                  refine ⟨dn, dm₂, ?_, hdm₂, by exact hle₂⟩
                  rw [rfroz n (List.mem_append_right _ (by simp))]
                  exact hdn
            · exfalso
              rw [hstale] at h
              rcases hdvn : dget st.dist node with _ | dv
              · rw [hdvn] at hstale
                cases hstale
              · rw [hdvn] at hstale
                simp only [decide_eq_true_eq] at hstale
                have := hmin (dv, node) (hhm node dv hdvn hnodeun)
                have hcle : cost ≤ dv := this
                linarith
        · rw [hvisn] at h
          rw [if_pos rfl] at h
          have hnodevis : node ∈ st.visited := contains_iff_mem.mp hvisn
          apply ih _ _ _ _ h hBF (fun e he => hhd e (hsub e he)) hdw
            (fun e he => hhw e (hsub e he)) ?_ hvo hvr
            (fun e he m hm => hha e (hsub e he) m hm) hs0
          intro n dn hdn hnvis
          rcases hcover (dn, n) (hhm n dn hdn hnvis) with heq | hmem'
          · exfalso
            apply hnvis
            have h3 : (dn, n).2 = (cost, node).2 := by rw [heq]
            rw [show n = node from h3]
            exact hnodevis
          · exact hmem'
      · rw [htmo] at h
        rw [if_pos rfl] at h
        cases h

theorem dij_init_BFInv (g : Sv.Graph) (start : String) :
    Sv.BFInv g start (Sv.dmapSome [(start, 0)]) [(start, none)] := by
  have hprev : ∀ n, (dget [(start, (none : Option String))] n).join = none := by
    intro n
    show (if start = n then some (none : Option String) else dget [] n).join = none
    by_cases h : start = n
    · rw [if_pos h]
      rfl
    · rw [if_neg h]
      rfl
  refine ⟨?_, ?_, Or.inr (PrevAcyclic_none _ hprev)⟩
  · intro n q hq
    rw [hprev] at hq
    cases hq
  · intro n hfin _
    by_cases h : start = n
    · exact h.symm
    · exfalso
      have : dget (Sv.dmapSome [(start, 0)]) n = none := by
        show (if start = n then some (some (0 : ℚ)) else dget [] n) = none
        rw [if_neg h]
        rfl
      rw [this] at hfin
      cases hfin

theorem dget_init_dist (start : String) (n : String) :
    dget [(start, (0 : ℚ))] n = if start = n then some 0 else none := by
  show (if start = n then some (0 : ℚ) else dget [] n) = _
  by_cases h : start = n
  · rw [if_pos h, if_pos h]
  · rw [if_neg h, if_neg h]
    rfl

/-- `DijkstraAlgorithm.compute` on a graph with no negative edge: a normal
return is a start-goal chain whose weight is the cost, and the cost is
optimal among all chains. -/
theorem dijkstra_ok_nonneg_spec {g : Sv.Graph} (hwf : g.WF)
    (hnonneg : ∀ a b w, Sv.edgeW g a b = some w → 0 ≤ w)
    {start goal : String} {tmo : Option TimeoutSpec} {fuel : ℕ}
    {path : List String} {c : ℚ}
    (h : Sv.dijkstraCompute g start goal tmo fuel = .ok (path, c)) :
    path.head? = some start ∧ path.getLast? = some goal ∧ Sv.okChain g path ∧
      Sv.chainW g path = c ∧
      ∀ l, Sv.okChain g l → l.head? = some start → l.getLast? = some goal →
        c ≤ Sv.chainW g l := by
  rw [Sv.dijkstraCompute] at h
  refine dijkstraLoop_ok_nonneg hwf hnonneg fuel 0 _ path c h
    (dij_init_BFInv g start) ?_ ?_ ?_ ?_ ?_ ?_ ?_ ?_
  · intro e he
    rcases List.mem_singleton.mp he with rfl
    exact ⟨0, by rw [dget_init_dist, if_pos rfl], le_refl _⟩
  · intro v d hd
    rw [dget_init_dist] at hd
    by_cases hv : start = v
    · rw [if_pos hv] at hd
      have : (0 : ℚ) = d := by injection hd
      subst this
      subst hv
      exact Sv.WalkTo.nil start
    · rw [if_neg hv] at hd
      cases hd
  · intro e he
    rcases List.mem_singleton.mp he with rfl
    exact Sv.WalkTo.nil start
  · intro n dn hdn _
    rw [dget_init_dist] at hdn
    by_cases hv : start = n
    · rw [if_pos hv] at hdn
      have : (0 : ℚ) = dn := by injection hdn
      subst this
      subst hv
      simp
    · rw [if_neg hv] at hdn
      cases hdn
  · intro m hm
    simp at hm
  · intro m hm
    simp at hm
  · intro e he m hm
    simp at hm
  · rw [dget_init_dist, if_pos rfl]

/-- `DijkstraAlgorithm.compute` on any graph: a normal return is a chain from
start to goal through graph edges. -/
theorem dijkstra_ok_base_spec {g : Sv.Graph} (hwf : g.WF)
    {start goal : String} {tmo : Option TimeoutSpec} {fuel : ℕ}
    {path : List String} {c : ℚ}
    (h : Sv.dijkstraCompute g start goal tmo fuel = .ok (path, c)) :
    path.head? = some start ∧ path.getLast? = some goal ∧ Sv.okChain g path := by
  rw [Sv.dijkstraCompute] at h
  refine dijkstraLoop_ok_base hwf fuel 0 _ path c h
    (dij_init_BFInv g start) ?_ ?_ ?_
  · intro e he
    rcases List.mem_singleton.mp he with rfl
    exact ⟨0, by rw [dget_init_dist, if_pos rfl], le_refl _⟩
  · intro v d hd
    rw [dget_init_dist] at hd
    by_cases hv : start = v
    · rw [if_pos hv] at hd
      have : (0 : ℚ) = d := by injection hd
      subst this
      subst hv
      exact Sv.WalkTo.nil start
    · rw [if_neg hv] at hd
      cases hd
  · intro e he
    rcases List.mem_singleton.mp he with rfl
    exact Sv.WalkTo.nil start

/-! ### Termination measures and result shapes -/

theorem filter_length_mono {α : Type} (l : List α) (p q : α → Bool)
    (h : ∀ x, p x = true → q x = true) :
    (l.filter p).length ≤ (l.filter q).length := by
  induction l with
  | nil => exact le_refl _
  | cons a t ih =>
    rw [List.filter_cons, List.filter_cons]
    by_cases hp : p a = true
    · rw [if_pos hp, if_pos (h a hp)]
      simpa using ih
    · rw [if_neg hp]
      by_cases hq : q a = true
      · rw [if_pos hq]
        exact le_trans ih (by simp)
      · rw [if_neg hq]
        exact ih

theorem contains_append_one (visited : List String) (node x : String) :
    (visited ++ [node]).contains x =
      (visited.contains x || decide (x = node)) := by
  rcases h1 : visited.contains x with _ | _
  · rcases h2 : decide (x = node) with _ | _
    · simp only [Bool.or_false]
      rcases h3 : (visited ++ [node]).contains x with _ | _
      · rfl
      · exfalso
        rcases List.mem_append.mp (contains_iff_mem.mp h3) with hm | hm
        · rw [contains_iff_mem.mpr hm] at h1
          cases h1
        · rcases List.mem_singleton.mp hm with rfl
          simp at h2
    · simp only [Bool.or_true]
      exact contains_iff_mem.mpr
        (List.mem_append_right _ (by simp [of_decide_eq_true h2]))
  · simp only [Bool.true_or]
    exact contains_iff_mem.mpr (List.mem_append_left _ (contains_iff_mem.mp h1))

theorem unvisitedOut_visit {g : Sv.Graph} {node : String} {visited : List String}
    (hnode : node ∉ visited) :
    Sv.unvisitedOut g (visited ++ [node]) +
      ((Sv.edgesList g).filter fun e => decide (e.1 = node)).length =
      Sv.unvisitedOut g visited := by
  rw [Sv.unvisitedOut, Sv.unvisitedOut]
  generalize Sv.edgesList g = l
  induction l with
  | nil => rfl
  | cons e t ih =>
    rw [List.filter_cons, List.filter_cons, List.filter_cons]
    by_cases h1 : e.1 ∈ visited
    · have hc1 : visited.contains e.1 = true := contains_iff_mem.mpr h1
      have hc2 : (visited ++ [node]).contains e.1 = true :=
        contains_iff_mem.mpr (List.mem_append_left _ h1)
      have hd : ¬(decide (e.1 = node) = true) := by
        intro hd
        apply hnode
        have h2 : e.1 = node := of_decide_eq_true hd
        rw [← h2]
        exact h1
      rw [if_neg (by rw [hc2]; simp), if_neg hd, if_neg (by rw [hc1]; simp)]
      exact ih
    · have hc1 : visited.contains e.1 = false := by
        rcases h : visited.contains e.1 with _ | _
        · rfl
        · exact absurd (contains_iff_mem.mp h) h1
      by_cases h2 : e.1 = node
      · have hc2 : (visited ++ [node]).contains e.1 = true :=
          contains_iff_mem.mpr (List.mem_append_right _ (by simp [h2]))
        rw [if_neg (by rw [hc2]; simp), if_pos (by simp [h2]),
          if_pos (by rw [hc1]; simp)]
        simp only [List.length_cons]
        omega
      · have hc2 : (visited ++ [node]).contains e.1 = false := by
          rcases h : (visited ++ [node]).contains e.1 with _ | _
          · rfl
          · exfalso
            rcases List.mem_append.mp (contains_iff_mem.mp h) with hm | hm
            · exact h1 hm
            · exact h2 (List.mem_singleton.mp hm)
        rw [if_pos (by rw [hc2]; simp), if_neg (by simp [h2]),
          if_pos (by rw [hc1]; simp)]
        simp only [List.length_cons]
        omega

theorem flat_filter_le (adj : PyDict (PyDict ℚ)) (node : String) :
    ((dget adj node).getD []).length ≤
      ((adj.flatMap fun p => p.2.map fun q => (p.1, q.1, q.2)).filter
        fun e => decide (e.1 = node)).length := by
  induction adj with
  | nil => exact le_refl _
  | cons kv t ih =>
    rw [show ((kv :: t).flatMap fun p => p.2.map fun q => (p.1, q.1, q.2)) =
      (kv.2.map fun q => (kv.1, q.1, q.2)) ++
        (t.flatMap fun p => p.2.map fun q => (p.1, q.1, q.2)) from by
        simp [List.flatMap_cons]]
    rw [List.filter_append, List.length_append]
    show ((if kv.1 = node then some kv.2 else dget t node).getD []).length ≤ _
    by_cases hk : kv.1 = node
    · rw [if_pos hk]
      have hall : ((kv.2.map fun q => (kv.1, q.1, q.2)).filter
          fun e => decide (e.1 = node)).length = kv.2.length := by
        rw [List.filter_eq_self.mpr ?_, List.length_map]
        intro x hx
        rcases List.mem_map.mp hx with ⟨q, _, rfl⟩
        simpa using hk
      rw [hall]
      simp only [Option.getD_some]
      omega
    · rw [if_neg hk]
      have := ih
      omega

theorem bfLoop_error_shape {g : Sv.Graph} {tmo : Option TimeoutSpec} :
    ∀ (k tick : ℕ) (dp : PyDict (Option ℚ) × PyDict (Option String)) (e : PyErr),
      Sv.bfLoop g tmo k tick dp = .error e → ∃ m, e = .timeoutError m := by
  intro k
  induction k with
  | zero =>
    intro tick dp e h
    simp only [Sv.bfLoop] at h
    cases h
  | succ k ih =>
    intro tick dp e h
    simp only [Sv.bfLoop] at h
    rcases htmo : (match tmo with | none => false | some ts => ts.fires tick)
      with _ | _
    · rw [htmo] at h
      rw [if_neg (by simp)] at h
      rcases hq : Sv.bfPass g (dp.1, dp.2, false) with ⟨d2, p2, upd⟩
      rw [hq] at h
      dsimp only at h
      rcases upd with _ | _
      · cases h
      · exact ih (tick + 1) (d2, p2) e h
    · rw [htmo] at h
      rw [if_pos rfl] at h
      have h' : PyErr.timeoutError ("Computation exceeded timeout of " ++
          ((tmo.map TimeoutSpec.repr).getD "") ++ "s") = e := by
        injection h
      exact ⟨_, h'.symm⟩

theorem unvisitedOut_append_le (g : Sv.Graph) (visited : List String) (node : String) :
    Sv.unvisitedOut g (visited ++ [node]) ≤ Sv.unvisitedOut g visited := by
  rw [Sv.unvisitedOut, Sv.unvisitedOut]
  apply filter_length_mono
  intro e he
  simp only [Bool.not_eq_true'] at he ⊢
  rcases h : visited.contains e.1 with _ | _
  · rfl
  · exfalso
    rw [contains_iff_mem.mpr
      (List.mem_append_left _ (contains_iff_mem.mp h))] at he
    cases he

/-- With enough fuel, the Dijkstra loop on a nonnegative graph always
finishes: it returns a result or raises "no path" or a timeout; it never
exhausts the fuel (i.e. the Python loop terminates) and never diverges in
path reconstruction. -/
theorem dijkstraLoop_shape {g : Sv.Graph} (hwf : g.WF)
    (hnonneg : ∀ a b w, Sv.edgeW g a b = some w → 0 ≤ w)
    {start goal : String} {tmo : Option TimeoutSpec} :
    ∀ (fuel tick : ℕ) (st : Sv.DijState),
      Sv.BFInv g start (Sv.dmapSome st.dist) st.prev →
      Sv.heapDist st.dist st.heap →
      Sv.distWalksD g start st.dist →
      (∀ e ∈ st.heap, Sv.WalkTo g start e.2 e.1) →
      st.heap.length + Sv.unvisitedOut g st.visited < fuel →
      (∃ pc, Sv.dijkstraLoop g start goal tmo fuel tick st = .ok pc) ∨
      (∃ m, Sv.dijkstraLoop g start goal tmo fuel tick st =
        .error (.valueError m)) ∨
      (∃ m, Sv.dijkstraLoop g start goal tmo fuel tick st =
        .error (.timeoutError m)) := by
  intro fuel
  induction fuel with
  | zero =>
    intro tick st _ _ _ _ hmeas
    omega
  | succ fuel ih =>
    intro tick st hBF hhd hdw hhw hmeas
    simp only [Sv.dijkstraLoop]
    rcases hpop : Sv.popMin st.heap with _ | mr
    · exact Or.inr (Or.inl ⟨_, rfl⟩)
    · rcases mr with ⟨⟨cost, node⟩, h'⟩
      dsimp only
      rcases popMin_some hpop with ⟨hmem, hcover, hsub, hlen, hmin⟩
      rcases htmo : (match tmo with | none => false | some ts => ts.fires tick)
        with _ | _
      · rw [htmo]
        rw [if_neg (by simp)]
        rcases hvisn : st.visited.contains node with _ | _
        · rw [if_neg (by simp)]
          have hnodeun : node ∉ st.visited := by
            intro hmem'
            rw [contains_iff_mem.mpr hmem'] at hvisn
            cases hvisn
          by_cases hng : node = goal
          · subst hng
            rw [if_pos rfl]
            have hacy : Sv.PrevAcyclic st.prev := by
              rcases hBF.2.2 with hbad | hacy
              · exfalso
                rcases hbad with ⟨cc, v, _, _, _, hcok, hcw, _⟩
                exact absurd hcw (not_lt.mpr (chainW_nonneg hnonneg cc hcok))
              · exact hacy
            rcases walkPrev_total hacy node with ⟨lw, hlw⟩
            rw [show Sv.reconstruct_path st.prev node = some lw.reverse from by
              rw [Sv.reconstruct_path, hlw]; rfl]
            exact Or.inl ⟨_, rfl⟩
          · rw [if_neg hng]
            rcases hstale :
                (match dget st.dist node with
                 | none => false
                 | some dv => decide (dv < cost)) with _ | _
            · rw [hstale]
              rw [if_neg (by simp)]
              rcases hrx : Sv.relaxNbrs cost node (Sv.neighbors g node)
                  (h', st.dist, st.prev) with ⟨h2, d2, p2⟩
              dsimp only
              have hF := relaxNbrs_base hwf (Sv.neighbors g node) h' st.dist st.prev
                (fun q hq => neighbors_edgeW hwf hq) hBF
                (by rcases hhd (cost, node) hmem with ⟨dn, hdn, hle⟩
                    exact ⟨dn, hdn, hle⟩)
                (fun e he => hhd e (hsub e he))
                hdw (hhw (cost, node) hmem)
                (fun e he => hhw e (hsub e he))
              rw [hrx] at hF
              rcases hF with ⟨rBF, rhd, _, _, ⟨tl, htl, htllen⟩, rdw, rhw⟩
              apply ih (tick + 1)
                { heap := h2, dist := d2, prev := p2,
                  visited := st.visited ++ [node] } rBF rhd rdw rhw
              show h2.length + Sv.unvisitedOut g (st.visited ++ [node]) < fuel
              have huv := @unvisitedOut_visit g node st.visited hnodeun
              have hfl : ((dget g.adj node).getD []).length ≤
                  ((Sv.edgesList g).filter fun e => decide (e.1 = node)).length :=
                flat_filter_le g.adj node
              have htl' : h2 = h' ++ tl := htl
              have hlen2 : h2.length = h'.length + tl.length := by
                rw [htl', List.length_append]
              have hnb : (Sv.neighbors g node).length =
                  ((dget g.adj node).getD []).length := rfl
              omega
            · rw [hstale]
              rw [if_pos rfl]
              apply ih (tick + 1)
                { heap := h', dist := st.dist, prev := st.prev,
                  visited := st.visited ++ [node] }
                hBF (fun e he => hhd e (hsub e he)) hdw
                (fun e he => hhw e (hsub e he))
              show h'.length + Sv.unvisitedOut g (st.visited ++ [node]) < fuel
              have := unvisitedOut_append_le g st.visited node
              omega
        · rw [if_pos rfl]
          apply ih (tick + 1) { st with heap := h' }
            hBF (fun e he => hhd e (hsub e he)) hdw
            (fun e he => hhw e (hsub e he))
          show h'.length + Sv.unvisitedOut g st.visited < fuel
          omega
      · rw [htmo]
        rw [if_pos rfl]
        exact Or.inr (Or.inr ⟨_, rfl⟩)

/-- Bellman-Ford always terminates with a result, a ValueError (negative
cycle or no path) or a timeout, provided the goal is a node: the KeyError
branch and reconstruction divergence are unreachable. -/
theorem bellmanFord_shape {g : Sv.Graph} (hwf : g.WF) {start goal : String}
    {tmo : Option TimeoutSpec} (hgoal : Sv.has_node g goal = true) :
    (∃ pc, Sv.bellmanFordCompute g start goal tmo = .ok pc) ∨
    (∃ m, Sv.bellmanFordCompute g start goal tmo = .error (.valueError m)) ∨
    (∃ m, Sv.bellmanFordCompute g start goal tmo = .error (.timeoutError m)) := by
  rcases hloop : Sv.bfLoop g tmo ((Sv.nodesList g).length - 1) 0
      (dset ((Sv.nodesList g).map fun n => (n, (none : Option ℚ))) start (some 0),
       (Sv.nodesList g).map fun n => (n, (none : Option String))) with e | dp
  · rcases bfLoop_error_shape _ _ _ _ hloop with ⟨m, rfl⟩
    right
    right
    refine ⟨m, ?_⟩
    unfold Sv.bellmanFordCompute
    simp only [bind, Except.bind]
    rw [hloop]
  · rcases dp with ⟨dist, prev⟩
    rcases bfLoop_ok_inv hwf _ _ _ _ _ _ hloop (probeInit_walks g start)
      (BFInv_init g start) with ⟨hw', hinv', hkeys, hole⟩
    rcases himp : Sv.improvesSome g dist with _ | _
    · -- fixpoint: success, no-path, or nothing else
      have hfix := distFix_of_improves_false himp
      have hgoal0 : (dget (dset ((Sv.nodesList g).map fun n =>
          (n, (none : Option ℚ))) start (some 0)) goal).isSome := by
        by_cases hg : goal = start
        · subst hg
          rw [dget_dset_self]
          rfl
        · rw [dget_dset_ne _ _ _ _ hg]
          apply dget_map_mem
          rw [Sv.nodesList, mem_dkeys_iff_dget]
          exact hgoal
      have hgoalsome := hkeys goal hgoal0
      rcases hgd : dget dist goal with _ | od
      · rw [hgd] at hgoalsome
        cases hgoalsome
      · rcases od with _ | cval
        · right
          left
          refine ⟨"No path found from " ++ start ++ " to " ++ goal, ?_⟩
          unfold Sv.bellmanFordCompute
          simp only [bind, Except.bind]
          rw [hloop]
          dsimp only
          rw [himp]
          rw [if_neg (by simp)]
          rw [hgd]
          rfl
        · left
          have hacy : Sv.PrevAcyclic prev := by
            rcases hinv'.2.2 with hbad | hacy
            · exact (BadFin_fix_false hfix hbad).elim
            · exact hacy
          rcases walkPrev_total hacy goal with ⟨lw, hlw⟩
          refine ⟨(lw.reverse, cval), ?_⟩
          unfold Sv.bellmanFordCompute
          simp only [bind, Except.bind]
          rw [hloop]
          dsimp only
          rw [himp]
          rw [if_neg (by simp)]
          rw [hgd]
          show (match Sv.reconstruct_path prev goal with
            | none => throw PyErr.nonterm
            | some path => pure (path, cval)) = _
          rw [show Sv.reconstruct_path prev goal = some lw.reverse from by
            rw [Sv.reconstruct_path, hlw]; rfl]
          rfl
    · right
      left
      refine ⟨"Graph contains negative cycle; shortest path undefined", ?_⟩
      unfold Sv.bellmanFordCompute
      simp only [bind, Except.bind]
      rw [hloop]
      dsimp only
      rw [himp]
      rw [if_pos rfl]
      rfl

theorem validate_nodes {g : Sv.Graph} {start goal : String}
    (h : (Sv.validate_route_request g start goal).is_valid = true) :
    Sv.has_node g start = true ∧ Sv.has_node g goal = true := by
  rw [Sv.validate_route_request] at h
  rcases hgv : (Sv.validate_graph g).is_valid with _ | _
  · rw [hgv] at h
    simp at h
  · rw [hgv] at h
    simp only [Bool.not_true, Bool.false_eq_true, if_false] at h
    rcases hs : Sv.has_node g start with _ | _
    · rw [hs] at h
      rcases hg : Sv.has_node g goal with _ | _
      · rw [hg] at h
        simp [Sv.addError] at h
      · rw [hg] at h
        simp [Sv.addError] at h
    · rw [hs] at h
      rcases hg : Sv.has_node g goal with _ | _
      · rw [hg] at h
        simp [Sv.addError] at h
      · exact ⟨rfl, rfl⟩

/-- Dijkstra with fuel `dijFuel g` always terminates with a result, a
ValueError (empty heap / no path) or a timeout on a nonnegative graph. -/
theorem dijkstra_shape {g : Sv.Graph} (hwf : g.WF)
    (hnonneg : ∀ a b w, Sv.edgeW g a b = some w → 0 ≤ w)
    (start goal : String) (tmo : Option TimeoutSpec) :
    (∃ pc, Sv.dijkstraCompute g start goal tmo (Sv.dijFuel g) = .ok pc) ∨
    (∃ m, Sv.dijkstraCompute g start goal tmo (Sv.dijFuel g) =
      .error (.valueError m)) ∨
    (∃ m, Sv.dijkstraCompute g start goal tmo (Sv.dijFuel g) =
      .error (.timeoutError m)) := by
  rw [Sv.dijkstraCompute]
  refine dijkstraLoop_shape hwf hnonneg (Sv.dijFuel g) 0 _ (dij_init_BFInv g start)
    ?_ ?_ ?_ ?_
  · intro e he
    rcases List.mem_singleton.mp he with rfl
    exact ⟨0, by rw [dget_init_dist, if_pos rfl], le_refl _⟩
  · intro v d hd
    rw [dget_init_dist] at hd
    by_cases hv : start = v
    · rw [if_pos hv] at hd
      have h0 : (0 : ℚ) = d := by injection hd
      subst h0
      subst hv
      exact Sv.WalkTo.nil start
    · rw [if_neg hv] at hd
      cases hd
  · intro e he
    rcases List.mem_singleton.mp he with rfl
    exact Sv.WalkTo.nil start
  · show 1 + Sv.unvisitedOut g [] < Sv.dijFuel g
    rw [Sv.unvisitedOut,
      show (Sv.edgesList g).filter (fun e => !(([] : List String).contains e.1)) =
        Sv.edgesList g from List.filter_eq_self.mpr (fun a _ => rfl),
      Sv.dijFuel]
    omega

/-- C3 (amended): on a graph built from edges all of nonnegative weight,
whenever DijkstraAlgorithm.compute and BellmanFordAlgorithm.compute both
succeed on the same (start, goal), the returned costs are equal.  (The
returned node sequences need not be: both are optimal, but tie-breaking
differs, as the counterexample shows.) -/
theorem C3_cost_equivalence (es : List (String × String × ℚ))
    (hpos : ∀ e ∈ es, (0 : ℚ) ≤ e.2.2) (start goal : String)
    (tmo₁ tmo₂ : Option TimeoutSpec) (fuel : ℕ) (p₁ p₂ : List String) (c₁ c₂ : ℚ)
    (h₁ : Sv.dijkstraCompute (Sv.from_edge_list es) start goal tmo₁ fuel =
      .ok (p₁, c₁))
    (h₂ : Sv.bellmanFordCompute (Sv.from_edge_list es) start goal tmo₂ =
      .ok (p₂, c₂)) :
    c₁ = c₂ := by
  have hwf := WF_from_edge_list es
  have hnn : ∀ a b w, Sv.edgeW (Sv.from_edge_list es) a b = some w → 0 ≤ w :=
    fun a b w hw => hpos _ (edgeW_from_edge_list_mem hw)
  obtain ⟨hh₁, hl₁, hc₁, hw₁, hopt₁⟩ := dijkstra_ok_nonneg_spec hwf hnn h₁
  obtain ⟨hh₂, hl₂, hc₂, hw₂, hopt₂⟩ := bellmanFord_ok_spec hwf h₂
  have h12 : c₁ ≤ c₂ := by
    have h := hopt₁ p₂ hc₂ hh₂ hl₂
    rw [hw₂] at h
    exact h
  have h21 : c₂ ≤ c₁ := by
    have h := hopt₂ p₁ hc₁ hh₁ hl₁
    rw [hw₁] at h
    exact h
  exact le_antisymm h12 h21

/-- C3 witness: on the tie-break graph (all weights 1), Dijkstra returns
([A, B, D], 2) and Bellman-Ford ([A, C, D], 2); the theorem applied there
yields equality of the two costs. -/
theorem C3_witness :
    (∀ e ∈ [("A", "C", (1 : ℚ)), ("A", "B", 1), ("C", "D", 1), ("B", "D", 1)],
      (0 : ℚ) ≤ e.2.2) ∧
    Sv.dijkstraCompute
      (Sv.from_edge_list
        [("A", "C", (1 : ℚ)), ("A", "B", 1), ("C", "D", 1), ("B", "D", 1)])
      "A" "D" none 6 = .ok (["A", "B", "D"], 2) ∧
    Sv.bellmanFordCompute
      (Sv.from_edge_list
        [("A", "C", (1 : ℚ)), ("A", "B", 1), ("C", "D", 1), ("B", "D", 1)])
      "A" "D" none = .ok (["A", "C", "D"], 2) ∧
    (2 : ℚ) = 2 :=
  ⟨by with_unfolding_all decide, by with_unfolding_all decide,
   by with_unfolding_all decide,
   C3_cost_equivalence
     [("A", "C", (1 : ℚ)), ("A", "B", 1), ("C", "D", 1), ("B", "D", 1)]
     (by with_unfolding_all decide) "A" "D" none none 6
     ["A", "B", "D"] ["A", "C", "D"] 2 2
     (by with_unfolding_all decide) (by with_unfolding_all decide)⟩

/-- C10 (amended): every path returned normally by either algorithm on a
constructed graph is non-empty, starts at start, ends at goal, and walks
only directed edges of the graph; the returned cost equals the sum of the
traversed edge weights for Bellman-Ford always, and for Dijkstra on graphs
whose edges all have nonnegative weight (on negative graphs the stale-heap
counterexample breaks the cost equation). -/
theorem C10_wellformed_paths :
    (∀ (es : List (String × String × ℚ)) (start goal : String)
        (tmo : Option TimeoutSpec) (path : List String) (c : ℚ),
      Sv.bellmanFordCompute (Sv.from_edge_list es) start goal tmo = .ok (path, c) →
      path ≠ [] ∧ path.head? = some start ∧ path.getLast? = some goal ∧
        Sv.okChain (Sv.from_edge_list es) path ∧
        Sv.chainW (Sv.from_edge_list es) path = c) ∧
    (∀ (es : List (String × String × ℚ)) (start goal : String)
        (tmo : Option TimeoutSpec) (fuel : ℕ) (path : List String) (c : ℚ),
      Sv.dijkstraCompute (Sv.from_edge_list es) start goal tmo fuel = .ok (path, c) →
      path ≠ [] ∧ path.head? = some start ∧ path.getLast? = some goal ∧
        Sv.okChain (Sv.from_edge_list es) path) ∧
    (∀ (es : List (String × String × ℚ)), (∀ e ∈ es, (0 : ℚ) ≤ e.2.2) →
      ∀ (start goal : String) (tmo : Option TimeoutSpec) (fuel : ℕ)
        (path : List String) (c : ℚ),
      Sv.dijkstraCompute (Sv.from_edge_list es) start goal tmo fuel = .ok (path, c) →
      Sv.chainW (Sv.from_edge_list es) path = c) := by
  refine ⟨?_, ?_, ?_⟩
  · intro es start goal tmo path c h
    obtain ⟨hh, hl, hc, hw, _⟩ := bellmanFord_ok_spec (WF_from_edge_list es) h
    refine ⟨?_, hh, hl, hc, hw⟩
    intro hnil
    rw [hnil] at hh
    cases hh
  · intro es start goal tmo fuel path c h
    obtain ⟨hh, hl, hc⟩ := dijkstra_ok_base_spec (WF_from_edge_list es) h
    refine ⟨?_, hh, hl, hc⟩
    intro hnil
    rw [hnil] at hh
    cases hh
  · intro es hpos start goal tmo fuel path c h
    have hnn : ∀ a b w, Sv.edgeW (Sv.from_edge_list es) a b = some w → 0 ≤ w :=
      fun a b w hw => hpos _ (edgeW_from_edge_list_mem hw)
    obtain ⟨_, _, _, hw, _⟩ :=
      dijkstra_ok_nonneg_spec (WF_from_edge_list es) hnn h
    exact hw

/-- C10 witness: instantiating the Bellman-Ford part on the one-edge graph
A→B=1, where the returned path is [A, B] with cost 1. -/
theorem C10_witness :
    Sv.bellmanFordCompute (Sv.from_edge_list [("A", "B", (1 : ℚ))]) "A" "B" none =
      .ok (["A", "B"], 1) ∧
    ((["A", "B"] : List String) ≠ [] ∧
      (["A", "B"] : List String).head? = some "A" ∧
      (["A", "B"] : List String).getLast? = some "B" ∧
      Sv.okChain (Sv.from_edge_list [("A", "B", (1 : ℚ))]) ["A", "B"] ∧
      Sv.chainW (Sv.from_edge_list [("A", "B", (1 : ℚ))]) ["A", "B"] = 1) :=
  ⟨by with_unfolding_all decide,
   C10_wellformed_paths.1 [("A", "B", (1 : ℚ))] "A" "B" none ["A", "B"] 1
     (by with_unfolding_all decide)⟩

/-- C9: for every request whose graph was built by add_edge calls, route
returns a RouteResponse and never propagates an exception: validation
errors, negative cycles, missing paths and timeouts all surface only as
response status/error fields. -/
theorem C9_total_orchestrator (es : List (String × String × ℚ))
    (s : Sv.ServiceState) (start goal rid : String) (ts : TimeoutSpec) :
    ∃ s' resp, Sv.route s
      { graph := Sv.from_edge_list es, start := start, goal := goal,
        request_id := rid, timeout := ts } = .ok (s', resp) := by
  have hwf := WF_from_edge_list es
  unfold Sv.route
  dsimp only
  rcases hcache : dget s.cache
      (if rid = "" then "uuid-" ++ toString s.uuidCtr else rid) with _ | cached
  · rcases hval : (Sv.validate_route_request (Sv.from_edge_list es) start goal).is_valid
        with _ | _
    · exact ⟨_, _, rfl⟩
    · have hv := validate_nodes hval
      rcases hnw : (Sv.get_metadata (Sv.from_edge_list es)).has_negative_weights
          with _ | _
      · -- no negative weights: dijkstra branch
        have hnwe : (es.any fun e => decide (e.2.2 < 0)) = false := by
          have h' : (Sv.from_edge_list es).metadata.has_negative_weights = false := hnw
          rw [hnw_from_edge_list] at h'
          exact h'
        have hnn : ∀ a b w, Sv.edgeW (Sv.from_edge_list es) a b = some w → 0 ≤ w := by
          intro a b w hw
          have hmem := edgeW_from_edge_list_mem hw
          by_contra hneg
          have ht : (es.any fun e => decide (e.2.2 < 0)) = true :=
            List.any_eq_true.mpr ⟨(a, b, w), hmem, by
              simp only [decide_eq_true_eq]
              linarith [not_le.mp hneg]⟩
          rw [ht] at hnwe
          cases hnwe
        have hsel : Sv.select_algorithm_name (Sv.from_edge_list es) = "dijkstra" := by
          rw [Sv.select_algorithm_name, hnw]
          rw [if_neg (by simp)]
        have hcr : Sv.compute_route (Sv.from_edge_list es) start goal (some ts) =
            (Sv.dijkstraCompute (Sv.from_edge_list es) start goal (some ts)
              (Sv.dijFuel (Sv.from_edge_list es)), "dijkstra") := by
          unfold Sv.compute_route
          rw [hsel]
          rw [if_neg (by decide)]
        rw [hcr]
        rcases dijkstra_shape hwf hnn start goal (some ts) with
          ⟨⟨p, c⟩, hd⟩ | ⟨m, hd⟩ | ⟨m, hd⟩
        · rw [hd]
          exact ⟨_, _, rfl⟩
        · rw [hd]
          exact ⟨_, _, rfl⟩
        · rw [hd]
          exact ⟨_, _, rfl⟩
      · -- negative weights present: bellman_ford branch
        have hsel : Sv.select_algorithm_name (Sv.from_edge_list es) = "bellman_ford" := by
          rw [Sv.select_algorithm_name, hnw]
          rw [if_pos rfl]
        have hcr : Sv.compute_route (Sv.from_edge_list es) start goal (some ts) =
            (Sv.bellmanFordCompute (Sv.from_edge_list es) start goal (some ts),
              "bellman_ford") := by
          unfold Sv.compute_route
          rw [hsel]
          rw [if_pos rfl]
        rw [hcr]
        rcases @bellmanFord_shape (Sv.from_edge_list es) hwf start goal (some ts) hv.2 with
          ⟨⟨p, c⟩, hd⟩ | ⟨m, hd⟩ | ⟨m, hd⟩
        · rw [hd]
          exact ⟨_, _, rfl⟩
        · rw [hd]
          exact ⟨_, _, rfl⟩
        · rw [hd]
          exact ⟨_, _, rfl⟩
  · exact ⟨_, _, rfl⟩

/-- C9 witness: a concrete route call on the one-edge graph from the initial
service state succeeds with an ok response. -/
theorem C9_witness :
    ∃ s' resp, Sv.route Sv.ServiceState.init
      { graph := Sv.from_edge_list [("A", "B", (1 : ℚ))], start := "A",
        goal := "B", request_id := "r1", timeout := tmoNever } =
      .ok (s', resp) :=
  C9_total_orchestrator [("A", "B", (1 : ℚ))] Sv.ServiceState.init "A" "B" "r1" tmoNever
